import Mathlib

/-!
# Shallow embedding of `formatter.go` (package `selfformatter`)

Go strings are modelled as lists of characters, Go maps as association lists,
and the two objects `Format` mutates (the formatter and the record) are
threaded through explicitly.

Go leaves the order of a range over a map unspecified.  `Format` below takes
the keys of the field map in list order, which is one of the orders a run can
show; `FormatRanged` takes the order of the range as an input of the call.
What depends on that order (sorting disabled, two successive calls, the place
of a key in the walk) is stated about `FormatRanged`, for every rearrangement
of the keys.
-/

namespace SelfFormatter

/-- Go `string`. -/
abbrev Str := List Char

/-! ## Library functions used by the source -/

/-- Go `strings.Replace(s, old, new, 1)`: the first occurrence of `old` in `s`
is replaced by `new`; `s` is returned unchanged when `old` does not occur. -/
def replaceFirst : Str → Str → Str → Str
  | [], old, new => if old = [] then new else []
  | c :: s, old, new =>
    if old.isPrefixOf (c :: s) then new ++ (c :: s).drop old.length
    else c :: replaceFirst s old new

/-- Go `strings.TrimSuffix(s, "\n")`. -/
def trimSuffixNL (s : Str) : Str :=
  if s.getLast? = some '\n' then s.dropLast else s

/-- Go `strings.ToUpper`, on the ASCII range. -/
def toUpper (s : Str) : Str := s.map Char.toUpper

/-- Go `fmt.Sprintf("%d", n)`. -/
def fmtD (n : Int) : Str :=
  if n < 0 then '-' :: Nat.toDigits 10 n.natAbs else Nat.toDigits 10 n.toNat

/-- Go string comparison `a <= b` (lexicographic). -/
def strLe : Str → Str → Bool
  | [], _ => true
  | _ :: _, [] => false
  | a :: s, b :: t =>
    if a.toNat < b.toNat then true
    else if b.toNat < a.toNat then false
    else strLe s t

/-- Go `sort.Strings`: the ascending rearrangement of the slice.  Equal strings
are indistinguishable, so the result does not depend on the sorting algorithm. -/
def sortStrings (keys : List Str) : List Str :=
  keys.insertionSort (fun a b => strLe a b = true)

/-- A value stored in `Fields` (`interface{}`): either a Go string, or any
other value, given by what `%v` and what `%s` print for it. -/
inductive Value where
  | str (s : Str)
  | other (v s : Str)
deriving DecidableEq, Repr, Inhabited

/-- The nil interface value, as obtained by reading an absent map key. -/
def Value.nil : Value := .other "<nil>".toList "%!s(<nil>)".toList

/-- Go `fmt.Sprintf("%v", x)`. -/
def fmtV : Value → Str
  | .str s => s
  | .other v _ => v

/-- Go `fmt.Sprintf("%s", x)`. -/
def fmtS : Value → Str
  | .str s => s
  | .other _ s => s

/-- Go `time.Time`: the instant in nanoseconds, and `Time.Format` as the
function from a layout to the rendered text. -/
structure Time where
  nanos : Int
  format : Str → Str

/-- Go `t.Sub(u)` for two instants read on the same clock: a `Duration` in
nanoseconds, saturating at the int64 range. -/
def Time.sub (t : Time) (u : Int) : Int :=
  let d := t.nanos - u
  if d < -(2 ^ 63) then -(2 ^ 63) else if d > 2 ^ 63 - 1 then 2 ^ 63 - 1 else d

/-- Go `runtime.Frame` (the fields the formatter reads). -/
structure Frame where
  Function : Str
  File : Str
  Line : Int

/-- The `logrus.Level` values. -/
abbrev Level := Nat

def PanicLevel : Level := 0
def FatalLevel : Level := 1
def ErrorLevel : Level := 2
def WarnLevel : Level := 3
def InfoLevel : Level := 4
def DebugLevel : Level := 5
def TraceLevel : Level := 6

/-- The slice `logrus.AllLevels`. -/
def AllLevels : List Level :=
  [PanicLevel, FatalLevel, ErrorLevel, WarnLevel, InfoLevel, DebugLevel, TraceLevel]

/-- The method `logrus.Level.String`. -/
def levelString (l : Level) : Str :=
  match l with
  | 0 => "panic".toList
  | 1 => "fatal".toList
  | 2 => "error".toList
  | 3 => "warning".toList
  | 4 => "info".toList
  | 5 => "debug".toList
  | 6 => "trace".toList
  | _ => "unknown".toList

/-- Go slice expression `s[0:4]`, which faults when `s` is shorter than 4. -/
def slice04 (s : Str) : Option Str :=
  if 4 ≤ s.length then some (s.take 4) else none

/-- Process environment and package state read by the formatter:
`os.LookupEnv("CLICOLOR_FORCE")`, the variable `CLICOLOR`, and the package
variable `baseTimestamp` (nanoseconds). -/
structure Env where
  clicolorForce : Option Str
  clicolor : Option Str
  baseTimestamp : Int

/-- Go `os.Getenv("CLICOLOR")`. -/
def Env.getenvClicolor (env : Env) : Str := env.clicolor.getD []

/-! ## Data model of the source -/

/-- The type `FieldMap map[fieldKey]string`. -/
abbrev FieldMap := List (Str × Str)

/-- The method `FieldMap.resolve`. -/
def resolve (f : FieldMap) (key : Str) : Str :=
  match f.lookup key with
  | some k => k
  | none => key

/-- The type `Fields map[string]interface{}`. -/
abbrev Fields := List (Str × Value)

/-- Map read `data[k]` with the presence flag. -/
def Fields.get? (data : Fields) (k : Str) : Option Value := data.lookup k

/-- Map read `data[k]`. -/
def Fields.get (data : Fields) (k : Str) : Value := (data.lookup k).getD Value.nil

/-- Map write `data[k] = v`. -/
def Fields.set : Fields → Str → Value → Fields
  | [], k, v => [(k, v)]
  | (k', v') :: rest, k, v =>
    if k' = k then (k, v) :: rest else (k', v') :: Fields.set rest k v

/-- Map removal `delete(data, k)`. -/
def Fields.delete (data : Fields) (k : Str) : Fields :=
  data.filter (fun kv => !(kv.1 == k))

/-- The keys of the map, in list order.  A loop `for k := range data` visits
them in an order chosen by the runtime, which need not be this one: see
`rangeKeys`. -/
def Fields.keys (data : Fields) : List Str := data.map Prod.fst

def red : Nat := 31
def yellow : Nat := 33
def blue : Nat := 36
def gray : Nat := 34
def defaultTimestampFormat : Str := "2006-01-02T15:04:05Z07:00".toList
def FieldKeyMsg : Str := "msg".toList
def FieldKeyLevel : Str := "level".toList
def FieldKeyTime : Str := "time".toList
def FieldKeyLogrusError : Str := "logrus_error".toList
def FieldKeyFunc : Str := "func".toList
def FieldKeyFile : Str := "file".toList
def Attr1 : Str := "attr1".toList
def Attr2 : Str := "attr2".toList
def Attr3 : Str := "attr3".toList
def Attr4 : Str := "attr4".toList
def Attr5 : Str := "attr5".toList

/-- The struct `EaseFormatter`.  `SortingFunc` rewrites its slice in place and
is given as the function from the slice before to the slice after;
`terminalInitOnce` records whether the `sync.Once` has fired. -/
structure EaseFormatter where
  Formatter : Str
  KvCom : Str
  FieldMapCom : Str
  ForceColors : Bool
  DisableColors : Bool
  EnvironmentOverrideColors : Bool
  FullTimestamp : Bool
  DisableTimestamp : Bool
  TimestampFormat : Str
  DisableSorting : Bool
  SortingFunc : Option (List Str → List Str)
  DisableLevelTruncation : Bool
  QuoteEmptyFields : Bool
  isTerminal : Bool
  FieldMap : FieldMap
  CallerPrettyfier : Option (Frame → Str × Str)
  terminalInitOnce : Bool
  levelTextMaxLength : Int

/-- The part of `logrus.Logger` the formatter reads: `ReportCaller`, and the
result of `checkIfTerminal(Logger.Out)`. -/
structure Logger where
  ReportCaller : Bool
  outIsTerminal : Bool

/-- The struct `logrus.Entry`.  `Buffer` holds the bytes already written to
the record's buffer, when it has one. -/
structure Entry where
  Logger : Option Logger
  Data : Fields
  Time : Time
  Level : Level
  Caller : Option Frame
  Message : Str
  Buffer : Option Str

/-- The method `logrus.Entry.HasCaller`. -/
def Entry.HasCaller (entry : Entry) : Bool :=
  match entry.Logger, entry.Caller with
  | some lg, some _ => lg.ReportCaller
  | _, _ => false

/-! ## The functions of `formatter.go` -/

/-- The method `EaseFormatter.init`. -/
def EaseFormatter.init (f : EaseFormatter) (entry : Entry) : EaseFormatter :=
  let f := match entry.Logger with
    | some lg => { f with isTerminal := lg.outIsTerminal }
    | none => f
  AllLevels.foldl (fun f level =>
    let levelTextLength : Int := (levelString level).length
    if levelTextLength > f.levelTextMaxLength then
      { f with levelTextMaxLength := levelTextLength }
    else f) f

/-- The step `f.terminalInitOnce.Do(func() { f.init(entry) })`. -/
def EaseFormatter.initOnce (f : EaseFormatter) (entry : Entry) : EaseFormatter :=
  if f.terminalInitOnce then f else { f.init entry with terminalInitOnce := true }

/-- One block of `prefixFieldClashes` for time, msg, level and logrus_error:
the value is copied to the prefixed key and the original is deleted. -/
def moveClash (data : Fields) (key : Str) : Fields :=
  match data.get? key with
  | some t => (data.set ("fields.".toList ++ key) t).delete key
  | none => data

/-- One block of `prefixFieldClashes` for func and file: the value is copied
to the prefixed key. -/
def copyClash (data : Fields) (key : Str) : Fields :=
  match data.get? key with
  | some l => data.set ("fields.".toList ++ key) l
  | none => data

/-- The function `prefixFieldClashes`. -/
def prefixFieldClashes (data : Fields) (fieldMap : FieldMap) (reportCaller : Bool) : Fields :=
  let data := moveClash data (resolve fieldMap FieldKeyTime)
  let data := moveClash data (resolve fieldMap FieldKeyMsg)
  let data := moveClash data (resolve fieldMap FieldKeyLevel)
  let data := moveClash data (resolve fieldMap FieldKeyLogrusError)
  if reportCaller then
    let data := copyClash data (resolve fieldMap FieldKeyFunc)
    copyClash data (resolve fieldMap FieldKeyFile)
  else data

/-- The method `EaseFormatter.isColored`. -/
def isColored (env : Env) (f : EaseFormatter) : Bool :=
  let isColored := (f.ForceColors || f.isTerminal) && !f.DisableColors
  let isColored :=
    if f.EnvironmentOverrideColors then
      match env.clicolorForce with
      | some force => if force ≠ "0".toList then true else false
      | none => if env.getenvClicolor = "0".toList then false else isColored
    else isColored
  isColored && !f.DisableColors

/-- The `attr([1-5]{1})$` test of `printColored` (`regexp.Match`): the key ends
in `attr` followed by one digit from 1 to 5. -/
def matchAttr (k : Str) : Bool :=
  ["attr1".toList, "attr2".toList, "attr3".toList, "attr4".toList, "attr5".toList].any
    (fun a => a.isSuffixOf k)

/-- The `fmt.Sprintf("\x1b[%dm%s\x1b[0m", levelColor, text)` of `printColored`. -/
def colorize (levelColor : Nat) (text : Str) : Str :=
  "\x1b[".toList ++ fmtD levelColor ++ "m".toList ++ text ++ "\x1b[0m".toList

/-- The `switch entry.Level` of `printColored`. -/
def levelColorOf (level : Level) : Nat :=
  if level = DebugLevel ∨ level = TraceLevel then gray
  else if level = WarnLevel then yellow
  else if level = ErrorLevel ∨ level = FatalLevel ∨ level = PanicLevel then red
  else blue

/-- The level text of `printColored`: upper-cased, and cut by `levelText[0:4]`
unless `DisableLevelTruncation` is set. -/
def levelTextOf (f : EaseFormatter) (level : Level) : Option Str :=
  let levelText := toUpper (levelString level)
  if !f.DisableLevelTruncation then slice04 levelText else some levelText

/-- The caller text of `printColored`. -/
def coloredCaller (f : EaseFormatter) (entry : Entry) : Str :=
  match entry.HasCaller, entry.Caller with
  | true, some c =>
    let fv : Str × Str :=
      match f.CallerPrettyfier with
      | some p => p c
      | none => (c.Function ++ "()".toList, c.File ++ ":".toList ++ fmtD c.Line)
    let funcVal := fv.1
    let fileVal := fv.2
    if fileVal = [] then funcVal
    else if funcVal = [] then fileVal
    else fileVal ++ " ".toList ++ funcVal
  | _, _ => []

/-- The text `printColored` substitutes for `%time%`. -/
def coloredTime (env : Env) (f : EaseFormatter) (entry : Entry) (timestampFormat : Str) : Str :=
  if f.DisableTimestamp then []
  else if !f.FullTimestamp then fmtD (Int.tdiv (entry.Time.sub env.baseTimestamp) 1000000000)
  else entry.Time.format timestampFormat

/-- The template of `printColored` after the four fixed substitutions
(`%funcVal%`, `%msg%`, `%time%`, `%level%`), for the trimmed message `msg`. -/
def coloredHead (env : Env) (f : EaseFormatter) (entry : Entry) (timestampFormat : Str)
    (levelColor : Nat) (levelText msg : Str) : Str :=
  let output := f.Formatter
  let output := replaceFirst output "%funcVal%".toList (coloredCaller f entry)
  let output := replaceFirst output "%msg%".toList msg
  let output := replaceFirst output "%time%".toList (coloredTime env f entry timestampFormat)
  replaceFirst output "%level%".toList (colorize levelColor levelText)

/-- The body of the `for _, k := range keys` loop of `printColored`, on the
pair (output, kvStr). -/
def coloredStep (f : EaseFormatter) (data : Fields) (levelColor : Nat)
    (acc : Str × Str) (k : Str) : Str × Str :=
  let v := data.get k
  if matchAttr k then
    (replaceFirst acc.1 ("%".toList ++ k ++ "%".toList) (fmtV v), acc.2)
  else if acc.2 = [] then
    (acc.1, colorize levelColor k ++ f.KvCom ++ fmtV v)
  else
    (acc.1, acc.2 ++ f.FieldMapCom ++ colorize levelColor k ++ f.KvCom ++ fmtS v)

/-- The method `EaseFormatter.printColored`: the text written to the buffer
and the record as left by the call (its message is reassigned); `none` when
the slice `levelText[0:4]` is out of range. -/
def printColored (env : Env) (f : EaseFormatter) (entry : Entry) (keys : List Str)
    (data : Fields) (timestampFormat : Str) : Option (Str × Entry) :=
  let levelColor := levelColorOf entry.Level
  match levelTextOf f entry.Level with
  | none => none
  | some levelText =>
    let entry := { entry with Message := trimSuffixNL entry.Message }
    let output := coloredHead env f entry timestampFormat levelColor levelText entry.Message
    let acc := keys.foldl (coloredStep f data levelColor) (output, [])
    some (replaceFirst acc.1 "%kv%".toList acc.2, entry)

/-- The values `funcVal`, `fileVal` computed by `Format`. -/
def callerVals (f : EaseFormatter) (entry : Entry) : Str × Str :=
  match entry.HasCaller, entry.Caller with
  | true, some c =>
    match f.CallerPrettyfier with
    | some p => p c
    | none => (c.Function, c.File ++ ":".toList ++ fmtD c.Line)
  | _, _ => ([], [])

/-- The slice `fixedKeys` of `Format` before the field keys are added. -/
def fixedKeysOf (f : EaseFormatter) (entry : Entry) : List Str :=
  let fixedKeys : List Str := []
  let fixedKeys :=
    if !f.DisableTimestamp then fixedKeys ++ [resolve f.FieldMap FieldKeyTime] else fixedKeys
  let fixedKeys := fixedKeys ++ [resolve f.FieldMap FieldKeyLevel]
  let fixedKeys :=
    if entry.Message ≠ [] then fixedKeys ++ [resolve f.FieldMap FieldKeyMsg] else fixedKeys
  if entry.HasCaller then
    let fixedKeys :=
      if (callerVals f entry).1 ≠ [] then fixedKeys ++ [resolve f.FieldMap FieldKeyFunc]
      else fixedKeys
    if (callerVals f entry).2 ≠ [] then fixedKeys ++ [resolve f.FieldMap FieldKeyFile]
    else fixedKeys
  else fixedKeys

/-- The ordering block of `Format` (`if !f.DisableSorting ...`): the pair
(fixedKeys, keys) it leaves, `colored` being the value of `f.isColored()`
read inside the block. -/
def orderKeys (f : EaseFormatter) (colored : Bool) (fixedKeys keys : List Str) :
    List Str × List Str :=
  if !f.DisableSorting then
    match f.SortingFunc with
    | none => (fixedKeys ++ sortStrings keys, sortStrings keys)
    | some sortingFunc =>
      if !colored then (sortingFunc (fixedKeys ++ keys), keys)
      else (fixedKeys, sortingFunc keys)
  else (fixedKeys ++ keys, keys)

/-- The defaulting of `Formatter`, `KvCom` and `FieldMapCom` in `Format`. -/
def applyDefaults (f : EaseFormatter) : EaseFormatter :=
  let f := if f.Formatter = [] then
    { f with Formatter := "%time% %level% -- %msg% %kv%".toList } else f
  let f := if f.KvCom = [] then { f with KvCom := "=".toList } else f
  if f.FieldMapCom = [] then { f with FieldMapCom := "&".toList } else f

/-- The body of the `for _, key := range fixedKeys` loop of the plain branch
of `Format`, on the pair (output, kvStr). -/
def plainStep (f : EaseFormatter) (entry : Entry) (data : Fields) (funcVal fileVal : Str)
    (timestampFormat : Str) (acc : Str × Str) (key : Str) : Str × Str :=
  if key = resolve f.FieldMap FieldKeyTime then
    (replaceFirst acc.1 "%time%".toList (entry.Time.format timestampFormat), acc.2)
  else if key = resolve f.FieldMap FieldKeyLevel then
    (replaceFirst acc.1 "%level%".toList (toUpper (levelString entry.Level)), acc.2)
  else if key = resolve f.FieldMap FieldKeyMsg then
    (replaceFirst acc.1 "%msg%".toList entry.Message, acc.2)
  else if key = resolve f.FieldMap FieldKeyFunc ∧ entry.HasCaller = true then
    (replaceFirst acc.1 "%funVal%".toList funcVal, acc.2)
  else if key = resolve f.FieldMap FieldKeyFile ∧ entry.HasCaller = true then
    (replaceFirst acc.1 "%fileVal%".toList fileVal, acc.2)
  else if key = resolve f.FieldMap Attr1 then
    (replaceFirst acc.1 "%attr1%".toList (fmtV (data.get key)), acc.2)
  else if key = resolve f.FieldMap Attr2 then
    (replaceFirst acc.1 "%attr2%".toList (fmtV (data.get key)), acc.2)
  else if key = resolve f.FieldMap Attr3 then
    (replaceFirst acc.1 "%attr3%".toList (fmtV (data.get key)), acc.2)
  else if key = resolve f.FieldMap Attr4 then
    (replaceFirst acc.1 "%attr4%".toList (fmtV (data.get key)), acc.2)
  else if key = resolve f.FieldMap Attr5 then
    (replaceFirst acc.1 "%attr5%".toList (fmtV (data.get key)), acc.2)
  else if acc.2 = [] then
    (acc.1, acc.2 ++ key ++ f.KvCom ++ fmtS (data.get key))
  else
    (acc.1, acc.2 ++ f.FieldMapCom ++ key ++ f.KvCom ++ fmtS (data.get key))

/-- The plain branch of `Format`: the pair (output, kvStr) after the loop. -/
def plainWalk (f : EaseFormatter) (entry : Entry) (data : Fields) (fixedKeys : List Str)
    (timestampFormat : Str) : Str × Str :=
  fixedKeys.foldl
    (plainStep f entry data (callerVals f entry).1 (callerVals f entry).2 timestampFormat)
    (f.Formatter, [])

/-- The text the plain branch of `Format` writes to the buffer. -/
def plainOutput (f : EaseFormatter) (entry : Entry) (data : Fields) (fixedKeys : List Str)
    (timestampFormat : Str) : Str :=
  let acc := plainWalk f entry data fixedKeys timestampFormat
  replaceFirst acc.1 "%kv%".toList acc.2

/-- The local `data` of `Format`: a copy of `entry.Data` passed through
`prefixFieldClashes`.  The copy loop `for k, v := range entry.Data` builds the
same map in whatever order it runs; only the list order of this model follows
the list order of `entry.Data`, and the order in which the keys of `data` are
later visited is not taken from it (see `rangeKeys`). -/
def dataOf (f : EaseFormatter) (entry : Entry) : Fields :=
  let data : Fields := entry.Data.foldl (fun data kv => data.set kv.1 kv.2) []
  prefixFieldClashes data f.FieldMap entry.HasCaller

/-- The local `timestampFormat` of `Format`. -/
def timestampFormatOf (f : EaseFormatter) : Str :=
  if f.TimestampFormat = [] then defaultTimestampFormat else f.TimestampFormat

/-- What a call of `Format` leaves: the returned bytes, and the formatter and
the record as the call leaves them. -/
structure FormatResult where
  bytes : Str
  f : EaseFormatter
  entry : Entry

/-- The formatter as `Format` leaves it: the three defaults applied and the
terminal probe run once. -/
def formatterAfter (f : EaseFormatter) (entry : Entry) : EaseFormatter :=
  (applyDefaults f).initOnce entry

/-- The part of `Format` up to the renderer dispatch: the text the selected
renderer writes to the buffer and the record as it leaves it; `none` stands
for a run-time fault.  The range over `data` visits the keys in list order
(`renderedRanged` for any other order). -/
def rendered (env : Env) (f : EaseFormatter) (entry : Entry) : Option (Str × Entry) :=
  let data := dataOf f entry
  let keys := data.keys
  let ordered := orderKeys f (isColored env f) (fixedKeysOf f entry) keys
  let fixedKeys := ordered.1
  let keys := ordered.2
  let f := formatterAfter f entry
  let timestampFormat := timestampFormatOf f
  if isColored env f then printColored env f entry keys data timestampFormat
  else some (plainOutput f entry data fixedKeys timestampFormat, entry)

/-- The method `EaseFormatter.Format`.  The returned error is always nil and
is not modelled; `none` stands for a run-time fault.  The range over `data`
visits the keys in list order (`FormatRanged` for any other order). -/
def Format (env : Env) (f : EaseFormatter) (entry : Entry) : Option FormatResult :=
  match rendered env f entry with
  | none => none
  | some (output, entry') =>
    let b := entry.Buffer.getD [] ++ output ++ ['\n']
    some { bytes := b, f := formatterAfter f entry,
           entry := { entry' with Buffer := entry.Buffer.map (fun _ => b) } }

/-- The text `printColored` writes, for the level text `levelText`. -/
def coloredLine (env : Env) (f : EaseFormatter) (entry : Entry) (keys : List Str)
    (data : Fields) (timestampFormat : Str) (levelText : Str) : Str :=
  let acc := keys.foldl (coloredStep f data (levelColorOf entry.Level))
    (coloredHead env f { entry with Message := trimSuffixNL entry.Message } timestampFormat
      (levelColorOf entry.Level) levelText (trimSuffixNL entry.Message), [])
  replaceFirst acc.1 "%kv%".toList acc.2

/-- The level text `printColored` renders. -/
def levelTextShown (f : EaseFormatter) (level : Level) : Str :=
  if f.DisableLevelTruncation = true then toUpper (levelString level)
  else (toUpper (levelString level)).take 4

/-- The text the renderer selected by `Format` writes before the final
newline. -/
def renderedLine (env : Env) (f : EaseFormatter) (entry : Entry) : Str :=
  if isColored env (formatterAfter f entry) then
    coloredLine env (formatterAfter f entry) entry
      (orderKeys f (isColored env f) (fixedKeysOf f entry) (dataOf f entry).keys).2
      (dataOf f entry) (timestampFormatOf (formatterAfter f entry))
      (levelTextShown (formatterAfter f entry) entry.Level)
  else
    plainOutput (formatterAfter f entry) entry (dataOf f entry)
      (orderKeys f (isColored env f) (fixedKeysOf f entry) (dataOf f entry).keys).1
      (timestampFormatOf (formatterAfter f entry))

/-- The record as `Format` leaves it, apart from its buffer. -/
def entryAfter (env : Env) (f : EaseFormatter) (entry : Entry) : Entry :=
  if isColored env (formatterAfter f entry) then
    { entry with Message := trimSuffixNL entry.Message }
  else entry

/-! ## Concrete inputs used in the evaluations below -/

/-- The zero value `EaseFormatter{}`. -/
def zeroFormatter : EaseFormatter :=
  { Formatter := [], KvCom := [], FieldMapCom := [], ForceColors := false,
    DisableColors := false, EnvironmentOverrideColors := false, FullTimestamp := false,
    DisableTimestamp := false, TimestampFormat := [], DisableSorting := false,
    SortingFunc := none, DisableLevelTruncation := false, QuoteEmptyFields := false,
    isTerminal := false, FieldMap := [], CallerPrettyfier := none,
    terminalInitOnce := false, levelTextMaxLength := 0 }

/-- An environment with neither colour variable set. -/
def plainEnv : Env := { clicolorForce := none, clicolor := none, baseTimestamp := 0 }

/-- The instant 2024-01-01T00:00:00Z with its rendering in the RFC 3339
layout, the only layout the evaluations below ask for. -/
def newYear2024 : Time :=
  { nanos := 1704067200000000000, format := fun _ => "2024-01-01T00:00:00Z".toList }

/-- A record at level info with message `hello` and the single field `a="1"`,
without logger, caller or buffer. -/
def helloEntry : Entry :=
  { Logger := none, Data := [("a".toList, .str "1".toList)], Time := newYear2024,
    Level := InfoLevel, Caller := none, Message := "hello".toList, Buffer := none }

/-- The formatter of the timestamp-disabled evaluation. -/
def noTimestampFormatter : EaseFormatter :=
  { zeroFormatter with
    Formatter := "%time% %level% -- %msg% %kv%".toList, DisableTimestamp := true }

/-- A formatter whose template is the message token followed by a newline. -/
def newlineTemplateFormatter : EaseFormatter :=
  { zeroFormatter with Formatter := "%msg%\n".toList }

/-- A formatter with `ForceColors` set. -/
def forcedColorFormatter : EaseFormatter := { zeroFormatter with ForceColors := true }

/-- The record `helloEntry` with the message `hi` followed by a newline. -/
def newlineEntry : Entry := { helloEntry with Message := "hi\n".toList }

/-- The record `helloEntry` at level debug. -/
def debugEntry : Entry := { helloEntry with Level := DebugLevel }

/-- A FieldMap under which a renamed field lands on a reserved name. -/
def clashingFieldMap : FieldMap :=
  [(FieldKeyTime, "fields.x".toList), (FieldKeyMsg, "x".toList)]

/-- A resolved name that cannot be produced by the `fields.` renaming. -/
abbrev notRenamed (r : Str) : Prop := ¬ ("fields.".toList <+: r)

/-- The reserved key `attrN`. -/
def attrKey (n : Nat) : Str := "attr".toList ++ Nat.toDigits 10 n

/-- The placeholder `%attrN%`. -/
def attrToken (n : Nat) : Str := "%".toList ++ attrKey n ++ "%".toList

/-- A FieldMap renaming `attr1` to `user`. -/
def attrFieldMap : FieldMap := [(Attr1, "user".toList)]

/-- A colourised formatter with the template `%attr1%|%kv%` and `attrFieldMap`. -/
def attrFormatter : EaseFormatter :=
  { zeroFormatter with
    Formatter := "%attr1%|%kv%".toList, ForceColors := true, FieldMap := attrFieldMap }

/-- The record `helloEntry` with the single field `user="bob"`. -/
def userEntry : Entry := { helloEntry with Data := [("user".toList, .str "bob".toList)] }

/-- A formatter whose `SortingFunc` is `sort.Strings`, colours not forced. -/
def sortingFormatter : EaseFormatter := { zeroFormatter with SortingFunc := some sortStrings }

/-- A record whose logger writes to a terminal, with the fields `b="2"`, `a="1"`
iterated in that order. -/
def terminalEntry : Entry :=
  { helloEntry with
    Logger := some { ReportCaller := false, outIsTerminal := true },
    Data := [("b".toList, .str "2".toList), ("a".toList, .str "1".toList)] }

/-- The record `helloEntry` with a message ending in two newlines. -/
def twoNewlinesEntry : Entry := { helloEntry with Message := "hi\n\n".toList }

/-- The second of two successive `Format` calls on the same formatter and
record objects, with the buffer the first call started from: the bytes it
returns. -/
def secondFormatBytes (env : Env) (f : EaseFormatter) (entry : Entry) : Option Str :=
  (Format env f entry).bind (fun r =>
    (Format env r.f { r.entry with Buffer := entry.Buffer }).map (fun r2 => r2.bytes))

/-- The key is taken by one of the cases of the `switch` in the plain branch
of `Format` (the resolved names of time, level, msg, of func and file when the
record has a caller, and of attr1..attr5), so it is not sent to `kvStr`. -/
abbrev plainCatches (f : EaseFormatter) (entry : Entry) (key : Str) : Prop :=
  key = resolve f.FieldMap FieldKeyTime ∨ key = resolve f.FieldMap FieldKeyLevel
  ∨ key = resolve f.FieldMap FieldKeyMsg
  ∨ (key = resolve f.FieldMap FieldKeyFunc ∧ entry.HasCaller = true)
  ∨ (key = resolve f.FieldMap FieldKeyFile ∧ entry.HasCaller = true)
  ∨ key = resolve f.FieldMap Attr1 ∨ key = resolve f.FieldMap Attr2
  ∨ key = resolve f.FieldMap Attr3 ∨ key = resolve f.FieldMap Attr4
  ∨ key = resolve f.FieldMap Attr5

/-- The `default` case of the `switch` on `kvStr`: the entry is appended, after
the separator unless `kvStr` is still empty. -/
def kvAppend (sep : Str) (kvStr e : Str) : Str :=
  if kvStr = [] then kvStr ++ e else kvStr ++ sep ++ e

/-- Every value of the field mapping is a Go string. -/
def allStr (data : Fields) : Prop := ∀ kv ∈ data, ∃ s, kv.2 = Value.str s

/-- The keys `attr1`..`attr5`. -/
def attrNames : List Str := [Attr1, Attr2, Attr3, Attr4, Attr5]

/-- The record `helloEntry` with the string fields `b`, `attr1`, `time`, `a`,
iterated in that order. -/
def mixedEntry : Entry :=
  { helloEntry with
    Data := [("b".toList, .str "2".toList), ("attr1".toList, .str "x".toList),
             ("time".toList, .str "t".toList), ("a".toList, .str "1".toList)] }

/-- A formatter with `ForceColors` and `EnvironmentOverrideColors` set, already
probed on a terminal. -/
def overrideFormatter : EaseFormatter :=
  { zeroFormatter with
    ForceColors := true, EnvironmentOverrideColors := true, isTerminal := true,
    terminalInitOnce := true }

/-- An environment with `CLICOLOR_FORCE=0`. -/
def forceOffEnv : Env := { clicolorForce := some "0".toList, clicolor := none, baseTimestamp := 0 }

/-- A formatter whose template is the message token between brackets. -/
def bracketFormatter : EaseFormatter := { zeroFormatter with Formatter := "[%msg%]".toList }

/-- A record with the empty message and no field. -/
def emptyMessageEntry : Entry := { helloEntry with Message := [], Data := [] }

/-- The first four blocks of `prefixFieldClashes` (time, msg, level,
logrus_error), which run whatever `reportCaller` is. -/
def reservedClashes (data : Fields) (fieldMap : FieldMap) : Fields :=
  moveClash (moveClash (moveClash (moveClash data (resolve fieldMap FieldKeyTime))
    (resolve fieldMap FieldKeyMsg)) (resolve fieldMap FieldKeyLevel))
    (resolve fieldMap FieldKeyLogrusError)

/-- A FieldMap resolving func to `fields.file`. -/
def callerFieldMap : FieldMap := [(FieldKeyFunc, "fields.file".toList)]

/-- A mapping with the fields `fields.file="v"` and `file="w"`. -/
def callerClashData : Fields :=
  [("fields.file".toList, .str "v".toList), ("file".toList, .str "w".toList)]

/-- A plain formatter with the template `%msg% %kv%` and timestamps disabled. -/
def msgKvFormatter : EaseFormatter :=
  { zeroFormatter with Formatter := "%msg% %kv%".toList, DisableTimestamp := true }

/-- A record without fields whose message is the text `%kv%`. -/
def tokenMessageEntry : Entry := { helloEntry with Message := "%kv%".toList, Data := [] }

/-- A record without fields with the message `hello`. -/
def noFieldsEntry : Entry := { helloEntry with Data := [] }

/-- The names `prefixFieldClashes` looks for under the default FieldMap: time,
msg, level, logrus_error, and func and file when `reportCaller` is set. -/
def clashNames (reportCaller : Bool) : List Str :=
  [FieldKeyTime, FieldKeyMsg, FieldKeyLevel, FieldKeyLogrusError]
    ++ (if reportCaller then [FieldKeyFunc, FieldKeyFile] else [])

/-- A mapping holding both `time` and `fields.time`. -/
def doubleTimeData : Fields :=
  [("time".toList, .str "t".toList), ("fields.time".toList, .str "x".toList)]

/-- The loop of `printColored`: the pair (output, kvStr) after it, for the
level text `levelText`. -/
def coloredWalk (env : Env) (f : EaseFormatter) (entry : Entry) (keys : List Str)
    (data : Fields) (timestampFormat : Str) (levelText : Str) : Str × Str :=
  keys.foldl (coloredStep f data (levelColorOf entry.Level))
    (coloredHead env f { entry with Message := trimSuffixNL entry.Message } timestampFormat
      (levelColorOf entry.Level) levelText (trimSuffixNL entry.Message), [])

/-- What the loop of `printColored` does to `kvStr` for a key that is not
matched by the attr pattern. -/
def coloredKvAppend (f : EaseFormatter) (data : Fields) (levelColor : Nat)
    (kvStr : Str) (k : Str) : Str :=
  if kvStr = [] then colorize levelColor k ++ f.KvCom ++ fmtV (data.get k)
  else kvStr ++ f.FieldMapCom ++ colorize levelColor k ++ f.KvCom ++ fmtS (data.get k)

/-- The entries `printColored` joins into `kvStr` for a key sequence: the
coloured key, `KvCom` and the value, printed with `%v` for the first entry and
with `%s` for the later ones. -/
def coloredEntries (f : EaseFormatter) (data : Fields) (levelColor : Nat) :
    List Str → List Str
  | [] => []
  | k :: rest =>
    (colorize levelColor k ++ f.KvCom ++ fmtV (data.get k))
      :: rest.map (fun k => colorize levelColor k ++ f.KvCom ++ fmtS (data.get k))

/-- The resolved names of the reserved keys under a FieldMap. -/
def reservedNames (fieldMap : FieldMap) : List Str :=
  [FieldKeyTime, FieldKeyLevel, FieldKeyMsg, FieldKeyLogrusError, FieldKeyFunc, FieldKeyFile,
    Attr1, Attr2, Attr3, Attr4, Attr5].map (resolve fieldMap)

/-- A colourised record with the fields `myattr1="1"` and `b="2"`. -/
def suffixAttrEntry : Entry :=
  { helloEntry with
    Data := [("myattr1".toList, .str "1".toList), ("b".toList, .str "2".toList)] }

/-- A formatter with sorting disabled. -/
def unsortedFormatter : EaseFormatter := { zeroFormatter with DisableSorting := true }

/-! ## The order of the range over the field map

Go leaves the order of a range over a map unspecified and varies it from one
loop to the next.  `Format` above takes the keys in list order, which is one
of the orders the runtime can choose; the definitions below take the order of
the loop `for k := range data` as an input of the call, so that what is proved
of them for every rearrangement of the keys holds of every run.  The copy loop
`for k, v := range entry.Data` builds the same map in whatever order it runs,
and the renderers read `data` by key only, so the order of that loop has no
effect of its own. -/

/-- The slice `keys` filled by `for k := range data` in `Format`, when the
runtime visits the keys in the sequence `order` makes of them. -/
def rangeKeys (order : List Str → List Str) (data : Fields) : List Str := order data.keys

/-- The sequence `order` makes of the keys of `data` is one a range over the
map can produce: every key once. -/
abbrev rangesOnce (order : List Str → List Str) (data : Fields) : Prop :=
  (rangeKeys order data).Perm data.keys

/-- The part of `Format` up to the renderer dispatch, the range over `data`
visiting the keys in the sequence given by `order`. -/
def renderedRanged (order : List Str → List Str) (env : Env) (f : EaseFormatter)
    (entry : Entry) : Option (Str × Entry) :=
  let data := dataOf f entry
  let keys := rangeKeys order data
  let ordered := orderKeys f (isColored env f) (fixedKeysOf f entry) keys
  let fixedKeys := ordered.1
  let keys := ordered.2
  let f := formatterAfter f entry
  let timestampFormat := timestampFormatOf f
  if isColored env f then printColored env f entry keys data timestampFormat
  else some (plainOutput f entry data fixedKeys timestampFormat, entry)

/-- The method `EaseFormatter.Format`, the range over `data` visiting the keys
in the sequence given by `order`. -/
def FormatRanged (order : List Str → List Str) (env : Env) (f : EaseFormatter)
    (entry : Entry) : Option FormatResult :=
  match renderedRanged order env f entry with
  | none => none
  | some (output, entry') =>
    let b := entry.Buffer.getD [] ++ output ++ ['\n']
    some { bytes := b, f := formatterAfter f entry,
           entry := { entry' with Buffer := entry.Buffer.map (fun _ => b) } }

/-- The text the renderer selected by `FormatRanged` writes before the final
newline. -/
def renderedLineRanged (order : List Str → List Str) (env : Env) (f : EaseFormatter)
    (entry : Entry) : Str :=
  if isColored env (formatterAfter f entry) then
    coloredLine env (formatterAfter f entry) entry
      (orderKeys f (isColored env f) (fixedKeysOf f entry)
        (rangeKeys order (dataOf f entry))).2
      (dataOf f entry) (timestampFormatOf (formatterAfter f entry))
      (levelTextShown (formatterAfter f entry) entry.Level)
  else
    plainOutput (formatterAfter f entry) entry (dataOf f entry)
      (orderKeys f (isColored env f) (fixedKeysOf f entry)
        (rangeKeys order (dataOf f entry))).1
      (timestampFormatOf (formatterAfter f entry))

/-- The second of two successive `Format` calls on the same formatter and
record objects, with the buffer the first call started from: the bytes it
returns, when the range over `data` follows `order1` in the first call and
`order2` in the second. -/
def secondFormatBytesRanged (order1 order2 : List Str → List Str) (env : Env)
    (f : EaseFormatter) (entry : Entry) : Option Str :=
  (FormatRanged order1 env f entry).bind (fun r =>
    (FormatRanged order2 env r.f { r.entry with Buffer := entry.Buffer }).map
      (fun r2 => r2.bytes))

/-- A record with the fields `b="2"` and `a="1"`, the input mapping iterated
in that order. -/
def unsortedEntry : Entry :=
  { helloEntry with
    Data := [("b".toList, .str "2".toList), ("a".toList, .str "1".toList)] }

/-- A plain formatter with the template `%attr1%|%kv%` and a FieldMap resolving
logrus_error to `attr1`. -/
def errAttrFormatter : EaseFormatter :=
  { zeroFormatter with
    Formatter := "%attr1%|%kv%".toList, FieldMap := [(FieldKeyLogrusError, Attr1)] }

/-- A plain formatter with the template `%attr2%|%kv%` and a FieldMap resolving
attr2 to `attr1`. -/
def sharedAttrFormatter : EaseFormatter :=
  { zeroFormatter with Formatter := "%attr2%|%kv%".toList, FieldMap := [(Attr2, Attr1)] }

/-- The record `helloEntry` with the single field `attr1="v"`. -/
def attrOneEntry : Entry := { helloEntry with Data := [("attr1".toList, .str "v".toList)] }

/-- A plain formatter with the template `%attr2%|%kv%` and the default FieldMap. -/
def attrTwoFormatter : EaseFormatter :=
  { zeroFormatter with Formatter := "%attr2%|%kv%".toList }

/-- The record `helloEntry` with the fields `b="2"`, `attr2="v"`, `a="1"`. -/
def attrTwoEntry : Entry :=
  { helloEntry with
    Data := [("b".toList, .str "2".toList), ("attr2".toList, .str "v".toList),
             ("a".toList, .str "1".toList)] }

/-! ## Field maps: keys after writes and removals -/

theorem mem_keys_set (data : Fields) (k : Str) (v : Value) (x : Str) :
    x ∈ (data.set k v).keys ↔ x = k ∨ x ∈ data.keys := by
  induction data with
  | nil => simp [Fields.set, Fields.keys]
  | cons p rest ih =>
    obtain ⟨k', v'⟩ := p
    by_cases h : k' = k
    · subst h
      simp only [Fields.set, if_true, Fields.keys, List.map_cons, List.mem_cons]
      tauto
    · simp only [Fields.set, h, if_false]
      simp only [Fields.keys, List.map_cons, List.mem_cons] at ih ⊢
      rw [ih]
      tauto

theorem mem_keys_delete (data : Fields) (k x : Str) :
    x ∈ (data.delete k).keys ↔ x ≠ k ∧ x ∈ data.keys := by
  simp only [Fields.delete, Fields.keys, List.mem_map, List.mem_filter]
  constructor
  · rintro ⟨p, ⟨hp, hk⟩, rfl⟩
    refine ⟨by simpa using hk, p, hp, rfl⟩
  · rintro ⟨hx, p, hp, rfl⟩
    exact ⟨p, ⟨hp, by simpa using hx⟩, rfl⟩

theorem get?_eq_none_iff (data : Fields) (k : Str) :
    data.get? k = none ↔ k ∉ data.keys := by
  induction data with
  | nil => simp [Fields.get?, Fields.keys]
  | cons p rest ih =>
    obtain ⟨k', v'⟩ := p
    simp only [Fields.get?, Fields.keys, List.map_cons, List.mem_cons, not_or] at ih ⊢
    by_cases h : k = k'
    · subst h
      rw [List.lookup_cons_self]
      exact ⟨fun h => (nomatch h), fun h => absurd rfl h.1⟩
    · have hb : (k == k') = false := beq_eq_false_iff_ne.2 h
      rw [List.lookup_cons, hb, ih]
      exact ⟨fun h' => ⟨h, h'⟩, fun h' => h'.2⟩

theorem fields_append_ne (k : Str) : "fields.".toList ++ k ≠ k := by
  intro h
  have h1 := congrArg List.length h
  have h2 : "fields.".toList.length = 7 := by decide
  rw [List.length_append, h2] at h1
  omega

theorem mem_keys_moveClash (data : Fields) (k x : Str) (h : x ∈ (moveClash data k).keys) :
    x ≠ k ∧ (x ∈ data.keys ∨ x = "fields.".toList ++ k) := by
  unfold moveClash at h
  cases hg : data.get? k with
  | none =>
    rw [hg] at h
    refine ⟨?_, Or.inl h⟩
    rintro rfl
    exact (get?_eq_none_iff data x).1 hg h
  | some t =>
    rw [hg] at h
    simp only [] at h
    rw [mem_keys_delete, mem_keys_set] at h
    exact ⟨h.1, h.2.symm⟩

theorem mem_keys_copyClash (data : Fields) (k x : Str) (h : x ∈ (copyClash data k).keys) :
    x ∈ data.keys ∨ x = "fields.".toList ++ k := by
  unfold copyClash at h
  cases hg : data.get? k with
  | none => rw [hg] at h; exact Or.inl h
  | some t =>
    rw [hg] at h
    simp only [] at h
    rw [mem_keys_set] at h
    exact h.symm

theorem notRenamed_ne {r : Str} (h : notRenamed r) (k : Str) : r ≠ "fields.".toList ++ k := by
  intro e
  exact h ⟨k, e.symm⟩

theorem not_mem_moveClash_of_not_mem {data : Fields} {r : Str} (k : Str) (hr : notRenamed r)
    (h : r ∉ data.keys) : r ∉ (moveClash data k).keys := by
  intro hm
  rcases (mem_keys_moveClash data k r hm).2 with h' | h'
  · exact h h'
  · exact notRenamed_ne hr k h'

theorem not_mem_copyClash_of_not_mem {data : Fields} {r : Str} (k : Str) (hr : notRenamed r)
    (h : r ∉ data.keys) : r ∉ (copyClash data k).keys := by
  intro hm
  rcases mem_keys_copyClash data k r hm with h' | h'
  · exact h h'
  · exact notRenamed_ne hr k h'

theorem not_mem_moveClash_self (data : Fields) (r : Str) : r ∉ (moveClash data r).keys :=
  fun hm => (mem_keys_moveClash data r r hm).1 rfl

theorem reserved_not_mem_prefixFieldClashes (data : Fields) (fieldMap : FieldMap)
    (reportCaller : Bool)
    (ht : notRenamed (resolve fieldMap FieldKeyTime))
    (hl : notRenamed (resolve fieldMap FieldKeyLevel))
    (hm : notRenamed (resolve fieldMap FieldKeyMsg))
    (he : notRenamed (resolve fieldMap FieldKeyLogrusError)) :
    resolve fieldMap FieldKeyTime ∉ (prefixFieldClashes data fieldMap reportCaller).keys
    ∧ resolve fieldMap FieldKeyLevel ∉ (prefixFieldClashes data fieldMap reportCaller).keys
    ∧ resolve fieldMap FieldKeyMsg ∉ (prefixFieldClashes data fieldMap reportCaller).keys
    ∧ resolve fieldMap FieldKeyLogrusError
        ∉ (prefixFieldClashes data fieldMap reportCaller).keys := by
  have key : ∀ r : Str, notRenamed r →
      r ∉ (moveClash (moveClash (moveClash (moveClash data (resolve fieldMap FieldKeyTime))
        (resolve fieldMap FieldKeyMsg)) (resolve fieldMap FieldKeyLevel))
        (resolve fieldMap FieldKeyLogrusError)).keys →
      r ∉ (prefixFieldClashes data fieldMap reportCaller).keys := by
    intro r hr h
    unfold prefixFieldClashes
    cases reportCaller
    · simpa using h
    · simp only [if_true]
      exact not_mem_copyClash_of_not_mem _ hr (not_mem_copyClash_of_not_mem _ hr h)
  refine ⟨key _ ht ?_, key _ hl ?_, key _ hm ?_, key _ he ?_⟩
  · exact not_mem_moveClash_of_not_mem _ ht (not_mem_moveClash_of_not_mem _ ht
      (not_mem_moveClash_of_not_mem _ ht (not_mem_moveClash_self _ _)))
  · exact not_mem_moveClash_of_not_mem _ hl (not_mem_moveClash_self _ _)
  · exact not_mem_moveClash_of_not_mem _ hm (not_mem_moveClash_of_not_mem _ hm
      (not_mem_moveClash_self _ _))
  · exact not_mem_moveClash_self _ _

/-! ## The level text is never out of range -/

theorem four_le_length_levelString (l : Level) : 4 ≤ (toUpper (levelString l)).length := by
  unfold toUpper levelString
  split <;> simp

theorem levelTextOf_eq (f : EaseFormatter) (l : Level) :
    levelTextOf f l = some (levelTextShown f l) := by
  unfold levelTextOf slice04 levelTextShown
  cases f.DisableLevelTruncation <;> simp [four_le_length_levelString]

theorem printColored_eq (env : Env) (f : EaseFormatter) (entry : Entry) (keys : List Str)
    (data : Fields) (tf : Str) :
    printColored env f entry keys data tf
      = some (coloredLine env f entry keys data tf (levelTextShown f entry.Level),
          { entry with Message := trimSuffixNL entry.Message }) := by
  unfold printColored
  rw [levelTextOf_eq]
  rfl

theorem rendered_eq (env : Env) (f : EaseFormatter) (entry : Entry) :
    rendered env f entry = some (renderedLine env f entry, entryAfter env f entry) := by
  unfold rendered renderedLine entryAfter
  simp only []
  by_cases h : isColored env (formatterAfter f entry) = true
  · simp only [h, if_true]
    exact printColored_eq _ _ _ _ _ _
  · simp only [h]
    rfl

theorem Format_eq (env : Env) (f : EaseFormatter) (entry : Entry) :
    Format env f entry
      = some { bytes := entry.Buffer.getD [] ++ renderedLine env f entry ++ ['\n'],
               f := formatterAfter f entry,
               entry := { entryAfter env f entry with
                 Buffer := entry.Buffer.map
                   (fun _ => entry.Buffer.getD [] ++ renderedLine env f entry ++ ['\n']) } } := by
  unfold Format
  rw [rendered_eq]

/-! ## Properties of the specification -/

/-- C1 (evaluation of the code at the claim's input): with the template
`%time% %level% -- %msg% %kv%`, `DisableTimestamp=true`, level info, message
`hello` and the field `a="1"`, the plain branch of `Format` never visits the
time key, so the token `%time%` stays in the output: the bytes returned are
`%time% INFO -- hello a=1` and a newline, not ` INFO -- hello a=1`. -/
theorem format_disabled_timestamp_keeps_time_token :
    (Format plainEnv noTimestampFormatter helloEntry).map (fun r => r.bytes)
      = some "%time% INFO -- hello a=1\n".toList
    ∧ (Format plainEnv noTimestampFormatter helloEntry).map (fun r => r.bytes)
      ≠ some " INFO -- hello a=1\n".toList := by
  decide

/-- C3 (counterexample): under a FieldMap that resolves time to `fields.x` and
msg to `x`, the field `x` is renamed to `fields.x`, which is the resolved name
of time, so a reserved name is a key after `prefixFieldClashes`. -/
theorem prefixFieldClashes_leaves_reserved_key :
    resolve clashingFieldMap FieldKeyTime
      ∈ (prefixFieldClashes [("x".toList, .str "1".toList)] clashingFieldMap false).keys := by
  decide

/-- C3 (amended): for every field mapping, either value of reportCaller and
every FieldMap whose resolved names for time, level, msg and logrus_error do
not begin with `fields.`, none of these four resolved names is a key of the
mapping after `prefixFieldClashes`. -/
theorem prefixFieldClashes_removes_reserved (data : Fields) (fieldMap : FieldMap)
    (reportCaller : Bool)
    (ht : notRenamed (resolve fieldMap FieldKeyTime))
    (hl : notRenamed (resolve fieldMap FieldKeyLevel))
    (hm : notRenamed (resolve fieldMap FieldKeyMsg))
    (he : notRenamed (resolve fieldMap FieldKeyLogrusError)) :
    resolve fieldMap FieldKeyTime ∉ (prefixFieldClashes data fieldMap reportCaller).keys
    ∧ resolve fieldMap FieldKeyLevel ∉ (prefixFieldClashes data fieldMap reportCaller).keys
    ∧ resolve fieldMap FieldKeyMsg ∉ (prefixFieldClashes data fieldMap reportCaller).keys
    ∧ resolve fieldMap FieldKeyLogrusError
        ∉ (prefixFieldClashes data fieldMap reportCaller).keys :=
  reserved_not_mem_prefixFieldClashes data fieldMap reportCaller ht hl hm he

/-- C3 (amended), applied: with the empty FieldMap and a caller, a record
carrying fields named time, level, msg and logrus_error keeps none of them. -/
theorem prefixFieldClashes_removes_reserved_witness :
    (notRenamed (resolve [] FieldKeyTime) ∧ notRenamed (resolve [] FieldKeyLevel)
      ∧ notRenamed (resolve [] FieldKeyMsg) ∧ notRenamed (resolve [] FieldKeyLogrusError))
    ∧ (resolve [] FieldKeyTime
        ∉ (prefixFieldClashes [("time".toList, .str "t".toList),
            ("logrus_error".toList, .str "e".toList)] [] true).keys
      ∧ resolve [] FieldKeyLevel
        ∉ (prefixFieldClashes [("time".toList, .str "t".toList),
            ("logrus_error".toList, .str "e".toList)] [] true).keys
      ∧ resolve [] FieldKeyMsg
        ∉ (prefixFieldClashes [("time".toList, .str "t".toList),
            ("logrus_error".toList, .str "e".toList)] [] true).keys
      ∧ resolve [] FieldKeyLogrusError
        ∉ (prefixFieldClashes [("time".toList, .str "t".toList),
            ("logrus_error".toList, .str "e".toList)] [] true).keys) :=
  ⟨by decide,
   prefixFieldClashes_removes_reserved _ [] true (by decide) (by decide) (by decide)
     (by decide)⟩

/-- C4 (counterexample): in plain rendering with the template `%msg%` followed
by a newline, the rendered text of the message `hello` ends in the template's
newline and `Format` appends its own: the output ends in two line
terminators. -/
theorem format_output_ends_in_two_newlines :
    (Format plainEnv newlineTemplateFormatter helloEntry).map (fun r => r.bytes)
      = some "hello\n\n".toList
    ∧ (Format plainEnv newlineTemplateFormatter helloEntry).map
        (fun r => r.bytes.dropLast.getLast?) = some (some '\n') := by
  decide

/-- C4 (amended): for every record without a pre-filled buffer and every
configuration, `Format` returns the text written by the selected renderer
followed by one appended newline: the last byte is a newline and what precedes
it is exactly the rendered text (which itself may end in a newline). -/
theorem format_appends_one_newline (env : Env) (f : EaseFormatter) (entry : Entry)
    (hb : entry.Buffer = none) :
    ∃ r line entry', rendered env f entry = some (line, entry')
      ∧ Format env f entry = some r
      ∧ r.bytes = line ++ ['\n']
      ∧ r.bytes.getLast? = some '\n'
      ∧ r.bytes.dropLast = line := by
  refine ⟨_, _, _, rendered_eq env f entry, Format_eq env f entry, ?_, ?_, ?_⟩
  · simp only [hb, Option.getD_none, List.nil_append]
  · simp only [List.getLast?_append, List.getLast?_singleton]
    rfl
  · simp only [hb, Option.getD_none, List.nil_append, List.dropLast_concat]

/-- C4 (amended), applied to the template ending in a newline. -/
theorem format_appends_one_newline_witness :
    helloEntry.Buffer = none
    ∧ ∃ r line entry', rendered plainEnv newlineTemplateFormatter helloEntry
          = some (line, entry')
      ∧ Format plainEnv newlineTemplateFormatter helloEntry = some r
      ∧ r.bytes = line ++ ['\n']
      ∧ r.bytes.getLast? = some '\n'
      ∧ r.bytes.dropLast = line :=
  ⟨rfl, format_appends_one_newline plainEnv newlineTemplateFormatter helloEntry rfl⟩

/-- C5: for every environment, formatter and record (the level being any
number, so any of the seven defined levels or an unrecognised one), the
upper-cased level name has at least 4 characters, the slice `levelText[0:4]`
of the colourised renderer is in range, and `Format` returns a result. -/
theorem format_never_faults (env : Env) (f : EaseFormatter) (entry : Entry) :
    4 ≤ (toUpper (levelString entry.Level)).length
    ∧ (slice04 (toUpper (levelString entry.Level))).isSome = true
    ∧ (levelTextOf f entry.Level).isSome = true
    ∧ (∀ keys data tf, (printColored env f entry keys data tf).isSome = true)
    ∧ (Format env f entry).isSome = true := by
  refine ⟨four_le_length_levelString _, ?_, ?_, ?_, ?_⟩
  · simp only [slice04, four_le_length_levelString, if_true, Option.isSome_some]
  · rw [levelTextOf_eq]; rfl
  · intro keys data tf
    rw [printColored_eq]; rfl
  · rw [Format_eq]; rfl

/-- C10: in the colourised renderer the text substituted for `%level%` is
`ESC[<c>m<T>ESC[0m`, with c the gray code (34) for debug and trace, the yellow
code (33) for warn, the red code (31) for error, fatal and panic, the blue
code (36) for every other level, and T the upper-cased level name, cut to its
first 4 characters unless `DisableLevelTruncation` is set.  With `ForceColors`
and level debug the level is rendered as `ESC[34mDEBUESC[0m`. -/
theorem printColored_level_text (env : Env) (f : EaseFormatter) (entry : Entry)
    (keys : List Str) (data : Fields) (tf : Str) :
    (∃ c T,
      c = (if entry.Level = DebugLevel ∨ entry.Level = TraceLevel then gray
           else if entry.Level = WarnLevel then yellow
           else if entry.Level = ErrorLevel ∨ entry.Level = FatalLevel
             ∨ entry.Level = PanicLevel then red
           else blue)
      ∧ T = (if f.DisableLevelTruncation = true then toUpper (levelString entry.Level)
             else (toUpper (levelString entry.Level)).take 4)
      ∧ (printColored env f entry keys data tf).map Prod.fst
        = some (replaceFirst
            (keys.foldl (coloredStep f data c)
              (replaceFirst
                (replaceFirst
                  (replaceFirst
                    (replaceFirst f.Formatter "%funcVal%".toList
                      (coloredCaller f { entry with Message := trimSuffixNL entry.Message }))
                    "%msg%".toList (trimSuffixNL entry.Message))
                  "%time%".toList
                  (coloredTime env f { entry with Message := trimSuffixNL entry.Message } tf))
                "%level%".toList
                ("\x1b[".toList ++ fmtD c ++ "m".toList ++ T ++ "\x1b[0m".toList), [])).1
            "%kv%".toList
            (keys.foldl (coloredStep f data c)
              (replaceFirst
                (replaceFirst
                  (replaceFirst
                    (replaceFirst f.Formatter "%funcVal%".toList
                      (coloredCaller f { entry with Message := trimSuffixNL entry.Message }))
                    "%msg%".toList (trimSuffixNL entry.Message))
                  "%time%".toList
                  (coloredTime env f { entry with Message := trimSuffixNL entry.Message } tf))
                "%level%".toList
                ("\x1b[".toList ++ fmtD c ++ "m".toList ++ T ++ "\x1b[0m".toList), [])).2))
    ∧ gray = 34 ∧ yellow = 33 ∧ red = 31 ∧ blue = 36
    ∧ (Format plainEnv forcedColorFormatter debugEntry).map (fun r => r.bytes)
        = some "1704067200 \x1b[34mDEBU\x1b[0m -- hello \x1b[34ma\x1b[0m=1\n".toList := by
  refine ⟨⟨_, _, rfl, rfl, ?_⟩, rfl, rfl, rfl, rfl, by decide⟩
  rw [printColored_eq]
  rfl

/-- C7 (counterexample): three renderings in which the field named as attrN
resolves is not substituted for `%attrN%`.  In the colourised renderer, with a
FieldMap resolving attr1 to `user`, the field `user` is put in the text
substituted for `%kv%`.  In the plain renderer, with a FieldMap resolving
logrus_error to `attr1`, the field `attr1` is renamed to `fields.attr1` before
the loop and rendered as a key-value entry; and with a FieldMap resolving attr2
to `attr1`, the field `attr1` is taken by the attr1 case of the switch, so
`%attr2%` stays. -/
theorem colored_ignores_fieldMap_for_attr :
    (resolve attrFormatter.FieldMap Attr1 = "user".toList
      ∧ (Format plainEnv attrFormatter userEntry).map (fun r => r.bytes)
        = some "%attr1%|\x1b[36muser\x1b[0m=bob\n".toList)
    ∧ (resolve errAttrFormatter.FieldMap Attr1 = "attr1".toList
      ∧ resolve errAttrFormatter.FieldMap FieldKeyLogrusError = "attr1".toList
      ∧ (Format plainEnv errAttrFormatter attrOneEntry).map (fun r => r.bytes)
        = some "%attr1%|fields.attr1=v\n".toList)
    ∧ (resolve sharedAttrFormatter.FieldMap Attr2 = "attr1".toList
      ∧ (Format plainEnv sharedAttrFormatter attrOneEntry).map (fun r => r.bytes)
        = some "%attr2%|\n".toList) := by
  decide

/-- C9 (evaluation of the code at the failing input): on the first `Format`
call of a formatter with a `SortingFunc`, colours not forced, for a record
whose logger writes to a terminal, the colour decision read in the ordering
block is false (the terminal probe has not run yet) while the decision that
selects the renderer is true.  The comparator is applied to the combined
sequence, the colourised renderer walks the field keys `b`, `a` as iterated,
unsorted, and the next call on the same objects renders `a` before `b`. -/
theorem first_call_sorts_for_the_other_renderer :
    isColored plainEnv sortingFormatter = false
    ∧ isColored plainEnv (formatterAfter sortingFormatter terminalEntry) = true
    ∧ (orderKeys sortingFormatter (isColored plainEnv sortingFormatter)
        (fixedKeysOf sortingFormatter terminalEntry)
        (dataOf sortingFormatter terminalEntry).keys).2 = ["b".toList, "a".toList]
    ∧ sortStrings (dataOf sortingFormatter terminalEntry).keys = ["a".toList, "b".toList]
    ∧ (Format plainEnv sortingFormatter terminalEntry).map (fun r => r.bytes)
      = some ("1704067200 \x1b[36mINFO\x1b[0m -- hello "
          ++ "\x1b[36mb\x1b[0m=2&\x1b[36ma\x1b[0m=1\n").toList
    ∧ secondFormatBytes plainEnv sortingFormatter terminalEntry
      = some ("1704067200 \x1b[36mINFO\x1b[0m -- hello "
          ++ "\x1b[36ma\x1b[0m=1&\x1b[36mb\x1b[0m=2\n").toList := by
  decide

/-- C6 (counterexample): three pairs of successive calls that return different
bytes.  With `ForceColors` and a message ending in two newlines, `printColored`
reassigns the record's message with one newline trimmed, so the second call
trims once more.  With `DisableSorting`, plain rendering and the fields `b`,
`a`, the range over the field map visits `b`, `a` in the first call and `a`,
`b` in the second, and the key-value text follows it.  With a comparator set
and a logger on a terminal, the ordering block of the first call runs before
the terminal probe and leaves the keys of the colourised renderer unsorted,
that of the second call sorts them. -/
theorem format_twice_differs_on_two_newlines :
    ((Format plainEnv forcedColorFormatter twoNewlinesEntry).map (fun r => r.bytes)
        = some "1704067200 \x1b[36mINFO\x1b[0m -- hi\n \x1b[36ma\x1b[0m=1\n".toList
      ∧ secondFormatBytes plainEnv forcedColorFormatter twoNewlinesEntry
        = some "1704067200 \x1b[36mINFO\x1b[0m -- hi \x1b[36ma\x1b[0m=1\n".toList
      ∧ secondFormatBytes plainEnv forcedColorFormatter twoNewlinesEntry
        ≠ (Format plainEnv forcedColorFormatter twoNewlinesEntry).map (fun r => r.bytes))
    ∧ ((FormatRanged (fun keys => keys) plainEnv unsortedFormatter unsortedEntry).map
          (fun r => r.bytes)
        = some "2024-01-01T00:00:00Z INFO -- hello b=2&a=1\n".toList
      ∧ secondFormatBytesRanged (fun keys => keys) List.reverse plainEnv unsortedFormatter
          unsortedEntry
        = some "2024-01-01T00:00:00Z INFO -- hello a=1&b=2\n".toList
      ∧ (dataOf unsortedFormatter unsortedEntry).keys = ["b".toList, "a".toList]
      ∧ List.reverse (dataOf unsortedFormatter unsortedEntry).keys = ["a".toList, "b".toList])
    ∧ secondFormatBytes plainEnv sortingFormatter terminalEntry
        ≠ (Format plainEnv sortingFormatter terminalEntry).map (fun r => r.bytes) := by
  decide

/-! ## The formatter after a call -/

theorem init_fold_shape (l : List Level) (f : EaseFormatter) :
    ∃ m, l.foldl (fun f level =>
        let levelTextLength : Int := (levelString level).length
        if levelTextLength > f.levelTextMaxLength then
          { f with levelTextMaxLength := levelTextLength }
        else f) f = { f with levelTextMaxLength := m } := by
  induction l generalizing f with
  | nil => exact ⟨f.levelTextMaxLength, rfl⟩
  | cons a l ih =>
    rw [List.foldl_cons]
    by_cases h : ((levelString a).length : Int) > f.levelTextMaxLength
    · simp only [h, if_true]
      obtain ⟨m, hm⟩ := ih { f with levelTextMaxLength := ((levelString a).length : Int) }
      exact ⟨m, hm⟩
    · simp only [h, if_false]
      exact ih f

theorem initOnce_shape (f : EaseFormatter) (entry : Entry) :
    ∃ t m b, f.initOnce entry
        = { f with isTerminal := t, levelTextMaxLength := m, terminalInitOnce := b }
      ∧ b = true ∧ (f.terminalInitOnce = true → t = f.isTerminal) := by
  unfold EaseFormatter.initOnce
  by_cases h : f.terminalInitOnce = true
  · rw [if_pos h]
    exact ⟨f.isTerminal, f.levelTextMaxLength, f.terminalInitOnce, rfl, h, fun _ => rfl⟩
  · rw [if_neg h]
    unfold EaseFormatter.init
    cases hl : entry.Logger with
    | none =>
      obtain ⟨m, hm⟩ := init_fold_shape AllLevels f
      refine ⟨f.isTerminal, m, true, ?_, rfl, fun h' => absurd h' h⟩
      simp only []
      rw [hm]
    | some lg =>
      obtain ⟨m, hm⟩ := init_fold_shape AllLevels { f with isTerminal := lg.outIsTerminal }
      refine ⟨lg.outIsTerminal, m, true, ?_, rfl, fun h' => absurd h' h⟩
      simp only []
      rw [hm]

theorem applyDefaults_shape (f : EaseFormatter) :
    ∃ F K M, applyDefaults f = { f with Formatter := F, KvCom := K, FieldMapCom := M }
      ∧ F ≠ [] ∧ K ≠ [] ∧ M ≠ [] := by
  unfold applyDefaults
  by_cases h1 : f.Formatter = [] <;> by_cases h2 : f.KvCom = [] <;>
    by_cases h3 : f.FieldMapCom = [] <;> simp only [h1, h2, h3, if_true, if_false]
  · exact ⟨_, _, _, rfl, by decide, by decide, by decide⟩
  · exact ⟨_, _, _, rfl, by decide, by decide, h3⟩
  · exact ⟨_, _, _, rfl, by decide, h2, by decide⟩
  · exact ⟨_, _, _, rfl, by decide, h2, h3⟩
  · exact ⟨_, _, _, rfl, h1, by decide, by decide⟩
  · exact ⟨_, _, _, rfl, h1, by decide, h3⟩
  · exact ⟨_, _, _, rfl, h1, h2, by decide⟩
  · exact ⟨_, _, _, rfl, h1, h2, h3⟩

theorem formatterAfter_shape (f : EaseFormatter) (entry : Entry) :
    ∃ F K M t m b, formatterAfter f entry
        = { f with Formatter := F, KvCom := K, FieldMapCom := M, isTerminal := t,
                   levelTextMaxLength := m, terminalInitOnce := b }
      ∧ F ≠ [] ∧ K ≠ [] ∧ M ≠ [] ∧ b = true
      ∧ (f.terminalInitOnce = true → t = f.isTerminal) := by
  unfold formatterAfter
  obtain ⟨F, K, M, hd, hF, hK, hM⟩ := applyDefaults_shape f
  obtain ⟨t, m, b, hi, hb, ht⟩ := initOnce_shape (applyDefaults f) entry
  refine ⟨F, K, M, t, m, b, ?_, hF, hK, hM, hb, ?_⟩
  · rw [hi, hd]
  · intro h
    have := ht (by rw [hd]; exact h)
    rw [this, hd]

theorem formatterAfter_idem (f : EaseFormatter) (entry entry2 : Entry) :
    formatterAfter (formatterAfter f entry) entry2 = formatterAfter f entry := by
  obtain ⟨F, K, M, t, m, b, hs, hF, hK, hM, hb, -⟩ := formatterAfter_shape f entry
  rw [hs]
  subst hb
  unfold formatterAfter applyDefaults EaseFormatter.initOnce
  simp only [hF, hK, hM, if_false, if_true]

theorem isColored_of_terminal_change (env : Env) (f : EaseFormatter) (F K M : Str)
    (t : Bool) (m : Int) (b : Bool) (hc : isColored env f = true)
    (ht : f.isTerminal = false ∨ t = f.isTerminal) :
    isColored env { f with Formatter := F, KvCom := K, FieldMapCom := M, isTerminal := t,
                           levelTextMaxLength := m, terminalInitOnce := b } = true := by
  rcases ht with h | h
  · revert hc
    unfold isColored
    simp only [h]
    cases f.ForceColors <;> cases f.DisableColors <;> cases f.EnvironmentOverrideColors <;>
      cases t <;> cases env.clicolorForce <;> simp
  · subst h
    exact hc

theorem orderKeys_snd_congr (f : EaseFormatter) (c c' : Bool) (fk fk' keys : List Str)
    (h : c = c' ∨ f.SortingFunc = none ∨ f.DisableSorting = true) :
    (orderKeys f c fk keys).2 = (orderKeys f c' fk' keys).2 := by
  unfold orderKeys
  rcases h with h | h | h
  · subst h
    cases f.DisableSorting <;> cases f.SortingFunc <;> simp only [] <;>
      cases c <;> rfl
  · rw [h]
    cases f.DisableSorting <;> rfl
  · rw [h]; rfl

theorem orderKeys_fst_congr (f : EaseFormatter) (c c' : Bool) (fk keys : List Str)
    (h : c = c' ∨ f.SortingFunc = none ∨ f.DisableSorting = true) :
    (orderKeys f c fk keys).1 = (orderKeys f c' fk keys).1 := by
  unfold orderKeys
  rcases h with h | h | h
  · subst h; rfl
  · rw [h]
  · rw [h]; rfl

theorem coloredLine_trimmed (env : Env) (f : EaseFormatter) (entry : Entry)
    (keys : List Str) (data : Fields) (tf lt : Str)
    (h : trimSuffixNL (trimSuffixNL entry.Message) = trimSuffixNL entry.Message) :
    coloredLine env f { entry with Message := trimSuffixNL entry.Message } keys data tf lt
      = coloredLine env f entry keys data tf lt := by
  unfold coloredLine
  simp only []
  rw [h]

/-! ## String order and `sort.Strings` -/

theorem strLe_total (a b : Str) : strLe a b = true ∨ strLe b a = true := by
  induction a generalizing b with
  | nil => exact Or.inl rfl
  | cons x s ih =>
    cases b with
    | nil => exact Or.inr rfl
    | cons y t =>
      unfold strLe
      by_cases h1 : x.toNat < y.toNat
      · exact Or.inl (by rw [if_pos h1])
      · by_cases h2 : y.toNat < x.toNat
        · exact Or.inr (by rw [if_pos h2])
        · rw [if_neg h1, if_neg h2, if_neg h2, if_neg h1]
          exact ih t

theorem strLe_trans (a b c : Str) (hab : strLe a b = true) (hbc : strLe b c = true) :
    strLe a c = true := by
  induction a generalizing b c with
  | nil => rfl
  | cons x s ih =>
    cases b with
    | nil => exact absurd hab (by unfold strLe; exact Bool.noConfusion)
    | cons y t =>
      cases c with
      | nil => exact absurd hbc (by unfold strLe; exact Bool.noConfusion)
      | cons z u =>
        unfold strLe at hab hbc ⊢
        by_cases h1 : x.toNat < y.toNat
        · by_cases h2 : y.toNat < z.toNat
          · rw [if_pos (by omega)]
          · by_cases h3 : z.toNat < y.toNat
            · rw [if_neg h2, if_pos h3] at hbc
              exact absurd hbc Bool.noConfusion
            · rw [if_pos (by omega)]
        · by_cases h1' : y.toNat < x.toNat
          · rw [if_neg h1, if_pos h1'] at hab
            exact absurd hab Bool.noConfusion
          · rw [if_neg h1, if_neg h1'] at hab
            by_cases h2 : y.toNat < z.toNat
            · rw [if_pos (by omega)]
            · by_cases h3 : z.toNat < y.toNat
              · rw [if_neg h2, if_pos h3] at hbc
                exact absurd hbc Bool.noConfusion
              · rw [if_neg h2, if_neg h3] at hbc
                rw [if_neg (by omega), if_neg (by omega)]
                exact ih t u hab hbc

theorem sortStrings_sorted (keys : List Str) :
    (sortStrings keys).Pairwise (fun a b => strLe a b = true) :=
  @List.sorted_insertionSort Str (fun a b => strLe a b = true) _
    ⟨strLe_total⟩ ⟨strLe_trans⟩ keys

theorem mem_sortStrings (keys : List Str) (k : Str) : k ∈ sortStrings keys ↔ k ∈ keys :=
  List.mem_insertionSort _

theorem sortStrings_nodup (keys : List Str) (h : keys.Nodup) : (sortStrings keys).Nodup :=
  (List.perm_insertionSort _ keys).nodup_iff.2 h

/-! ## Field maps: distinct keys, values -/

theorem keys_set (data : Fields) (k : Str) (v : Value) :
    (data.set k v).keys = if k ∈ data.keys then data.keys else data.keys ++ [k] := by
  induction data with
  | nil => rfl
  | cons p rest ih =>
    obtain ⟨k', v'⟩ := p
    by_cases h : k' = k
    · subst h
      simp only [Fields.set, if_true, Fields.keys, List.map_cons, List.mem_cons, true_or]
    · have h' : ¬ k = k' := fun e => h e.symm
      simp only [Fields.set, h, if_false, Fields.keys, List.map_cons, List.mem_cons, h',
        false_or, List.cons_append] at ih ⊢
      rw [ih]
      split <;> rfl

theorem nodup_keys_set (data : Fields) (k : Str) (v : Value) (h : data.keys.Nodup) :
    (data.set k v).keys.Nodup := by
  rw [keys_set]
  split
  · exact h
  · rename_i hk
    exact List.Nodup.append h (List.nodup_singleton k)
      (by
        intro x hx hx'
        rw [List.mem_singleton] at hx'
        subst hx'
        exact hk hx)

theorem keys_delete (data : Fields) (k : Str) :
    (data.delete k).keys = data.keys.filter (fun x => !(x == k)) := by
  unfold Fields.delete Fields.keys
  rw [List.filter_map]
  rfl

theorem nodup_keys_delete (data : Fields) (k : Str) (h : data.keys.Nodup) :
    (data.delete k).keys.Nodup := by
  rw [keys_delete]
  exact h.filter _

theorem nodup_keys_moveClash (data : Fields) (k : Str) (h : data.keys.Nodup) :
    (moveClash data k).keys.Nodup := by
  unfold moveClash
  split
  · exact nodup_keys_delete _ _ (nodup_keys_set _ _ _ h)
  · exact h

theorem nodup_keys_copyClash (data : Fields) (k : Str) (h : data.keys.Nodup) :
    (copyClash data k).keys.Nodup := by
  unfold copyClash
  split
  · exact nodup_keys_set _ _ _ h
  · exact h

theorem nodup_keys_prefixFieldClashes (data : Fields) (fieldMap : FieldMap) (rc : Bool)
    (h : data.keys.Nodup) : (prefixFieldClashes data fieldMap rc).keys.Nodup := by
  unfold prefixFieldClashes
  have h4 := nodup_keys_moveClash _ (resolve fieldMap FieldKeyLogrusError)
    (nodup_keys_moveClash _ (resolve fieldMap FieldKeyLevel)
      (nodup_keys_moveClash _ (resolve fieldMap FieldKeyMsg)
        (nodup_keys_moveClash _ (resolve fieldMap FieldKeyTime) h)))
  cases rc
  · exact h4
  · exact nodup_keys_copyClash _ _ (nodup_keys_copyClash _ _ h4)

theorem nodup_keys_copy (l : Fields) (acc : Fields) (h : acc.keys.Nodup) :
    (l.foldl (fun data kv => data.set kv.1 kv.2) acc).keys.Nodup := by
  induction l generalizing acc with
  | nil => exact h
  | cons p rest ih => exact ih _ (nodup_keys_set _ _ _ h)

theorem nodup_keys_dataOf (f : EaseFormatter) (entry : Entry) : (dataOf f entry).keys.Nodup :=
  nodup_keys_prefixFieldClashes _ _ _ (nodup_keys_copy _ [] List.nodup_nil)

theorem mem_set (data : Fields) (k : Str) (v : Value) (p : Str × Value)
    (h : p ∈ data.set k v) : p ∈ data ∨ p = (k, v) := by
  induction data with
  | nil =>
    simp only [Fields.set, List.mem_singleton] at h
    exact Or.inr h
  | cons q rest ih =>
    obtain ⟨k', v'⟩ := q
    by_cases hk : k' = k
    · simp only [Fields.set, hk, if_true, List.mem_cons] at h ⊢
      rcases h with h | h
      · exact Or.inr h
      · exact Or.inl (Or.inr h)
    · simp only [Fields.set, hk, if_false, List.mem_cons] at h ⊢
      rcases h with h | h
      · exact Or.inl (Or.inl h)
      · rcases ih h with h' | h'
        · exact Or.inl (Or.inr h')
        · exact Or.inr h'

theorem get?_mem (data : Fields) (k : Str) (v : Value) (h : data.get? k = some v) :
    (k, v) ∈ data := by
  induction data with
  | nil => exact absurd h (by simp [Fields.get?])
  | cons q rest ih =>
    obtain ⟨k', v'⟩ := q
    unfold Fields.get? at h ih
    rw [List.lookup_cons] at h
    by_cases hk : k = k'
    · subst hk
      rw [beq_self_eq_true] at h
      simp only [Option.some.injEq] at h
      subst h
      exact List.mem_cons_self _ _
    · rw [beq_eq_false_iff_ne.2 hk] at h
      exact List.mem_cons_of_mem _ (ih h)

theorem get_of_mem_keys (data : Fields) (k : Str) (h : k ∈ data.keys) :
    (k, data.get k) ∈ data := by
  cases hg : data.get? k with
  | none => exact absurd h ((get?_eq_none_iff data k).1 hg)
  | some v =>
    have hv : data.get k = v := by
      unfold Fields.get
      unfold Fields.get? at hg
      rw [hg]; rfl
    rw [hv]
    exact get?_mem data k v hg

theorem allStr_set (data : Fields) (k : Str) (v : Value) (h : allStr data)
    (hv : ∃ s, v = Value.str s) : allStr (data.set k v) := by
  intro p hp
  rcases mem_set data k v p hp with h' | h'
  · exact h p h'
  · rw [h']; exact hv

theorem allStr_delete (data : Fields) (k : Str) (h : allStr data) :
    allStr (data.delete k) := fun p hp => h p (List.mem_of_mem_filter hp)

theorem allStr_moveClash (data : Fields) (k : Str) (h : allStr data) :
    allStr (moveClash data k) := by
  unfold moveClash
  split
  · rename_i t ht
    exact allStr_delete _ _ (allStr_set _ _ _ h (h _ (get?_mem data k t ht)))
  · exact h

theorem allStr_copyClash (data : Fields) (k : Str) (h : allStr data) :
    allStr (copyClash data k) := by
  unfold copyClash
  split
  · rename_i t ht
    exact allStr_set _ _ _ h (h _ (get?_mem data k t ht))
  · exact h

theorem allStr_prefixFieldClashes (data : Fields) (fieldMap : FieldMap) (rc : Bool)
    (h : allStr data) : allStr (prefixFieldClashes data fieldMap rc) := by
  unfold prefixFieldClashes
  have h4 := allStr_moveClash _ (resolve fieldMap FieldKeyLogrusError)
    (allStr_moveClash _ (resolve fieldMap FieldKeyLevel)
      (allStr_moveClash _ (resolve fieldMap FieldKeyMsg)
        (allStr_moveClash _ (resolve fieldMap FieldKeyTime) h)))
  cases rc
  · exact h4
  · exact allStr_copyClash _ _ (allStr_copyClash _ _ h4)

theorem allStr_copy (l acc : Fields) (hl : allStr l) (h : allStr acc) :
    allStr (l.foldl (fun data kv => data.set kv.1 kv.2) acc) := by
  induction l generalizing acc with
  | nil => exact h
  | cons p rest ih =>
    exact ih _ (fun q hq => hl q (List.mem_cons_of_mem _ hq))
      (allStr_set _ _ _ h (hl p (List.mem_cons_self _ _)))

theorem allStr_dataOf (f : EaseFormatter) (entry : Entry) (h : allStr entry.Data) :
    allStr (dataOf f entry) :=
  allStr_prefixFieldClashes _ _ _ (allStr_copy _ [] h (fun _ hp => nomatch hp))

/-! ## The plain loop: what each key does to `kvStr` -/

theorem plainStep_of_not_catches (f : EaseFormatter) (entry : Entry) (data : Fields)
    (funcVal fileVal tf : Str) (acc : Str × Str) (key : Str)
    (h : ¬ plainCatches f entry key) :
    plainStep f entry data funcVal fileVal tf acc key
      = (acc.1, kvAppend f.FieldMapCom acc.2 (key ++ f.KvCom ++ fmtS (data.get key))) := by
  unfold plainCatches at h
  simp only [not_or] at h
  obtain ⟨h1, h2, h3, h4, h5, h6, h7, h8, h9, h10⟩ := h
  unfold plainStep kvAppend
  rw [if_neg h1, if_neg h2, if_neg h3, if_neg h4, if_neg h5, if_neg h6, if_neg h7, if_neg h8,
    if_neg h9, if_neg h10]
  split <;> simp only [List.append_assoc]

theorem plainStep_snd_of_catches (f : EaseFormatter) (entry : Entry) (data : Fields)
    (funcVal fileVal tf : Str) (acc : Str × Str) (key : Str)
    (h : plainCatches f entry key) :
    (plainStep f entry data funcVal fileVal tf acc key).2 = acc.2 := by
  unfold plainStep
  by_cases h1 : key = resolve f.FieldMap FieldKeyTime
  · rw [if_pos h1]
  rw [if_neg h1]
  by_cases h2 : key = resolve f.FieldMap FieldKeyLevel
  · rw [if_pos h2]
  rw [if_neg h2]
  by_cases h3 : key = resolve f.FieldMap FieldKeyMsg
  · rw [if_pos h3]
  rw [if_neg h3]
  by_cases h4 : key = resolve f.FieldMap FieldKeyFunc ∧ entry.HasCaller = true
  · rw [if_pos h4]
  rw [if_neg h4]
  by_cases h5 : key = resolve f.FieldMap FieldKeyFile ∧ entry.HasCaller = true
  · rw [if_pos h5]
  rw [if_neg h5]
  by_cases h6 : key = resolve f.FieldMap Attr1
  · rw [if_pos h6]
  rw [if_neg h6]
  by_cases h7 : key = resolve f.FieldMap Attr2
  · rw [if_pos h7]
  rw [if_neg h7]
  by_cases h8 : key = resolve f.FieldMap Attr3
  · rw [if_pos h8]
  rw [if_neg h8]
  by_cases h9 : key = resolve f.FieldMap Attr4
  · rw [if_pos h9]
  rw [if_neg h9]
  by_cases h10 : key = resolve f.FieldMap Attr5
  · rw [if_pos h10]
  exact absurd h (not_or.2 ⟨h1, not_or.2 ⟨h2, not_or.2 ⟨h3, not_or.2 ⟨h4, not_or.2 ⟨h5,
    not_or.2 ⟨h6, not_or.2 ⟨h7, not_or.2 ⟨h8, not_or.2 ⟨h9, h10⟩⟩⟩⟩⟩⟩⟩⟩⟩)

theorem plainWalk_snd (f : EaseFormatter) (entry : Entry) (data : Fields)
    (funcVal fileVal tf : Str) (keys : List Str) (acc : Str × Str) :
    (keys.foldl (plainStep f entry data funcVal fileVal tf) acc).2
      = ((keys.filter (fun k => decide (¬ plainCatches f entry k))).map
          (fun k => k ++ f.KvCom ++ fmtS (data.get k))).foldl (kvAppend f.FieldMapCom) acc.2 := by
  induction keys generalizing acc with
  | nil => rfl
  | cons k rest ih =>
    rw [List.foldl_cons, ih]
    by_cases h : plainCatches f entry k
    · rw [plainStep_snd_of_catches _ _ _ _ _ _ _ _ h,
        @List.filter_cons_of_neg Str (fun k => decide (¬ plainCatches f entry k)) k rest
          (fun hd => (of_decide_eq_true hd) h)]
    · have hp : (fun k => decide (¬ plainCatches f entry k)) k = true := decide_eq_true h
      rw [plainStep_of_not_catches _ _ _ _ _ _ _ _ h,
        @List.filter_cons_of_pos Str (fun k => decide (¬ plainCatches f entry k)) k rest hp,
        List.map_cons, List.foldl_cons]

theorem intercalate_cons (sep e : Str) (es : List Str) :
    List.intercalate sep (e :: es) = e ++ (es.map (fun x => sep ++ x)).flatten := by
  induction es generalizing e with
  | nil => simp [List.intercalate]
  | cons e' rest ih =>
    have h := ih e'
    unfold List.intercalate at h ⊢
    rw [List.intersperse_cons₂, List.flatten_cons, List.flatten_cons, h]
    simp only [List.map_cons, List.flatten_cons, List.append_assoc]

theorem foldl_kvAppend_of_ne_nil (sep a : Str) (es : List Str) (ha : a ≠ []) :
    es.foldl (kvAppend sep) a = a ++ (es.map (fun x => sep ++ x)).flatten := by
  induction es generalizing a with
  | nil => simp
  | cons e rest ih =>
    rw [List.foldl_cons]
    have h1 : kvAppend sep a e = a ++ sep ++ e := by
      unfold kvAppend; rw [if_neg ha]
    rw [h1, ih _ (by
      intro h
      have := congrArg List.length h
      simp only [List.length_append, List.length_nil] at this
      exact ha (List.length_eq_zero.1 (by omega)))]
    simp only [List.map_cons, List.flatten_cons, List.append_assoc]

theorem foldl_kvAppend_nil (sep : Str) (es : List Str) (h : ∀ e ∈ es, e ≠ []) :
    es.foldl (kvAppend sep) [] = List.intercalate sep es := by
  cases es with
  | nil => rfl
  | cons e rest =>
    rw [List.foldl_cons, intercalate_cons]
    have h1 : kvAppend sep [] e = e := by
      unfold kvAppend; rw [if_pos rfl]; rfl
    rw [h1, foldl_kvAppend_of_ne_nil _ _ _ (h e (List.mem_cons_self _ _))]

/-! ## Plain rendering with the default key order -/

theorem fixedKeysOf_no_caller (f : EaseFormatter) (entry : Entry)
    (hcaller : entry.HasCaller = false) (k : Str) (hk : k ∈ fixedKeysOf f entry) :
    k = resolve f.FieldMap FieldKeyTime ∨ k = resolve f.FieldMap FieldKeyLevel
      ∨ k = resolve f.FieldMap FieldKeyMsg := by
  unfold fixedKeysOf at hk
  rw [hcaller] at hk
  simp only [Bool.false_eq_true, if_false] at hk
  split_ifs at hk <;>
    simp only [List.nil_append, List.mem_append, List.mem_singleton, List.mem_cons,
      List.not_mem_nil, or_false] at hk <;> tauto

theorem orderKeys_default (f : EaseFormatter) (c : Bool) (fk keys : List Str)
    (hs : f.DisableSorting = false) (hn : f.SortingFunc = none) :
    orderKeys f c fk keys = (fk ++ sortStrings keys, sortStrings keys) := by
  unfold orderKeys
  rw [hs, hn]
  rfl

theorem reserved_not_mem_dataOf (f : EaseFormatter) (entry : Entry) (hfm : f.FieldMap = []) :
    FieldKeyTime ∉ (dataOf f entry).keys ∧ FieldKeyLevel ∉ (dataOf f entry).keys
      ∧ FieldKeyMsg ∉ (dataOf f entry).keys := by
  have h := reserved_not_mem_prefixFieldClashes
    (entry.Data.foldl (fun data kv => data.set kv.1 kv.2) []) [] entry.HasCaller
    (by decide) (by decide) (by decide) (by decide)
  unfold dataOf
  rw [hfm]
  exact ⟨h.1, h.2.1, h.2.2.1⟩

theorem plainCatches_default_iff (f : EaseFormatter) (entry : Entry) (k : Str)
    (hfm : f.FieldMap = []) (hcaller : entry.HasCaller = false)
    (h1 : k ≠ FieldKeyTime) (h2 : k ≠ FieldKeyLevel) (h3 : k ≠ FieldKeyMsg) :
    plainCatches f entry k ↔ k ∈ attrNames := by
  unfold plainCatches attrNames
  rw [hfm, hcaller]
  have r : ∀ x : Str, resolve [] x = x := fun _ => rfl
  simp only [r, List.mem_cons, List.not_mem_nil, or_false, Bool.false_eq_true, and_false,
    false_or, h1, h2, h3]

theorem plainWalk_kv_default (f : EaseFormatter) (entry : Entry) (data : Fields)
    (fixed keys : List Str) (tf : Str)
    (hfm : f.FieldMap = []) (hcaller : entry.HasCaller = false) (hK : f.KvCom ≠ [])
    (hfixed : ∀ k ∈ fixed, plainCatches f entry k)
    (hkeys : ∀ k ∈ keys, k ≠ FieldKeyTime ∧ k ≠ FieldKeyLevel ∧ k ≠ FieldKeyMsg) :
    (plainWalk f entry data (fixed ++ keys) tf).2
      = List.intercalate f.FieldMapCom
          ((keys.filter (fun k => decide (k ∉ attrNames))).map
            (fun k => k ++ f.KvCom ++ fmtS (data.get k))) := by
  unfold plainWalk
  rw [plainWalk_snd, List.filter_append]
  have hf : fixed.filter (fun k => decide (¬ plainCatches f entry k)) = [] := by
    rw [List.filter_eq_nil_iff]
    intro k hk hd
    exact (of_decide_eq_true hd) (hfixed k hk)
  have hk : keys.filter (fun k => decide (¬ plainCatches f entry k))
      = keys.filter (fun k => decide (k ∉ attrNames)) := by
    apply List.filter_congr
    intro k hk
    obtain ⟨h1, h2, h3⟩ := hkeys k hk
    exact decide_eq_decide.2 (not_congr (plainCatches_default_iff f entry k hfm hcaller h1 h2 h3))
  rw [hf, hk, List.nil_append]
  apply foldl_kvAppend_nil
  intro e he
  rw [List.mem_map] at he
  obtain ⟨k, -, rfl⟩ := he
  intro h
  have := congrArg List.length h
  simp only [List.length_append, List.length_nil] at this
  exact hK (List.length_eq_zero.1 (by omega))

/-- C8: with sorting enabled, no custom comparator, the default FieldMap, no
caller info and string-valued fields, plain rendering substitutes for `%kv%`
the entries `key ++ KvCom ++ value` of exactly the keys of the collision-renamed
field mapping that are not attr1..attr5, in strictly ascending lexicographic
order of key, joined by `FieldMapCom` (so without leading or trailing
separator, and empty when there is no such key).  `KvCom` and `FieldMapCom`
are the formatter's separators after defaulting. -/
theorem plain_kv_is_sorted_join (env : Env) (f : EaseFormatter) (entry : Entry)
    (hs : f.DisableSorting = false) (hn : f.SortingFunc = none) (hfm : f.FieldMap = [])
    (hcaller : entry.HasCaller = false) (hstr : allStr entry.Data)
    (hplain : isColored env (formatterAfter f entry) = false) :
    ∃ ks : List Str,
      (∀ k, k ∈ ks ↔ (k ∈ (dataOf f entry).keys ∧ k ∉ attrNames))
      ∧ ks.Pairwise (fun a b => strLe a b = true ∧ a ≠ b)
      ∧ (∀ k ∈ ks, ∃ s, (dataOf f entry).get k = Value.str s)
      ∧ (plainWalk (formatterAfter f entry) entry (dataOf f entry)
            (fixedKeysOf f entry ++ sortStrings (dataOf f entry).keys)
            (timestampFormatOf (formatterAfter f entry))).2
          = List.intercalate (formatterAfter f entry).FieldMapCom
              (ks.map (fun k => k ++ (formatterAfter f entry).KvCom
                ++ fmtV ((dataOf f entry).get k)))
      ∧ (Format env f entry).map (fun r => r.bytes)
          = some (entry.Buffer.getD []
              ++ replaceFirst
                  (plainWalk (formatterAfter f entry) entry (dataOf f entry)
                    (fixedKeysOf f entry ++ sortStrings (dataOf f entry).keys)
                    (timestampFormatOf (formatterAfter f entry))).1
                  "%kv%".toList
                  (List.intercalate (formatterAfter f entry).FieldMapCom
                    (ks.map (fun k => k ++ (formatterAfter f entry).KvCom
                      ++ fmtV ((dataOf f entry).get k))))
              ++ ['\n']) := by
  obtain ⟨F, K, M, t, m, b, hshape, -, hK, -, -, -⟩ := formatterAfter_shape f entry
  have hfm1 : (formatterAfter f entry).FieldMap = [] := by rw [hshape]; exact hfm
  have hK1 : (formatterAfter f entry).KvCom ≠ [] := by rw [hshape]; exact hK
  obtain ⟨hnt, hnl, hnm⟩ := reserved_not_mem_dataOf f entry hfm
  have r : ∀ x : Str, resolve [] x = x := fun _ => rfl
  have hstrs : ∀ k ∈ (dataOf f entry).keys, ∃ s, (dataOf f entry).get k = Value.str s :=
    fun k hk => allStr_dataOf f entry hstr _ (get_of_mem_keys _ k hk)
  have hmem : ∀ k, k ∈ (sortStrings (dataOf f entry).keys).filter
        (fun k => decide (k ∉ attrNames))
      ↔ (k ∈ (dataOf f entry).keys ∧ k ∉ attrNames) := by
    intro k
    rw [List.mem_filter, mem_sortStrings, decide_eq_true_iff]
  have hwalk := plainWalk_kv_default (formatterAfter f entry) entry (dataOf f entry)
    (fixedKeysOf f entry) (sortStrings (dataOf f entry).keys)
    (timestampFormatOf (formatterAfter f entry)) hfm1 hcaller hK1
    (by
      intro k hk
      have h := fixedKeysOf_no_caller f entry hcaller k hk
      unfold plainCatches
      rw [hfm1]
      rw [hfm] at h
      tauto)
    (by
      intro k hk
      rw [mem_sortStrings] at hk
      exact ⟨fun e => hnt (e ▸ hk), fun e => hnl (e ▸ hk), fun e => hnm (e ▸ hk)⟩)
  have hmap : ((sortStrings (dataOf f entry).keys).filter
        (fun k => decide (k ∉ attrNames))).map
        (fun k => k ++ (formatterAfter f entry).KvCom ++ fmtS ((dataOf f entry).get k))
      = ((sortStrings (dataOf f entry).keys).filter
        (fun k => decide (k ∉ attrNames))).map
        (fun k => k ++ (formatterAfter f entry).KvCom ++ fmtV ((dataOf f entry).get k)) := by
    apply List.map_congr_left
    intro k hk
    obtain ⟨s, hsv⟩ := hstrs k ((hmem k).1 hk).1
    rw [hsv]
    rfl
  rw [hmap] at hwalk
  refine ⟨_, hmem, ?_, fun k hk => hstrs k ((hmem k).1 hk).1, hwalk, ?_⟩
  · exact List.Pairwise.filter _
      ((sortStrings_sorted _).and (sortStrings_nodup _ (nodup_keys_dataOf f entry)))
  · rw [Format_eq]
    simp only [Option.map_some']
    unfold renderedLine
    rw [if_neg (by rw [hplain]; exact Bool.noConfusion), orderKeys_default f _ _ _ hs hn]
    unfold plainOutput
    simp only []
    rw [hwalk]

/-- C8, applied: the zero formatter (plain, default separators) on a record
with the string fields `b`, `attr1`, `time`, `a`. -/
theorem plain_kv_is_sorted_join_witness :
    (zeroFormatter.DisableSorting = false ∧ zeroFormatter.SortingFunc = none
      ∧ zeroFormatter.FieldMap = [] ∧ mixedEntry.HasCaller = false
      ∧ isColored plainEnv (formatterAfter zeroFormatter mixedEntry) = false)
    ∧ (Format plainEnv zeroFormatter mixedEntry).map (fun r => r.bytes)
        = some "2024-01-01T00:00:00Z INFO -- hello a=1&b=2&fields.time=t\n".toList
    ∧ ∃ ks : List Str,
      (∀ k, k ∈ ks ↔ (k ∈ (dataOf zeroFormatter mixedEntry).keys ∧ k ∉ attrNames))
      ∧ ks.Pairwise (fun a b => strLe a b = true ∧ a ≠ b)
      ∧ (∀ k ∈ ks, ∃ s, (dataOf zeroFormatter mixedEntry).get k = Value.str s)
      ∧ (plainWalk (formatterAfter zeroFormatter mixedEntry) mixedEntry
            (dataOf zeroFormatter mixedEntry)
            (fixedKeysOf zeroFormatter mixedEntry
              ++ sortStrings (dataOf zeroFormatter mixedEntry).keys)
            (timestampFormatOf (formatterAfter zeroFormatter mixedEntry))).2
          = List.intercalate (formatterAfter zeroFormatter mixedEntry).FieldMapCom
              (ks.map (fun k => k ++ (formatterAfter zeroFormatter mixedEntry).KvCom
                ++ fmtV ((dataOf zeroFormatter mixedEntry).get k)))
      ∧ (Format plainEnv zeroFormatter mixedEntry).map (fun r => r.bytes)
          = some (mixedEntry.Buffer.getD []
              ++ replaceFirst
                  (plainWalk (formatterAfter zeroFormatter mixedEntry) mixedEntry
                    (dataOf zeroFormatter mixedEntry)
                    (fixedKeysOf zeroFormatter mixedEntry
                      ++ sortStrings (dataOf zeroFormatter mixedEntry).keys)
                    (timestampFormatOf (formatterAfter zeroFormatter mixedEntry))).1
                  "%kv%".toList
                  (List.intercalate (formatterAfter zeroFormatter mixedEntry).FieldMapCom
                    (ks.map (fun k => k ++ (formatterAfter zeroFormatter mixedEntry).KvCom
                      ++ fmtV ((dataOf zeroFormatter mixedEntry).get k))))
              ++ ['\n']) :=
  ⟨⟨rfl, rfl, rfl, by decide, by decide⟩, by decide,
   plain_kv_is_sorted_join plainEnv zeroFormatter mixedEntry rfl rfl rfl (by decide)
     (by
       intro kv hkv
       simp only [mixedEntry, List.mem_cons, List.not_mem_nil, or_false] at hkv
       rcases hkv with h | h | h | h <;> exact ⟨_, by rw [h]⟩)
     (by decide)⟩

/-! ## `strings.Replace` with count 1 -/

theorem replaceFirst_cons_hit (c : Char) (s old new : Str)
    (h : old.isPrefixOf (c :: s) = true) :
    replaceFirst (c :: s) old new = new ++ (c :: s).drop old.length := by
  unfold replaceFirst
  rw [if_pos h]

theorem replaceFirst_cons_skip (c : Char) (s old new : Str)
    (h : ¬ old.isPrefixOf (c :: s) = true) :
    replaceFirst (c :: s) old new = c :: replaceFirst s old new := by
  rw [replaceFirst, if_neg h]

theorem replaceFirst_of_length_lt (s old new : Str) (h : s.length < old.length) :
    replaceFirst s old new = s := by
  induction s with
  | nil =>
    unfold replaceFirst
    rw [if_neg]
    intro e
    rw [e] at h
    exact absurd h (Nat.lt_irrefl _)
  | cons c s ih =>
    have hp : ¬ old.isPrefixOf (c :: s) = true := by
      intro hp
      have := (List.isPrefixOf_iff_prefix.1 hp).length_le
      omega
    rw [replaceFirst_cons_skip _ _ _ _ hp,
      ih (by simp only [List.length_cons] at h; omega)]

theorem replaceFirst_append_sep (p sfx old new : Str) (c : Char) (hc : c ∉ old)
    (hlen : sfx.length < old.length) :
    replaceFirst (p ++ c :: sfx) old new = replaceFirst p old new ++ c :: sfx := by
  have hne : old ≠ [] := by
    intro e
    rw [e] at hlen
    exact absurd hlen (Nat.not_lt_zero _)
  induction p with
  | nil =>
    have hp : ¬ old.isPrefixOf (c :: sfx) = true := by
      intro hp
      obtain ⟨t, ht⟩ := List.isPrefixOf_iff_prefix.1 hp
      cases old with
      | nil => exact hne rfl
      | cons a old' =>
        simp only [List.cons_append, List.cons.injEq] at ht
        exact hc (ht.1 ▸ List.mem_cons_self _ _)
    rw [List.nil_append, replaceFirst_cons_skip _ _ _ _ hp,
      replaceFirst_of_length_lt _ _ _ hlen]
    unfold replaceFirst
    rw [if_neg hne]
    rfl
  | cons a p ih =>
    by_cases hp : old.isPrefixOf (a :: p) = true
    · have hp' : old.isPrefixOf (a :: p ++ c :: sfx) = true :=
        List.isPrefixOf_iff_prefix.2
          ((List.isPrefixOf_iff_prefix.1 hp).trans (List.prefix_append _ _))
      rw [replaceFirst_cons_hit _ _ _ _ hp]
      rw [List.cons_append] at hp' ⊢
      rw [replaceFirst_cons_hit _ _ _ _ hp', ← List.cons_append,
        List.drop_append_of_le_length (List.isPrefixOf_iff_prefix.1 hp).length_le,
        List.append_assoc]
    · have hp' : ¬ old.isPrefixOf (a :: (p ++ c :: sfx)) = true := by
        intro h
        have hpre := List.isPrefixOf_iff_prefix.1 h
        rw [← List.cons_append] at hpre
        rcases Nat.lt_or_ge (a :: p).length old.length with hl | hl
        · -- the separator would be an element of the token
          obtain ⟨t, ht⟩ := hpre
          have hget : old[(a :: p).length]? = some c := by
            have h1 : (old ++ t)[(a :: p).length]? = old[(a :: p).length]? :=
              List.getElem?_append_left hl
            rw [← h1, ht, List.getElem?_append_right (Nat.le_refl _), Nat.sub_self]
            exact List.getElem?_cons_zero
          exact hc (List.getElem?_mem hget)
        · exact hp (List.isPrefixOf_iff_prefix.2
            (List.prefix_of_prefix_length_le hpre (List.prefix_append _ _) hl))
      rw [List.cons_append, replaceFirst_cons_skip _ _ _ _ hp',
        replaceFirst_cons_skip _ _ _ _ hp, ih, List.cons_append]

theorem get?_set_self (data : Fields) (k : Str) (v : Value) :
    (data.set k v).get? k = some v := by
  induction data with
  | nil =>
    unfold Fields.set Fields.get?
    exact List.lookup_cons_self
  | cons p rest ih =>
    obtain ⟨k', v'⟩ := p
    by_cases h : k' = k
    · simp only [Fields.set, h, if_true]
      unfold Fields.get?
      exact List.lookup_cons_self
    · simp only [Fields.set, h, if_false]
      unfold Fields.get? at ih ⊢
      rw [List.lookup_cons, beq_eq_false_iff_ne.2 (fun e => h e.symm)]
      exact ih

theorem get?_set_ne (data : Fields) (k x : Str) (v : Value) (hx : x ≠ k) :
    (data.set k v).get? x = data.get? x := by
  induction data with
  | nil =>
    unfold Fields.set Fields.get?
    rw [List.lookup_cons, beq_eq_false_iff_ne.2 hx]
  | cons p rest ih =>
    obtain ⟨k', v'⟩ := p
    by_cases h : k' = k
    · subst h
      simp only [Fields.set, if_true]
      unfold Fields.get?
      rw [List.lookup_cons, List.lookup_cons, beq_eq_false_iff_ne.2 hx]
    · simp only [Fields.set, h, if_false]
      unfold Fields.get? at ih ⊢
      rw [List.lookup_cons, List.lookup_cons, ih]

theorem get?_delete_ne (data : Fields) (k x : Str) (hx : x ≠ k) :
    (data.delete k).get? x = data.get? x := by
  induction data with
  | nil => rfl
  | cons p rest ih =>
    obtain ⟨k', v'⟩ := p
    unfold Fields.delete Fields.get? at ih ⊢
    by_cases h : k' = k
    · subst h
      rw [List.filter_cons_of_neg (by simp), List.lookup_cons, beq_eq_false_iff_ne.2 hx]
      exact ih
    · rw [List.filter_cons_of_pos (by simpa using h), List.lookup_cons, List.lookup_cons, ih]

theorem get?_moveClash_ne (data : Fields) (k x : Str) (h1 : x ≠ k)
    (h2 : x ≠ "fields.".toList ++ k) : (moveClash data k).get? x = data.get? x := by
  unfold moveClash
  split
  · rw [get?_delete_ne _ _ _ h1, get?_set_ne _ _ _ _ h2]
  · rfl

theorem get?_copyClash_ne (data : Fields) (k x : Str) (h2 : x ≠ "fields.".toList ++ k) :
    (copyClash data k).get? x = data.get? x := by
  unfold copyClash
  split
  · rw [get?_set_ne _ _ _ _ h2]
  · rfl

theorem get?_moveClash_renamed (data : Fields) (k : Str) (v : Value)
    (h : data.get? k = some v) : (moveClash data k).get? ("fields.".toList ++ k) = some v := by
  unfold moveClash
  rw [h]
  simp only []
  rw [get?_delete_ne _ _ _ (fields_append_ne k), get?_set_self]

theorem set_of_not_mem (data : Fields) (k : Str) (v : Value) (h : k ∉ data.keys) :
    data.set k v = data ++ [(k, v)] := by
  induction data with
  | nil => rfl
  | cons p rest ih =>
    obtain ⟨k', v'⟩ := p
    simp only [Fields.keys, List.map_cons, List.mem_cons, not_or] at h
    have hk : ¬ k' = k := fun e => h.1 e.symm
    simp only [Fields.set, hk, if_false, List.cons_append]
    rw [ih h.2]

theorem copy_eq_append (l acc : Fields) (h : (acc ++ l).keys.Nodup) :
    l.foldl (fun data kv => data.set kv.1 kv.2) acc = acc ++ l := by
  induction l generalizing acc with
  | nil => simp
  | cons p rest ih =>
    have hp : p.1 ∉ acc.keys := by
      intro hm
      simp only [Fields.keys, List.map_append, List.map_cons] at h hm
      exact (List.disjoint_of_nodup_append h) hm (List.mem_cons_self _ _)
    rw [List.foldl_cons, set_of_not_mem _ _ _ hp, ih _ (by
      simpa only [List.append_assoc, List.singleton_append] using h)]
    simp only [List.append_assoc, List.singleton_append]

/-! ## The plain loop: what each key does to the output text -/

theorem fixedKeysOf_head (f : EaseFormatter) (entry : Entry) (hts : f.DisableTimestamp = false) :
    ∃ tl, fixedKeysOf f entry = resolve f.FieldMap FieldKeyTime :: tl := by
  unfold fixedKeysOf
  rw [hts]
  simp only [Bool.not_false, if_true, List.nil_append, List.singleton_append, List.cons_append]
  split_ifs <;> exact ⟨_, rfl⟩

theorem orderKeys_fst_no_comparator (f : EaseFormatter) (c : Bool) (fk keys : List Str)
    (hn : f.SortingFunc = none) :
    ∃ ks, (orderKeys f c fk keys).1 = fk ++ ks ∧ ∀ k, k ∈ ks ↔ k ∈ keys := by
  unfold orderKeys
  rw [hn]
  cases f.DisableSorting
  · exact ⟨sortStrings keys, rfl, fun k => mem_sortStrings keys k⟩
  · exact ⟨keys, rfl, fun _ => Iff.rfl⟩

/-- C11: for every formatter with `EnvironmentOverrideColors=true`, when
`CLICOLOR_FORCE` is set to `0`, or when it is unset and `CLICOLOR` is `0`,
`isColored` returns false, whatever `ForceColors`, `DisableColors` and the
terminal flag are. -/
theorem isColored_forced_off (env : Env) (f : EaseFormatter)
    (ho : f.EnvironmentOverrideColors = true)
    (h : env.clicolorForce = some "0".toList
      ∨ (env.clicolorForce = none ∧ env.clicolor = some "0".toList)) :
    isColored env f = false := by
  unfold isColored Env.getenvClicolor
  rw [ho]
  rcases h with h | ⟨h1, h2⟩
  · rw [h]
    simp
  · rw [h1, h2]
    simp

/-- C11, applied: `ForceColors=true` on a terminal with `CLICOLOR_FORCE=0`. -/
theorem isColored_forced_off_witness :
    (overrideFormatter.EnvironmentOverrideColors = true
      ∧ overrideFormatter.ForceColors = true ∧ overrideFormatter.isTerminal = true
      ∧ forceOffEnv.clicolorForce = some "0".toList)
    ∧ isColored forceOffEnv overrideFormatter = false :=
  ⟨by decide, isColored_forced_off forceOffEnv overrideFormatter rfl (Or.inl rfl)⟩

/-- C20: for every formatter with `DisableColors=true`, `isColored` returns
false for every `ForceColors`, terminal flag, `EnvironmentOverrideColors` and
environment; and with `EnvironmentOverrideColors=false`, `isColored` equals
`(ForceColors || isTerminal) && !DisableColors`. -/
theorem isColored_disableColors_wins (env : Env) (f : EaseFormatter) :
    (f.DisableColors = true → isColored env f = false)
    ∧ (f.EnvironmentOverrideColors = false →
        isColored env f = ((f.ForceColors || f.isTerminal) && !f.DisableColors)) := by
  constructor
  · intro h
    unfold isColored
    rw [h]
    simp
  · intro h
    unfold isColored
    rw [h]
    cases f.ForceColors <;> cases f.isTerminal <;> cases f.DisableColors <;> rfl

/-! ## The record and the formatter after a call -/

/-- C12 (evaluation of the code at the claim's input): in plain rendering with
the template `[%msg%]` and the empty message, the msg key is not put in
`fixedKeys`, so the loop never replaces `%msg%`: the bytes returned are
`[%msg%]` and a newline, not `[]` and a newline. -/
theorem format_empty_message_keeps_msg_token :
    (Format plainEnv bracketFormatter emptyMessageEntry).map (fun r => r.bytes)
      = some "[%msg%]\n".toList
    ∧ (Format plainEnv bracketFormatter emptyMessageEntry).map (fun r => r.bytes)
      ≠ some "[]\n".toList := by
  decide

/-- C13 (counterexample): with `ForceColors` and the message `hi` followed by a
newline, `Format` leaves the record with the message `hi`. -/
theorem format_reassigns_message :
    newlineEntry.Message = "hi\n".toList
    ∧ (Format plainEnv forcedColorFormatter newlineEntry).map (fun r => r.entry.Message)
      = some "hi".toList := by
  decide

/-- C13 (amended): for every record and every configuration, after `Format`
returns the record's field mapping is what it was before the call; its message
is what it was before when the call renders plain, and is the message with one
trailing newline removed when the call renders colourised (so unchanged for a
message that does not end in a newline). -/
theorem format_record_effect (env : Env) (f : EaseFormatter) (entry : Entry) :
    ∃ r, Format env f entry = some r
      ∧ r.entry.Data = entry.Data
      ∧ (isColored env (formatterAfter f entry) = false → r.entry.Message = entry.Message)
      ∧ (isColored env (formatterAfter f entry) = true →
          r.entry.Message = trimSuffixNL entry.Message)
      ∧ (entry.Message.getLast? ≠ some '\n' → r.entry.Message = entry.Message) := by
  refine ⟨_, Format_eq env f entry, ?_, ?_, ?_, ?_⟩
  · unfold entryAfter
    split <;> rfl
  · intro h
    unfold entryAfter
    rw [if_neg (by rw [h]; exact Bool.noConfusion)]
  · intro h
    unfold entryAfter
    rw [if_pos h]
  · intro h
    unfold entryAfter
    split
    · simp only [trimSuffixNL, h, if_false]
    · rfl

theorem prefixFieldClashes_eq (data : Fields) (fieldMap : FieldMap) (reportCaller : Bool) :
    prefixFieldClashes data fieldMap reportCaller
      = if reportCaller = true then
          copyClash (copyClash (reservedClashes data fieldMap) (resolve fieldMap FieldKeyFunc))
            (resolve fieldMap FieldKeyFile)
        else reservedClashes data fieldMap := rfl

theorem copyClash_spec (data : Fields) (r : Str) (v : Value) (h : data.get? r = some v) :
    (copyClash data r).get? ("fields.".toList ++ r) = some v
      ∧ (copyClash data r).get? r = some v := by
  unfold copyClash
  rw [h]
  simp only []
  exact ⟨get?_set_self _ _ _, by rw [get?_set_ne _ _ _ _ (fields_append_ne r).symm]; exact h⟩

/-- C16 (counterexample): under a FieldMap resolving func to `fields.file`, the
mapping holds `fields.file="v"` when the func block runs, and the file block
then overwrites that entry with the value of `file`: when `prefixFieldClashes`
returns the key `resolve(func)` holds `w`. -/
theorem caller_key_overwritten_by_file_block :
    (reservedClashes callerClashData callerFieldMap).get? (resolve callerFieldMap FieldKeyFunc)
      = some (.str "v".toList)
    ∧ (prefixFieldClashes callerClashData callerFieldMap true).get?
        (resolve callerFieldMap FieldKeyFunc) = some (.str "w".toList) := by
  decide

/-- C16 (amended): a caller block run on a mapping holding r with value v
leaves it holding `fields.`+r and r, both with value v (copied, not deleted).
With `reportCaller` true, if the mapping holds
`resolve(func)` with value v when the func block runs, then when
`prefixFieldClashes` returns it holds `fields.`+`resolve(func)` with value v,
and still holds `resolve(func)` with value v provided `resolve(func)` is not
`fields.`+`resolve(file)`; if it holds `resolve(file)` with value v when the
file block runs, then afterwards it holds `fields.`+`resolve(file)` and
`resolve(file)` with value v.  With `reportCaller` false the caller blocks do
nothing: the result is the mapping left by the four reserved-key blocks, and
under the default FieldMap the entries under func, file, fields.func and
fields.file are those of the input. -/
theorem caller_blocks_copy_without_delete (data : Fields) (fieldMap : FieldMap) (v : Value) :
    (∀ (d : Fields) (r : Str), d.get? r = some v →
      (copyClash d r).get? ("fields.".toList ++ r) = some v ∧ (copyClash d r).get? r = some v)
    ∧ ((reservedClashes data fieldMap).get? (resolve fieldMap FieldKeyFunc) = some v →
      (prefixFieldClashes data fieldMap true).get?
          ("fields.".toList ++ resolve fieldMap FieldKeyFunc) = some v
      ∧ (resolve fieldMap FieldKeyFunc ≠ "fields.".toList ++ resolve fieldMap FieldKeyFile →
          (prefixFieldClashes data fieldMap true).get? (resolve fieldMap FieldKeyFunc)
            = some v))
    ∧ ((copyClash (reservedClashes data fieldMap) (resolve fieldMap FieldKeyFunc)).get?
          (resolve fieldMap FieldKeyFile) = some v →
      (prefixFieldClashes data fieldMap true).get?
          ("fields.".toList ++ resolve fieldMap FieldKeyFile) = some v
      ∧ (prefixFieldClashes data fieldMap true).get? (resolve fieldMap FieldKeyFile) = some v)
    ∧ prefixFieldClashes data fieldMap false = reservedClashes data fieldMap
    ∧ (∀ x ∈ [FieldKeyFunc, FieldKeyFile, "fields.".toList ++ FieldKeyFunc,
          "fields.".toList ++ FieldKeyFile],
        (prefixFieldClashes data [] false).get? x = data.get? x) := by
  refine ⟨fun d r h => copyClash_spec d r v h, ?_, ?_, rfl, ?_⟩
  · intro h
    rw [prefixFieldClashes_eq, if_pos rfl]
    obtain ⟨h1, h2⟩ := copyClash_spec _ _ _ h
    constructor
    · by_cases hk : resolve fieldMap FieldKeyFunc = resolve fieldMap FieldKeyFile
      · rw [← hk]
        exact (copyClash_spec _ _ _ h2).1
      · rw [get?_copyClash_ne _ _ _ (fun e => hk (List.append_cancel_left e))]
        exact h1
    · intro hne
      rw [get?_copyClash_ne _ _ _ hne]
      exact h2
  · intro h
    rw [prefixFieldClashes_eq, if_pos rfl]
    exact copyClash_spec _ _ _ h
  · intro x hx
    rw [prefixFieldClashes_eq, if_neg Bool.false_ne_true]
    unfold reservedClashes
    have r : ∀ y : Str, resolve [] y = y := fun _ => rfl
    simp only [r]
    simp only [List.mem_cons, List.not_mem_nil, or_false] at hx
    rcases hx with rfl | rfl | rfl | rfl <;>
      rw [get?_moveClash_ne _ _ _ (by decide) (by decide),
        get?_moveClash_ne _ _ _ (by decide) (by decide),
        get?_moveClash_ne _ _ _ (by decide) (by decide),
        get?_moveClash_ne _ _ _ (by decide) (by decide)]

/-! ## Substituted text and later replacements -/

theorem replaceFirst_of_not_infix (s old new : Str) (h : ¬ old <:+: s) :
    replaceFirst s old new = s := by
  induction s with
  | nil =>
    unfold replaceFirst
    rw [if_neg]
    intro e
    exact h (e ▸ List.infix_refl _)
  | cons c s ih =>
    have hp : ¬ old.isPrefixOf (c :: s) = true :=
      fun hp => h (List.isPrefixOf_iff_prefix.1 hp).isInfix
    rw [replaceFirst_cons_skip _ _ _ _ hp,
      ih (fun h' => h (h'.trans (List.infix_cons (List.infix_refl _))))]

theorem replaceFirst_skip_left (p rest old new : Str) (c : Char) (hc : c ∉ old)
    (h : ¬ old <:+: p) :
    replaceFirst (p ++ c :: rest) old new = p ++ c :: replaceFirst rest old new := by
  have hne : old ≠ [] := fun e => h (e ▸ List.nil_infix)
  induction p with
  | nil =>
    have hp : ¬ old.isPrefixOf (c :: rest) = true := by
      intro hp
      obtain ⟨t, ht⟩ := List.isPrefixOf_iff_prefix.1 hp
      cases old with
      | nil => exact hne rfl
      | cons a old' =>
        simp only [List.cons_append, List.cons.injEq] at ht
        exact hc (ht.1 ▸ List.mem_cons_self _ _)
    rw [List.nil_append, replaceFirst_cons_skip _ _ _ _ hp, List.nil_append]
  | cons a p ih =>
    have hp' : ¬ old.isPrefixOf (a :: (p ++ c :: rest)) = true := by
      intro hpre
      have hpre := List.isPrefixOf_iff_prefix.1 hpre
      rw [← List.cons_append] at hpre
      rcases Nat.lt_or_ge (a :: p).length old.length with hl | hl
      · obtain ⟨t, ht⟩ := hpre
        have hget : old[(a :: p).length]? = some c := by
          have h1 : (old ++ t)[(a :: p).length]? = old[(a :: p).length]? :=
            List.getElem?_append_left hl
          rw [← h1, ht, List.getElem?_append_right (Nat.le_refl _), Nat.sub_self]
          exact List.getElem?_cons_zero
        exact hc (List.getElem?_mem hget)
      · exact h (List.prefix_of_prefix_length_le hpre (List.prefix_append _ _) hl).isInfix
    rw [List.cons_append, replaceFirst_cons_skip _ _ _ _ hp',
      ih (fun h' => h (h'.trans (List.infix_cons (List.infix_refl _)))), List.cons_append]

theorem fixedKeysOf_no_timestamp (f : EaseFormatter) (entry : Entry)
    (hts : f.DisableTimestamp = true) (hm : entry.Message ≠ []) :
    ∃ rest, fixedKeysOf f entry
        = resolve f.FieldMap FieldKeyLevel :: resolve f.FieldMap FieldKeyMsg :: rest
      ∧ ∀ k ∈ rest, entry.HasCaller = true
          ∧ (k = resolve f.FieldMap FieldKeyFunc ∨ k = resolve f.FieldMap FieldKeyFile) := by
  unfold fixedKeysOf
  rw [hts]
  simp only [Bool.not_true, Bool.false_eq_true, if_false, List.nil_append, hm, ne_eq,
    not_false_eq_true, if_true, List.singleton_append, List.cons_append]
  by_cases hc : entry.HasCaller = true
  · rw [if_pos hc]
    by_cases hf : (callerVals f entry).1 = [] <;> by_cases hl : (callerVals f entry).2 = []
    all_goals simp only [hf, hl, not_true_eq_false, not_false_eq_true, if_true, if_false,
      List.cons_append, List.nil_append]
    all_goals
      refine ⟨_, rfl, fun k hk => ⟨hc, ?_⟩⟩
      simp only [List.mem_cons, List.mem_singleton, List.not_mem_nil, or_false] at hk <;> tauto
  · rw [if_neg hc]
    exact ⟨[], rfl, fun _ hk => nomatch hk⟩

theorem plainWalk_caller_keys_keep (f : EaseFormatter) (entry : Entry) (data : Fields)
    (funcVal fileVal tf m : Str) (hfm : f.FieldMap = [])
    (hcaller : entry.HasCaller = true →
      ¬ "%funVal%".toList <:+: m ∧ ¬ "%fileVal%".toList <:+: m)
    (rest : List Str)
    (hrest : ∀ k ∈ rest, entry.HasCaller = true
      ∧ (k = resolve f.FieldMap FieldKeyFunc ∨ k = resolve f.FieldMap FieldKeyFile)) :
    rest.foldl (plainStep f entry data funcVal fileVal tf) (m ++ ' ' :: "%kv%".toList, [])
      = (m ++ ' ' :: "%kv%".toList, []) := by
  induction rest with
  | nil => rfl
  | cons k rest ih =>
    rw [List.foldl_cons]
    obtain ⟨hc, hk⟩ := hrest k (List.mem_cons_self _ _)
    obtain ⟨hfn, hfl⟩ := hcaller hc
    have hstep : plainStep f entry data funcVal fileVal tf (m ++ ' ' :: "%kv%".toList, []) k
        = (m ++ ' ' :: "%kv%".toList, []) := by
      rw [hfm] at hk
      have r : ∀ x : Str, resolve [] x = x := fun _ => rfl
      simp only [r] at hk
      unfold plainStep
      rw [hfm]
      simp only [r]
      rcases hk with rfl | rfl
      · rw [if_neg (by decide), if_neg (by decide), if_neg (by decide), if_pos ⟨rfl, hc⟩]
        rw [replaceFirst_append_sep _ _ _ _ _ (by decide) (by decide),
          replaceFirst_of_not_infix _ _ _ hfn]
      · rw [if_neg (by decide), if_neg (by decide), if_neg (by decide),
          if_neg (fun h => absurd h.1 (by decide)), if_pos ⟨rfl, hc⟩]
        rw [replaceFirst_append_sep _ _ _ _ _ (by decide) (by decide),
          replaceFirst_of_not_infix _ _ _ hfl]
    rw [hstep]
    exact ih (fun k' hk' => hrest k' (List.mem_cons_of_mem _ hk'))

theorem formatterAfter_template_of_ne (f : EaseFormatter) (entry : Entry)
    (h : f.Formatter ≠ []) : (formatterAfter f entry).Formatter = f.Formatter := by
  unfold formatterAfter
  obtain ⟨t, m, b, hi, -, -⟩ := initOnce_shape (applyDefaults f) entry
  rw [hi]
  unfold applyDefaults
  simp only [h, if_false]
  split_ifs <;> rfl

theorem dataOf_of_no_fields (f : EaseFormatter) (entry : Entry) (h : entry.Data = []) :
    dataOf f entry = [] := by
  unfold dataOf
  rw [h]
  cases entry.HasCaller <;> rfl

theorem plainOutput_message_verbatim (f : EaseFormatter) (entry : Entry) (tf : Str)
    (rest : List Str) (hfm : f.FieldMap = []) (htmpl : f.Formatter = "%msg% %kv%".toList)
    (hkv : ¬ "%kv%".toList <:+: entry.Message)
    (hcaller : entry.HasCaller = true →
      ¬ "%funVal%".toList <:+: entry.Message ∧ ¬ "%fileVal%".toList <:+: entry.Message)
    (hrest : ∀ k ∈ rest, entry.HasCaller = true
      ∧ (k = resolve f.FieldMap FieldKeyFunc ∨ k = resolve f.FieldMap FieldKeyFile)) :
    plainOutput f entry []
        (resolve f.FieldMap FieldKeyLevel :: resolve f.FieldMap FieldKeyMsg :: rest) tf
      = entry.Message ++ [' '] := by
  have hwalk : plainWalk f entry []
      (resolve f.FieldMap FieldKeyLevel :: resolve f.FieldMap FieldKeyMsg :: rest) tf
      = (entry.Message ++ ' ' :: "%kv%".toList, []) := by
    unfold plainWalk
    rw [List.foldl_cons, List.foldl_cons]
    have h1 : plainStep f entry [] (callerVals f entry).1 (callerVals f entry).2 tf
        (f.Formatter, []) (resolve f.FieldMap FieldKeyLevel) = ("%msg% %kv%".toList, []) := by
      unfold plainStep
      rw [hfm, htmpl]
      have r : ∀ x : Str, resolve [] x = x := fun _ => rfl
      simp only [r]
      rw [if_pos trivial]
      rfl
    have h2 : plainStep f entry [] (callerVals f entry).1 (callerVals f entry).2 tf
        ("%msg% %kv%".toList, []) (resolve f.FieldMap FieldKeyMsg)
        = (entry.Message ++ ' ' :: "%kv%".toList, []) := by
      unfold plainStep
      rw [hfm]
      have r : ∀ x : Str, resolve [] x = x := fun _ => rfl
      simp only [r]
      rw [if_pos trivial]
      rfl
    rw [h1, h2]
    exact plainWalk_caller_keys_keep f entry [] _ _ tf entry.Message hfm hcaller rest hrest
  unfold plainOutput
  simp only []
  rw [hwalk]
  simp only []
  rw [replaceFirst_skip_left _ _ _ _ _ (by decide) hkv]
  rfl

/-- C17 (counterexample): with the message `%kv%`, a record without fields, no
timestamps and the template `%msg% %kv%`, the message is substituted first and
the final `%kv%` replacement then hits the message's own text: the output is a
blank, `%kv%` and a newline, not the message followed by a blank and a
newline. -/
theorem substituted_message_is_rescanned :
    (Format plainEnv msgKvFormatter tokenMessageEntry).map (fun r => r.bytes)
      = some " %kv%\n".toList
    ∧ (Format plainEnv msgKvFormatter tokenMessageEntry).map (fun r => r.bytes)
      ≠ some (tokenMessageEntry.Message ++ " ".toList ++ "\n".toList) := by
  decide

/-- C17 (amended): in plain rendering with timestamps disabled, the template
`%msg% %kv%`, the default FieldMap and no custom comparator, for a record with
no fields and every non-empty message m in which `%kv%` does not occur (nor,
when the record has caller info, `%funVal%` or `%fileVal%`), `Format` returns
the buffer's content followed by m, a blank and a newline. -/
theorem plain_message_verbatim (env : Env) (f : EaseFormatter) (entry : Entry)
    (hplain : isColored env (formatterAfter f entry) = false)
    (hts : f.DisableTimestamp = true) (htmpl : f.Formatter = "%msg% %kv%".toList)
    (hfm : f.FieldMap = []) (hsort : f.SortingFunc = none) (hdata : entry.Data = [])
    (hm : entry.Message ≠ []) (hkv : ¬ "%kv%".toList <:+: entry.Message)
    (hcaller : entry.HasCaller = true →
      ¬ "%funVal%".toList <:+: entry.Message ∧ ¬ "%fileVal%".toList <:+: entry.Message) :
    (Format env f entry).map (fun r => r.bytes)
      = some (entry.Buffer.getD [] ++ (entry.Message ++ " ".toList ++ "\n".toList)) := by
  obtain ⟨F, K, M, t, m, b, hshape, -, -, -, -, -⟩ := formatterAfter_shape f entry
  have hfm1 : (formatterAfter f entry).FieldMap = [] := by rw [hshape]; exact hfm
  have htmpl1 : (formatterAfter f entry).Formatter = "%msg% %kv%".toList := by
    rw [formatterAfter_template_of_ne f entry (by rw [htmpl]; decide), htmpl]
  obtain ⟨rest, hfixed, hrest⟩ := fixedKeysOf_no_timestamp f entry hts hm
  obtain ⟨ks, hks, hmemks⟩ := orderKeys_fst_no_comparator f (isColored env f)
    (fixedKeysOf f entry) (dataOf f entry).keys hsort
  have hksnil : ks = [] := by
    apply List.eq_nil_iff_forall_not_mem.2
    intro k hk
    rw [hmemks, dataOf_of_no_fields f entry hdata] at hk
    exact nomatch hk
  rw [Format_eq]
  simp only [Option.map_some']
  unfold renderedLine
  rw [if_neg (by rw [hplain]; exact Bool.noConfusion), hks, hksnil, List.append_nil, hfixed,
    dataOf_of_no_fields f entry hdata]
  have hres : ∀ x : Str, resolve f.FieldMap x = resolve (formatterAfter f entry).FieldMap x := by
    intro x; rw [hfm, hfm1]
  rw [hres, hres, plainOutput_message_verbatim (formatterAfter f entry) entry _ rest hfm1 htmpl1
    hkv hcaller (by rw [← hres, ← hres]; exact hrest)]
  simp only [String.toList, List.append_assoc]

/-- C17 (amended), applied to the message `hello`. -/
theorem plain_message_verbatim_witness :
    (isColored plainEnv (formatterAfter msgKvFormatter noFieldsEntry) = false
      ∧ noFieldsEntry.Message ≠ [] ∧ ¬ "%kv%".toList <:+: noFieldsEntry.Message)
    ∧ (Format plainEnv msgKvFormatter noFieldsEntry).map (fun r => r.bytes)
      = some (noFieldsEntry.Buffer.getD []
          ++ (noFieldsEntry.Message ++ " ".toList ++ "\n".toList)) :=
  ⟨by decide,
   plain_message_verbatim plainEnv msgKvFormatter noFieldsEntry (by decide) rfl rfl rfl rfl rfl
     (by decide) (by decide) (fun h => absurd h (by decide))⟩

/-! ## What `prefixFieldClashes` keeps -/

theorem mem_keys_of_get? (data : Fields) (k : Str) (v : Value) (h : data.get? k = some v) :
    k ∈ data.keys := by
  by_contra hno
  rw [(get?_eq_none_iff _ _).2 hno] at h
  exact nomatch h

theorem moveClash_of_not_mem (data : Fields) (r : Str) (h : r ∉ data.keys) :
    moveClash data r = data := by
  unfold moveClash
  rw [(get?_eq_none_iff _ _).2 h]

theorem copyClash_of_not_mem (data : Fields) (r : Str) (h : r ∉ data.keys) :
    copyClash data r = data := by
  unfold copyClash
  rw [(get?_eq_none_iff _ _).2 h]

theorem get?_moveClash_other (data : Fields) (r k : Str) (h1 : k ≠ r)
    (h2 : k = "fields.".toList ++ r → r ∉ data.keys) :
    (moveClash data r).get? k = data.get? k := by
  by_cases hk : k = "fields.".toList ++ r
  · rw [moveClash_of_not_mem _ _ (h2 hk)]
  · exact get?_moveClash_ne _ _ _ h1 hk

theorem get?_copyClash_other (data : Fields) (r k : Str)
    (h2 : k = "fields.".toList ++ r → r ∉ data.keys) :
    (copyClash data r).get? k = data.get? k := by
  by_cases hk : k = "fields.".toList ++ r
  · rw [copyClash_of_not_mem _ _ (h2 hk)]
  · exact get?_copyClash_ne _ _ _ hk

theorem length_delete_of_mem (data : Fields) (r : Str) (hnd : data.keys.Nodup)
    (hr : r ∈ data.keys) : (data.delete r).length + 1 = data.length := by
  induction data with
  | nil => exact nomatch hr
  | cons p rest ih =>
    obtain ⟨k', v'⟩ := p
    simp only [Fields.keys, List.map_cons, List.nodup_cons, List.mem_cons] at hnd hr ih
    unfold Fields.delete
    by_cases h : k' = r
    · subst h
      have hrest : rest.filter (fun kv => !(kv.1 == k')) = rest := by
        rw [List.filter_eq_self]
        intro a ha
        have : a.1 ≠ k' := fun e => hnd.1 (e ▸ List.mem_map_of_mem Prod.fst ha)
        simpa using this
      rw [List.filter_cons_of_neg (by simp), hrest, List.length_cons]
    · have hr' : r ∈ List.map Prod.fst rest := hr.resolve_left (fun e => h e.symm)
      rw [List.filter_cons_of_pos (by simpa using h), List.length_cons, List.length_cons]
      have := ih hnd.2 hr'
      unfold Fields.delete at this
      omega

theorem length_moveClash (data : Fields) (r : Str) (hnd : data.keys.Nodup)
    (hfree : r ∈ data.keys → "fields.".toList ++ r ∉ data.keys) :
    (moveClash data r).length = data.length := by
  by_cases hr : r ∈ data.keys
  · unfold moveClash
    cases hg : data.get? r with
    | none => exact absurd hr ((get?_eq_none_iff _ _).1 hg)
    | some t =>
      simp only []
      have hset : data.set ("fields.".toList ++ r) t = data ++ [("fields.".toList ++ r, t)] :=
        set_of_not_mem _ _ _ (hfree hr)
      have hmem : r ∈ (data.set ("fields.".toList ++ r) t).keys := by
        rw [mem_keys_set]; exact Or.inr hr
      have := length_delete_of_mem _ r (nodup_keys_set _ _ t hnd) hmem
      rw [hset, List.length_append, List.length_singleton] at this
      rw [hset]
      omega
  · rw [moveClash_of_not_mem _ _ hr]

theorem foldl_moveClash_spec (rs : List Str) (data : Fields)
    (hnr : ∀ r ∈ rs, notRenamed r) (hrs : rs.Nodup) (hnd : data.keys.Nodup)
    (hfree : ∀ r ∈ rs, r ∈ data.keys → "fields.".toList ++ r ∉ data.keys) :
    (rs.foldl moveClash data).length = data.length
      ∧ (∀ k v, data.get? k = some v → k ∉ rs → (rs.foldl moveClash data).get? k = some v)
      ∧ (∀ k v, data.get? k = some v → k ∈ rs →
          (rs.foldl moveClash data).get? ("fields.".toList ++ k) = some v)
      ∧ (∀ x ∈ (rs.foldl moveClash data).keys,
          x ∈ data.keys ∨ ∃ r ∈ rs, x = "fields.".toList ++ r) := by
  induction rs generalizing data with
  | nil =>
    exact ⟨rfl, fun _ _ h _ => h, fun _ _ _ h => absurd h (List.not_mem_nil _),
      fun x hx => Or.inl hx⟩
  | cons r rs ih =>
    rw [List.foldl_cons]
    have hr_nr : notRenamed r := hnr r (List.mem_cons_self _ _)
    have hr_free := hfree r (List.mem_cons_self _ _)
    obtain ⟨hr_notin, hrs'⟩ := List.nodup_cons.1 hrs
    have hnr' : ∀ r' ∈ rs, notRenamed r' := fun r' h => hnr r' (List.mem_cons_of_mem _ h)
    have hfree' : ∀ r' ∈ rs, r' ∈ (moveClash data r).keys →
        "fields.".toList ++ r' ∉ (moveClash data r).keys := by
      intro r' hr' hin hfin
      have h1 : r' ∈ data.keys := by
        rcases (mem_keys_moveClash data r r' hin).2 with h | h
        · exact h
        · exact absurd h (notRenamed_ne (hnr' r' hr') r)
      rcases (mem_keys_moveClash data r _ hfin).2 with h | h
      · exact hfree r' (List.mem_cons_of_mem _ hr') h1 h
      · exact hr_notin (List.append_cancel_left h ▸ hr')
    obtain ⟨ih1, ih2, ih3, ih4⟩ := ih (moveClash data r) hnr' hrs'
      (nodup_keys_moveClash _ _ hnd) hfree'
    have hother : ∀ k v, data.get? k = some v → k ≠ r →
        (moveClash data r).get? k = some v := by
      intro k v hk hne
      rw [get?_moveClash_other _ _ _ hne (fun e hr =>
        hr_free hr (e ▸ mem_keys_of_get? _ _ _ hk))]
      exact hk
    refine ⟨?_, ?_, ?_, ?_⟩
    · rw [ih1, length_moveClash _ _ hnd hr_free]
    · intro k v hk hnot
      exact ih2 k v (hother k v hk (fun e => hnot (e ▸ List.mem_cons_self _ _)))
        (fun h => hnot (List.mem_cons_of_mem _ h))
    · intro k v hk hin
      by_cases hkr : k = r
      · subst hkr
        exact ih2 _ v (get?_moveClash_renamed _ _ _ hk)
          (fun h => hnr' _ h ⟨k, rfl⟩)
      · exact ih3 k v (hother k v hk hkr) ((List.mem_cons.1 hin).resolve_left hkr)
    · intro x hx
      rcases ih4 x hx with h | ⟨r', hr', h⟩
      · rcases (mem_keys_moveClash data r x h).2 with h' | h'
        · exact Or.inl h'
        · exact Or.inr ⟨r, List.mem_cons_self _ _, h'⟩
      · exact Or.inr ⟨r', List.mem_cons_of_mem _ hr', h⟩

theorem reservedClashes_default_spec (data : Fields) (hnd : data.keys.Nodup)
    (hfree : ∀ r ∈ clashNames false, r ∈ data.keys → "fields.".toList ++ r ∉ data.keys) :
    (reservedClashes data []).length = data.length
      ∧ (∀ k v, data.get? k = some v → k ∉ clashNames false →
          (reservedClashes data []).get? k = some v)
      ∧ (∀ k v, data.get? k = some v → k ∈ clashNames false →
          (reservedClashes data []).get? ("fields.".toList ++ k) = some v)
      ∧ (∀ x ∈ (reservedClashes data []).keys,
          x ∈ data.keys ∨ ∃ r ∈ clashNames false, x = "fields.".toList ++ r) :=
  foldl_moveClash_spec (clashNames false) data (by decide) (by decide) hnd hfree

theorem not_mem_keys_reservedClashes (data : Fields) (hnd : data.keys.Nodup)
    (hfree : ∀ r ∈ clashNames false, r ∈ data.keys → "fields.".toList ++ r ∉ data.keys)
    (x : Str) (hx : notRenamed x) (h : x ∉ data.keys) : x ∉ (reservedClashes data []).keys := by
  intro hin
  rcases (reservedClashes_default_spec data hnd hfree).2.2.2 x hin with h' | ⟨r, -, h'⟩
  · exact h h'
  · exact notRenamed_ne hx r h'

/-- C18 (counterexample): a mapping holding both `time` and `fields.time`
loses the entry under `fields.time`: after `prefixFieldClashes` its value is
the one of `time`, nothing is stored under `fields.fields.time`, and the
mapping has one entry instead of two. -/
theorem prefixFieldClashes_overwrites_existing_target :
    doubleTimeData.get? "fields.time".toList = some (.str "x".toList)
    ∧ (prefixFieldClashes doubleTimeData [] false).get? "fields.time".toList
        = some (.str "t".toList)
    ∧ (prefixFieldClashes doubleTimeData [] false).get? "fields.fields.time".toList = none
    ∧ doubleTimeData.length = 2
    ∧ (prefixFieldClashes doubleTimeData [] false).length = 1 := by
  decide

/-- C18 (amended): under the default FieldMap, for every field mapping with
distinct keys that does not hold both r and `fields.`+r for any name r the
function looks for (time, msg, level, logrus_error, and func and file when
`reportCaller` is set), every entry (k, v) present before
`prefixFieldClashes` is present afterwards under k or under `fields.`+k with
the same value v; and with `reportCaller` false the number of entries is
unchanged. -/
theorem prefixFieldClashes_keeps_entries (data : Fields) (reportCaller : Bool)
    (hnd : data.keys.Nodup)
    (hfree : ∀ r ∈ clashNames reportCaller, r ∈ data.keys →
      "fields.".toList ++ r ∉ data.keys) :
    (∀ k v, data.get? k = some v →
        (prefixFieldClashes data [] reportCaller).get? k = some v
        ∨ (prefixFieldClashes data [] reportCaller).get? ("fields.".toList ++ k) = some v)
    ∧ (reportCaller = false →
        (prefixFieldClashes data [] reportCaller).length = data.length) := by
  have hsub : ∀ r ∈ clashNames false, r ∈ clashNames reportCaller := by
    intro r hr
    unfold clashNames at hr ⊢
    simp only [Bool.false_eq_true, if_false, List.append_nil] at hr
    exact List.mem_append_left _ hr
  have hfree4 : ∀ r ∈ clashNames false, r ∈ data.keys → "fields.".toList ++ r ∉ data.keys :=
    fun r hr => hfree r (hsub r hr)
  obtain ⟨h1, h2, h3, -⟩ := reservedClashes_default_spec data hnd hfree4
  cases reportCaller with
  | false =>
    rw [prefixFieldClashes_eq, if_neg Bool.false_ne_true]
    refine ⟨fun k v hk => ?_, fun _ => h1⟩
    by_cases hin : k ∈ clashNames false
    · exact Or.inr (h3 k v hk hin)
    · exact Or.inl (h2 k v hk hin)
  | true =>
    rw [prefixFieldClashes_eq, if_pos rfl]
    have r : ∀ y : Str, resolve [] y = y := fun _ => rfl
    simp only [r]
    refine ⟨fun k v hk => ?_, fun h => nomatch h⟩
    by_cases hin : k ∈ clashNames false
    · right
      have hne1 : "fields.".toList ++ k ≠ "fields.".toList ++ FieldKeyFile := by
        intro e
        rw [List.append_cancel_left e] at hin
        exact absurd hin (by decide)
      have hne2 : "fields.".toList ++ k ≠ "fields.".toList ++ FieldKeyFunc := by
        intro e
        rw [List.append_cancel_left e] at hin
        exact absurd hin (by decide)
      rw [get?_copyClash_ne _ _ _ hne1, get?_copyClash_ne _ _ _ hne2]
      exact h3 k v hk hin
    · left
      have hkmem : k ∈ data.keys := mem_keys_of_get? _ _ _ hk
      have hfunc : k = "fields.".toList ++ FieldKeyFunc →
          FieldKeyFunc ∉ (reservedClashes data []).keys := by
        intro e
        apply not_mem_keys_reservedClashes data hnd hfree4 _ (by decide)
        intro hf
        exact hfree FieldKeyFunc (by decide) hf (e ▸ hkmem)
      have hfile : k = "fields.".toList ++ FieldKeyFile →
          FieldKeyFile ∉ (copyClash (reservedClashes data []) FieldKeyFunc).keys := by
        intro e hin5
        rcases mem_keys_copyClash _ _ _ hin5 with h | h
        · refine not_mem_keys_reservedClashes data hnd hfree4 _ (by decide) ?_ h
          intro hf
          exact hfree FieldKeyFile (by decide) hf (e ▸ hkmem)
        · exact absurd h (by decide)
      rw [get?_copyClash_other _ _ _ hfile, get?_copyClash_other _ _ _ hfunc]
      exact h2 k v hk hin

/-- C18 (amended), applied: a mapping holding `time`, `func` and `a`, with a
caller. -/
theorem prefixFieldClashes_keeps_entries_witness :
    (Fields.keys [("time".toList, Value.str "t".toList), ("func".toList, .str "g".toList),
        ("a".toList, .str "1".toList)]).Nodup
    ∧ ((∀ k v, Fields.get? [("time".toList, Value.str "t".toList),
            ("func".toList, .str "g".toList), ("a".toList, .str "1".toList)] k = some v →
          (prefixFieldClashes [("time".toList, Value.str "t".toList),
            ("func".toList, .str "g".toList), ("a".toList, .str "1".toList)] [] true).get? k
              = some v
          ∨ (prefixFieldClashes [("time".toList, Value.str "t".toList),
            ("func".toList, .str "g".toList), ("a".toList, .str "1".toList)] [] true).get?
              ("fields.".toList ++ k) = some v)
      ∧ (true = false →
          (prefixFieldClashes [("time".toList, Value.str "t".toList),
            ("func".toList, .str "g".toList), ("a".toList, .str "1".toList)] [] true).length
            = List.length [("time".toList, Value.str "t".toList),
                ("func".toList, Value.str "g".toList), ("a".toList, Value.str "1".toList)])) :=
  ⟨by decide,
   prefixFieldClashes_keeps_entries _ true (by decide) (by decide)⟩

/-! ## The colourised loop: what each key does to `kvStr` -/

theorem coloredStep_snd (f : EaseFormatter) (data : Fields) (c : Nat) (keys : List Str)
    (acc : Str × Str) :
    (keys.foldl (coloredStep f data c) acc).2
      = (keys.filter (fun k => !matchAttr k)).foldl (coloredKvAppend f data c) acc.2 := by
  induction keys generalizing acc with
  | nil => rfl
  | cons k rest ih =>
    rw [List.foldl_cons, ih]
    by_cases h : matchAttr k = true
    · have hs : (coloredStep f data c acc k).2 = acc.2 := by
        unfold coloredStep
        rw [if_pos h]
      rw [hs, @List.filter_cons_of_neg Str (fun k => !matchAttr k) k rest (by simp [h])]
    · have hs : (coloredStep f data c acc k).2 = coloredKvAppend f data c acc.2 k := by
        unfold coloredStep coloredKvAppend
        rw [if_neg h]
        split <;> rfl
      rw [hs, @List.filter_cons_of_pos Str (fun k => !matchAttr k) k rest (by simpa using h),
        List.foldl_cons]

theorem colorize_ne_nil (c : Nat) (k : Str) : colorize c k ≠ [] := by
  unfold colorize
  intro h
  have := congrArg List.length h
  simp only [List.length_append, List.length_nil] at this
  have h2 : "\x1b[".toList.length = 2 := by decide
  omega

theorem foldl_coloredKvAppend_of_ne_nil (f : EaseFormatter) (data : Fields) (c : Nat)
    (a : Str) (ks : List Str) (ha : a ≠ []) :
    ks.foldl (coloredKvAppend f data c) a
      = (ks.map (fun k => colorize c k ++ f.KvCom ++ fmtS (data.get k))).foldl
          (kvAppend f.FieldMapCom) a := by
  induction ks generalizing a with
  | nil => rfl
  | cons k rest ih =>
    rw [List.foldl_cons, List.map_cons, List.foldl_cons]
    have h1 : coloredKvAppend f data c a k
        = kvAppend f.FieldMapCom a (colorize c k ++ f.KvCom ++ fmtS (data.get k)) := by
      unfold coloredKvAppend kvAppend
      rw [if_neg ha, if_neg ha]
      simp only [List.append_assoc]
    rw [h1]
    apply ih
    unfold kvAppend
    rw [if_neg ha]
    intro h
    have := congrArg List.length h
    simp only [List.length_append, List.length_nil] at this
    exact ha (List.length_eq_zero.1 (by omega))

theorem foldl_coloredKvAppend_nil (f : EaseFormatter) (data : Fields) (c : Nat)
    (ks : List Str) :
    ks.foldl (coloredKvAppend f data c) []
      = List.intercalate f.FieldMapCom (coloredEntries f data c ks) := by
  cases ks with
  | nil => rfl
  | cons k rest =>
    have hfirst : coloredKvAppend f data c [] k
        = colorize c k ++ f.KvCom ++ fmtV (data.get k) := by
      unfold coloredKvAppend
      rw [if_pos rfl]
    have hne : colorize c k ++ f.KvCom ++ fmtV (data.get k) ≠ [] := by
      intro h
      have h1 := congrArg List.length h
      simp only [List.length_append, List.length_nil] at h1
      exact colorize_ne_nil c k (List.length_eq_zero.1 (by omega))
    rw [List.foldl_cons, hfirst, foldl_coloredKvAppend_of_ne_nil _ _ _ _ _ hne,
      foldl_kvAppend_of_ne_nil _ _ _ hne]
    unfold coloredEntries
    rw [intercalate_cons]

theorem coloredLine_eq (env : Env) (f : EaseFormatter) (entry : Entry) (keys : List Str)
    (data : Fields) (tf lt : Str) :
    coloredLine env f entry keys data tf lt
      = replaceFirst (coloredWalk env f entry keys data tf lt).1 "%kv%".toList
          (List.intercalate f.FieldMapCom
            (coloredEntries f data (levelColorOf entry.Level)
              (keys.filter (fun k => !matchAttr k)))) := by
  rw [← foldl_coloredKvAppend_nil]
  unfold coloredLine coloredWalk
  simp only []
  rw [coloredStep_snd]

/-- C19 (evaluation of the code at the failing input): in the colourised
renderer the key `myattr1`, which is none of attr1..attr5 but ends in `attr1`,
is matched by the attr pattern and contributes nothing to the text substituted
for `%kv%`: of the fields `myattr1="1"` and `b="2"` only `b` is rendered, while
the plain renderer renders both. -/
theorem colored_drops_key_ending_in_attr :
    "myattr1".toList ∉ attrNames
    ∧ matchAttr "myattr1".toList = true
    ∧ (Format plainEnv forcedColorFormatter suffixAttrEntry).map (fun r => r.bytes)
      = some "1704067200 \x1b[36mINFO\x1b[0m -- hello \x1b[36mb\x1b[0m=2\n".toList
    ∧ (Format plainEnv zeroFormatter suffixAttrEntry).map (fun r => r.bytes)
      = some "2024-01-01T00:00:00Z INFO -- hello b=2&myattr1=1\n".toList := by
  decide

/-! ## Order of the keys that stay in the mapping -/

theorem filter_keys_set (Q : Str → Bool) (data : Fields) (k : Str) (v : Value)
    (h : Q k = true → k ∈ data.keys) :
    (data.set k v).keys.filter Q = data.keys.filter Q := by
  rw [keys_set]
  split
  · rfl
  · rename_i hk
    have hq : Q k = false := by
      cases hQ : Q k
      · rfl
      · exact absurd (h hQ) hk
    rw [List.filter_append, List.filter_cons_of_neg (by rw [hq]; exact Bool.noConfusion),
      List.filter_nil, List.append_nil]

theorem filter_keys_delete (Q : Str → Bool) (data : Fields) (r : Str) (h : Q r = false) :
    (data.delete r).keys.filter Q = data.keys.filter Q := by
  rw [keys_delete, List.filter_filter]
  apply List.filter_congr
  intro x _
  by_cases hx : x = r
  · subst hx
    rw [h]
    rfl
  · have : (x == r) = false := beq_eq_false_iff_ne.2 hx
    rw [this]
    simp

theorem filter_keys_moveClash (Q : Str → Bool) (data : Fields) (r : Str) (h1 : Q r = false)
    (h2 : Q ("fields.".toList ++ r) = true → "fields.".toList ++ r ∈ data.keys) :
    (moveClash data r).keys.filter Q = data.keys.filter Q := by
  unfold moveClash
  split
  · rw [filter_keys_delete Q _ _ h1, filter_keys_set Q _ _ _ h2]
  · rfl

theorem filter_keys_copyClash (Q : Str → Bool) (data : Fields) (r : Str)
    (h2 : Q ("fields.".toList ++ r) = true → "fields.".toList ++ r ∈ data.keys) :
    (copyClash data r).keys.filter Q = data.keys.filter Q := by
  unfold copyClash
  split
  · rw [filter_keys_set Q _ _ _ h2]
  · rfl

theorem filter_keys_prefixFieldClashes (Q : Str → Bool) (data : Fields) (fieldMap : FieldMap)
    (rc : Bool) (hin : ∀ k, Q k = true → k ∈ data.keys)
    (ht : Q (resolve fieldMap FieldKeyTime) = false)
    (hm : Q (resolve fieldMap FieldKeyMsg) = false)
    (hl : Q (resolve fieldMap FieldKeyLevel) = false)
    (he : Q (resolve fieldMap FieldKeyLogrusError) = false) :
    (prefixFieldClashes data fieldMap rc).keys.filter Q = data.keys.filter Q := by
  have mem_of : ∀ d : Fields, d.keys.filter Q = data.keys.filter Q →
      ∀ x, Q x = true → x ∈ d.keys := by
    intro d hd x hx
    have : x ∈ d.keys.filter Q := by
      rw [hd]
      exact List.mem_filter.2 ⟨hin x hx, hx⟩
    exact (List.mem_filter.1 this).1
  have h1 : (moveClash data (resolve fieldMap FieldKeyTime)).keys.filter Q
      = data.keys.filter Q := filter_keys_moveClash Q _ _ ht (hin _)
  have h2 : (moveClash (moveClash data (resolve fieldMap FieldKeyTime))
      (resolve fieldMap FieldKeyMsg)).keys.filter Q = data.keys.filter Q :=
    (filter_keys_moveClash Q _ _ hm (mem_of _ h1 _)).trans h1
  have h3 : (moveClash (moveClash (moveClash data (resolve fieldMap FieldKeyTime))
      (resolve fieldMap FieldKeyMsg)) (resolve fieldMap FieldKeyLevel)).keys.filter Q
      = data.keys.filter Q :=
    (filter_keys_moveClash Q _ _ hl (mem_of _ h2 _)).trans h2
  have h4 : (reservedClashes data fieldMap).keys.filter Q = data.keys.filter Q :=
    (filter_keys_moveClash Q _ _ he (mem_of _ h3 _)).trans h3
  rw [prefixFieldClashes_eq]
  cases rc
  · rw [if_neg Bool.false_ne_true]
    exact h4
  · rw [if_pos rfl]
    have h5 : (copyClash (reservedClashes data fieldMap)
        (resolve fieldMap FieldKeyFunc)).keys.filter Q = data.keys.filter Q :=
      (filter_keys_copyClash Q _ _ (mem_of _ h4 _)).trans h4
    exact (filter_keys_copyClash Q _ _ (mem_of _ h5 _)).trans h5

theorem filter_keys_dataOf (Q : Str → Bool) (f : EaseFormatter) (entry : Entry)
    (hnd : entry.Data.keys.Nodup) (hin : ∀ k, Q k = true → k ∈ entry.Data.keys)
    (hres : ∀ k ∈ reservedNames f.FieldMap, Q k = false) :
    (dataOf f entry).keys.filter Q = entry.Data.keys.filter Q := by
  unfold dataOf
  rw [copy_eq_append _ [] (by simpa using hnd), List.nil_append]
  apply filter_keys_prefixFieldClashes Q _ _ _ hin <;> apply hres <;>
    unfold reservedNames <;> simp only [List.map_cons, List.mem_cons] <;> tauto

theorem fixedKeysOf_subset_reserved (f : EaseFormatter) (entry : Entry) (k : Str)
    (hk : k ∈ fixedKeysOf f entry) : k ∈ reservedNames f.FieldMap := by
  unfold fixedKeysOf at hk
  unfold reservedNames
  simp only [List.map_cons, List.map_nil, List.mem_cons, List.not_mem_nil, or_false]
  split_ifs at hk <;>
    simp only [List.nil_append, List.mem_append, List.mem_singleton, List.mem_cons,
      List.not_mem_nil, or_false] at hk <;> tauto

theorem plainCatches_reserved (f : EaseFormatter) (entry : Entry) (k : Str)
    (h : plainCatches f entry k) : k ∈ reservedNames f.FieldMap := by
  unfold plainCatches at h
  unfold reservedNames
  simp only [List.map_cons, List.map_nil, List.mem_cons, List.not_mem_nil, or_false]
  tauto

theorem orderKeys_unsorted (f : EaseFormatter) (c : Bool) (fk keys : List Str)
    (hds : f.DisableSorting = true) : orderKeys f c fk keys = (fk ++ keys, keys) := by
  unfold orderKeys
  rw [hds]
  rfl

/-! ## `Format` under an arbitrary order of the range over the field map -/

theorem renderedRanged_eq (order : List Str → List Str) (env : Env) (f : EaseFormatter)
    (entry : Entry) :
    renderedRanged order env f entry
      = some (renderedLineRanged order env f entry, entryAfter env f entry) := by
  unfold renderedRanged renderedLineRanged entryAfter
  simp only []
  by_cases h : isColored env (formatterAfter f entry) = true
  · simp only [h, if_true]
    exact printColored_eq _ _ _ _ _ _
  · simp only [h]
    rfl

theorem FormatRanged_eq (order : List Str → List Str) (env : Env) (f : EaseFormatter)
    (entry : Entry) :
    FormatRanged order env f entry
      = some { bytes := entry.Buffer.getD [] ++ renderedLineRanged order env f entry ++ ['\n'],
               f := formatterAfter f entry,
               entry := { entryAfter env f entry with
                 Buffer := entry.Buffer.map
                   (fun _ => entry.Buffer.getD []
                     ++ renderedLineRanged order env f entry ++ ['\n']) } } := by
  unfold FormatRanged
  rw [renderedRanged_eq]

theorem FormatRanged_list_order (env : Env) (f : EaseFormatter) (entry : Entry) :
    FormatRanged (fun keys => keys) env f entry = Format env f entry := rfl

/-! ## Two successive calls -/

theorem strLe_antisymm (a b : Str) (hab : strLe a b = true) (hba : strLe b a = true) :
    a = b := by
  induction a generalizing b with
  | nil =>
    cases b with
    | nil => rfl
    | cons y t => exact absurd hba (by unfold strLe; exact Bool.noConfusion)
  | cons x s ih =>
    cases b with
    | nil => exact absurd hab (by unfold strLe; exact Bool.noConfusion)
    | cons y t =>
      unfold strLe at hab hba
      by_cases h1 : x.toNat < y.toNat
      · rw [if_neg (by omega), if_pos h1] at hba
        exact absurd hba Bool.noConfusion
      · by_cases h2 : y.toNat < x.toNat
        · rw [if_neg h1, if_pos h2] at hab
          exact absurd hab Bool.noConfusion
        · rw [if_neg h1, if_neg h2] at hab
          rw [if_neg h2, if_neg h1] at hba
          have hxy : x = y := by
            apply Char.ext
            apply UInt32.ext
            have : x.toNat = y.toNat := by omega
            exact this
          rw [hxy, ih t hab hba]

theorem sortStrings_perm (l l' : List Str) (h : l.Perm l') : sortStrings l = sortStrings l' := by
  haveI : IsAntisymm Str (fun a b => strLe a b = true) := ⟨strLe_antisymm⟩
  refine List.eq_of_perm_of_sorted ?_ (sortStrings_sorted l) (sortStrings_sorted l')
  exact ((List.perm_insertionSort _ l).trans h).trans (List.perm_insertionSort _ l').symm

theorem orderKeys_fst_perm (f : EaseFormatter) (c : Bool) (fk l l' : List Str)
    (h : l.Perm l') (hds : f.DisableSorting = false)
    (hsf : ∀ sortingFunc, f.SortingFunc = some sortingFunc →
      ∀ a b : List Str, a.Perm b → sortingFunc a = sortingFunc b) :
    (orderKeys f c fk l).1 = (orderKeys f c fk l').1 := by
  unfold orderKeys
  rw [hds]
  cases hs : f.SortingFunc with
  | none =>
    simp only [Bool.not_false, if_true]
    rw [sortStrings_perm l l' h]
  | some sf =>
    simp only [Bool.not_false, if_true]
    cases c
    · simp only [Bool.not_false, if_true]
      exact hsf sf hs _ _ (h.append_left fk)
    · rfl

theorem orderKeys_snd_perm (f : EaseFormatter) (c : Bool) (fk l l' : List Str)
    (h : l.Perm l') (hds : f.DisableSorting = false)
    (hsf : ∀ sortingFunc, f.SortingFunc = some sortingFunc →
      ∀ a b : List Str, a.Perm b → sortingFunc a = sortingFunc b)
    (hc : c = true ∨ f.SortingFunc = none) :
    (orderKeys f c fk l).2 = (orderKeys f c fk l').2 := by
  unfold orderKeys
  rw [hds]
  cases hs : f.SortingFunc with
  | none =>
    simp only [Bool.not_false, if_true]
    rw [sortStrings_perm l l' h]
  | some sf =>
    simp only [Bool.not_false, if_true]
    rcases hc with hc | hc
    · subst hc
      simp only [Bool.not_true, Bool.false_eq_true, if_false]
      exact hsf sf hs _ _ h
    · rw [hs] at hc
      exact absurd hc (by simp)

theorem renderedLineRanged_second (order1 order2 : List Str → List Str) (env : Env)
    (f : EaseFormatter) (entry : Entry)
    (hwf : f.terminalInitOnce = false → f.isTerminal = false)
    (hp1 : rangesOnce order1 (dataOf f entry)) (hp2 : rangesOnce order2 (dataOf f entry))
    (hkeys : rangeKeys order1 (dataOf f entry) = rangeKeys order2 (dataOf f entry)
      ∨ (f.DisableSorting = false
          ∧ ∀ sortingFunc, f.SortingFunc = some sortingFunc →
              ∀ a b : List Str, a.Perm b → sortingFunc a = sortingFunc b))
    (h : isColored env (formatterAfter f entry) = false
      ∨ (trimSuffixNL (trimSuffixNL entry.Message) = trimSuffixNL entry.Message
         ∧ (isColored env f = true ∨ f.SortingFunc = none ∨ f.DisableSorting = true))) :
    renderedLineRanged order2 env (formatterAfter f entry)
        { entryAfter env f entry with Buffer := entry.Buffer }
      = renderedLineRanged order1 env f entry := by
  obtain ⟨F, K, M, t, m, b, hs, -, -, -, -, ht⟩ := formatterAfter_shape f entry
  have hmono : isColored env f = true → isColored env (formatterAfter f entry) = true := by
    intro hc
    rw [hs]
    refine isColored_of_terminal_change env f F K M t m b hc ?_
    cases hi : f.terminalInitOnce
    · exact Or.inl (hwf hi)
    · exact Or.inr (ht hi)
  have hord : ∀ c fk ks, orderKeys (formatterAfter f entry) c fk ks = orderKeys f c fk ks := by
    intro c fk ks
    rw [hs]; rfl
  have hperm : (rangeKeys order2 (dataOf f entry)).Perm (rangeKeys order1 (dataOf f entry)) :=
    hp2.trans hp1.symm
  by_cases hc : isColored env (formatterAfter f entry) = true
  · -- the colourised renderer
    have h' := h.resolve_left (by rw [hc]; exact Bool.noConfusion)
    have hpre : isColored env (formatterAfter f entry) = isColored env f
        ∨ f.SortingFunc = none ∨ f.DisableSorting = true := by
      rcases h'.2 with h2 | h2 | h2
      · exact Or.inl (by rw [h2, hc])
      · exact Or.inr (Or.inl h2)
      · exact Or.inr (Or.inr h2)
    have hent : entryAfter env f entry = { entry with Message := trimSuffixNL entry.Message } := by
      unfold entryAfter; rw [if_pos hc]
    have hd : dataOf (formatterAfter f entry)
        { entry with Message := trimSuffixNL entry.Message } = dataOf f entry := by
      rw [hs]; rfl
    have hk : ∀ fk, (orderKeys f (isColored env (formatterAfter f entry)) fk
          (rangeKeys order2 (dataOf f entry))).2
        = (orderKeys f (isColored env (formatterAfter f entry)) fk
          (rangeKeys order1 (dataOf f entry))).2 := by
      intro fk
      rcases hkeys with hk | ⟨hds, hsf⟩
      · rw [hk]
      · exact orderKeys_snd_perm f _ fk _ _ hperm hds hsf (Or.inl hc)
    rw [hent]
    unfold renderedLineRanged
    rw [formatterAfter_idem, if_pos hc, if_pos hc]
    simp only []
    rw [hd, hord, coloredLine_trimmed _ _ _ _ _ _ _ h'.1, hk]
    rw [orderKeys_snd_congr f _ (isColored env f) _ (fixedKeysOf f entry) _ hpre]
  · -- the plain renderer
    have hc' : isColored env (formatterAfter f entry) = false := by
      cases hx : isColored env (formatterAfter f entry)
      · rfl
      · exact absurd hx hc
    have hpre : isColored env f = isColored env (formatterAfter f entry) := by
      cases hx : isColored env f
      · exact hc'.symm
      · exact absurd (hmono hx) hc
    have hent : entryAfter env f entry = entry := by
      unfold entryAfter; rw [if_neg hc]
    have hd : dataOf (formatterAfter f entry) entry = dataOf f entry := by
      rw [hs]; rfl
    have hfk : fixedKeysOf (formatterAfter f entry) entry = fixedKeysOf f entry := by
      rw [hs]; rfl
    have hk : ∀ c fk, (orderKeys f c fk (rangeKeys order2 (dataOf f entry))).1
        = (orderKeys f c fk (rangeKeys order1 (dataOf f entry))).1 := by
      intro c fk
      rcases hkeys with hk | ⟨hds, hsf⟩
      · rw [hk]
      · exact orderKeys_fst_perm f _ fk _ _ hperm hds hsf
    rw [hent]
    unfold renderedLineRanged
    rw [formatterAfter_idem, if_neg hc, if_neg hc]
    simp only []
    rw [hd, hfk, hord, hk, hpre]

/-- C6 (amended): two successive `Format` calls on the same formatter and
record objects (same environment, the buffer of the first call given again),
starting from a formatter whose terminal flag is only ever set by the probe,
the range over the field map visiting the keys in any order in either call,
return identical bytes provided the key order does not depend on the order of
the range (sorting is enabled, with the default `sort.Strings` or with a
comparator whose result is the same on every rearrangement of its input; or
the two ranges happen to visit the keys in the same sequence) and provided
the call renders plain, for every message, or renders colourised with a
message that does not end in two newlines (trimming one newline twice equals
trimming it once) and with the colour decision read by the ordering block
already the final one, or no comparator set, or sorting disabled. -/
theorem format_twice_same_bytes (order1 order2 : List Str → List Str) (env : Env)
    (f : EaseFormatter) (entry : Entry)
    (hwf : f.terminalInitOnce = false → f.isTerminal = false)
    (hp1 : rangesOnce order1 (dataOf f entry)) (hp2 : rangesOnce order2 (dataOf f entry))
    (hkeys : rangeKeys order1 (dataOf f entry) = rangeKeys order2 (dataOf f entry)
      ∨ (f.DisableSorting = false
          ∧ ∀ sortingFunc, f.SortingFunc = some sortingFunc →
              ∀ a b : List Str, a.Perm b → sortingFunc a = sortingFunc b))
    (h : isColored env (formatterAfter f entry) = false
      ∨ (trimSuffixNL (trimSuffixNL entry.Message) = trimSuffixNL entry.Message
         ∧ (isColored env f = true ∨ f.SortingFunc = none ∨ f.DisableSorting = true))) :
    ∃ r, FormatRanged order1 env f entry = some r
      ∧ secondFormatBytesRanged order1 order2 env f entry = some r.bytes := by
  refine ⟨_, FormatRanged_eq order1 env f entry, ?_⟩
  unfold secondFormatBytesRanged
  rw [FormatRanged_eq order1 env f entry]
  simp only [Option.some_bind]
  rw [FormatRanged_eq]
  simp only [Option.map_some']
  rw [renderedLineRanged_second order1 order2 env f entry hwf hp1 hp2 hkeys h]

/-- C6 (amended), applied: the colourised renderer from the zero formatter with
`ForceColors`, on the record with the fields `b`, `a`; the first range visits
`b`, `a`, the second `a`, `b`, and the default sort makes the key order the
same. -/
theorem format_twice_same_bytes_witness :
    ((forcedColorFormatter.terminalInitOnce = false → forcedColorFormatter.isTerminal = false)
      ∧ forcedColorFormatter.DisableSorting = false
      ∧ rangeKeys (fun keys => keys) (dataOf forcedColorFormatter unsortedEntry)
          = ["b".toList, "a".toList]
      ∧ rangeKeys List.reverse (dataOf forcedColorFormatter unsortedEntry)
          = ["a".toList, "b".toList]
      ∧ trimSuffixNL (trimSuffixNL unsortedEntry.Message) = trimSuffixNL unsortedEntry.Message
      ∧ isColored plainEnv forcedColorFormatter = true)
    ∧ ∃ r, FormatRanged (fun keys => keys) plainEnv forcedColorFormatter unsortedEntry = some r
        ∧ secondFormatBytesRanged (fun keys => keys) List.reverse plainEnv forcedColorFormatter
            unsortedEntry = some r.bytes :=
  ⟨⟨fun _ => rfl, rfl, by decide, by decide, by decide, by decide⟩,
   format_twice_same_bytes (fun keys => keys) List.reverse plainEnv forcedColorFormatter
     unsortedEntry (fun _ => rfl) (List.Perm.refl _) (List.reverse_perm _)
     (Or.inr ⟨rfl, fun _ hs => Option.noConfusion hs⟩)
     (Or.inr ⟨by decide, Or.inl (by decide)⟩)⟩

/-! ## Sorting disabled: the order of the key-value text -/

theorem plain_range_order (order : List Str → List Str) (env : Env) (f : EaseFormatter)
    (entry : Entry) (hds : f.DisableSorting = true) (hnd : entry.Data.keys.Nodup)
    (hperm : rangesOnce order (dataOf f entry))
    (hplain : isColored env (formatterAfter f entry) = false) :
    ∃ kvKeys : List Str,
      (FormatRanged order env f entry).map (fun r => r.bytes)
        = some (entry.Buffer.getD []
            ++ replaceFirst
                (plainWalk (formatterAfter f entry) entry (dataOf f entry)
                  (fixedKeysOf f entry ++ rangeKeys order (dataOf f entry))
                  (timestampFormatOf (formatterAfter f entry))).1
                "%kv%".toList
                (List.intercalate (formatterAfter f entry).FieldMapCom
                  (kvKeys.map (fun k => k ++ (formatterAfter f entry).KvCom
                    ++ fmtS ((dataOf f entry).get k))))
            ++ ['\n'])
      ∧ kvKeys.filter (fun k => decide (k ∉ reservedNames f.FieldMap ∧ k ∈ entry.Data.keys))
          = (rangeKeys order (dataOf f entry)).filter
              (fun k => decide (k ∉ reservedNames f.FieldMap ∧ k ∈ entry.Data.keys))
      ∧ (kvKeys.filter (fun k => decide (k ∉ reservedNames f.FieldMap ∧ k ∈ entry.Data.keys))).Perm
          (entry.Data.keys.filter (fun k => decide (k ∉ reservedNames f.FieldMap))) := by
  obtain ⟨F, K, M, t, m, b, hshape, -, hK, -, -, -⟩ := formatterAfter_shape f entry
  have hfm1 : (formatterAfter f entry).FieldMap = f.FieldMap := by rw [hshape]
  have hK1 : (formatterAfter f entry).KvCom ≠ [] := by rw [hshape]; exact hK
  have hfilter : ((fixedKeysOf f entry ++ rangeKeys order (dataOf f entry)).filter
        (fun k => decide (¬ plainCatches (formatterAfter f entry) entry k))).filter
        (fun k => decide (k ∉ reservedNames f.FieldMap ∧ k ∈ entry.Data.keys))
      = (rangeKeys order (dataOf f entry)).filter
          (fun k => decide (k ∉ reservedNames f.FieldMap ∧ k ∈ entry.Data.keys)) := by
    rw [List.filter_filter]
    have hcongr : (fixedKeysOf f entry ++ rangeKeys order (dataOf f entry)).filter
        (fun a => decide (a ∉ reservedNames f.FieldMap ∧ a ∈ entry.Data.keys)
          && decide (¬ plainCatches (formatterAfter f entry) entry a))
        = (fixedKeysOf f entry ++ rangeKeys order (dataOf f entry)).filter
          (fun a => decide (a ∉ reservedNames f.FieldMap ∧ a ∈ entry.Data.keys)) := by
      apply List.filter_congr
      intro a _
      by_cases hq : a ∉ reservedNames f.FieldMap ∧ a ∈ entry.Data.keys
      · have hc : ¬ plainCatches (formatterAfter f entry) entry a :=
          fun hc => hq.1 (hfm1 ▸ plainCatches_reserved _ _ _ hc)
        rw [decide_eq_true hq, decide_eq_true hc]
        rfl
      · rw [decide_eq_false hq]
        rfl
    rw [hcongr, List.filter_append]
    have hfixed : (fixedKeysOf f entry).filter
        (fun a => decide (a ∉ reservedNames f.FieldMap ∧ a ∈ entry.Data.keys)) = [] := by
      rw [List.filter_eq_nil_iff]
      intro a ha hd
      exact (of_decide_eq_true hd).1 (fixedKeysOf_subset_reserved f entry a ha)
    rw [hfixed, List.nil_append]
  refine ⟨(fixedKeysOf f entry ++ rangeKeys order (dataOf f entry)).filter
    (fun k => decide (¬ plainCatches (formatterAfter f entry) entry k)), ?_, hfilter, ?_⟩
  · rw [FormatRanged_eq]
    simp only [Option.map_some']
    unfold renderedLineRanged
    rw [if_neg (by rw [hplain]; exact Bool.noConfusion), orderKeys_unsorted f _ _ _ hds]
    unfold plainOutput
    simp only []
    have hkv : (plainWalk (formatterAfter f entry) entry (dataOf f entry)
        (fixedKeysOf f entry ++ rangeKeys order (dataOf f entry))
        (timestampFormatOf (formatterAfter f entry))).2
        = List.intercalate (formatterAfter f entry).FieldMapCom
          (((fixedKeysOf f entry ++ rangeKeys order (dataOf f entry)).filter
            (fun k => decide (¬ plainCatches (formatterAfter f entry) entry k))).map
            (fun k => k ++ (formatterAfter f entry).KvCom ++ fmtS ((dataOf f entry).get k))) := by
      unfold plainWalk
      rw [plainWalk_snd]
      apply foldl_kvAppend_nil
      intro e he
      rw [List.mem_map] at he
      obtain ⟨k, -, rfl⟩ := he
      intro h
      have := congrArg List.length h
      simp only [List.length_append, List.length_nil] at this
      exact hK1 (List.length_eq_zero.1 (by omega))
    rw [hkv]
  · rw [hfilter]
    refine (List.Perm.filter _ hperm).trans ?_
    rw [filter_keys_dataOf _ f entry hnd (fun k hk => (of_decide_eq_true hk).2)
        (fun k hk => decide_eq_false (fun h => h.1 hk))]
    apply List.Perm.of_eq
    apply List.filter_congr
    intro a ha
    exact decide_eq_decide.2 ⟨fun h => h.1, fun h => ⟨h, ha⟩⟩

theorem colored_range_order (order : List Str → List Str) (env : Env) (f : EaseFormatter)
    (entry : Entry) (hds : f.DisableSorting = true) (hnd : entry.Data.keys.Nodup)
    (hperm : rangesOnce order (dataOf f entry))
    (hcol : isColored env (formatterAfter f entry) = true) :
    ∃ kvKeys : List Str,
      (FormatRanged order env f entry).map (fun r => r.bytes)
        = some (entry.Buffer.getD []
            ++ replaceFirst
                (coloredWalk env (formatterAfter f entry) entry (rangeKeys order (dataOf f entry))
                  (dataOf f entry) (timestampFormatOf (formatterAfter f entry))
                  (levelTextShown (formatterAfter f entry) entry.Level)).1
                "%kv%".toList
                (List.intercalate (formatterAfter f entry).FieldMapCom
                  (coloredEntries (formatterAfter f entry) (dataOf f entry)
                    (levelColorOf entry.Level) kvKeys))
            ++ ['\n'])
      ∧ kvKeys.filter (fun k => decide (k ∉ reservedNames f.FieldMap ∧ k ∈ entry.Data.keys))
          = (rangeKeys order (dataOf f entry)).filter
              (fun k => decide (k ∉ reservedNames f.FieldMap ∧ k ∈ entry.Data.keys)
                && !matchAttr k)
      ∧ (kvKeys.filter (fun k => decide (k ∉ reservedNames f.FieldMap ∧ k ∈ entry.Data.keys))).Perm
          (entry.Data.keys.filter
            (fun k => decide (k ∉ reservedNames f.FieldMap ∧ matchAttr k = false))) := by
  have hfilter : ((rangeKeys order (dataOf f entry)).filter (fun k => !matchAttr k)).filter
        (fun k => decide (k ∉ reservedNames f.FieldMap ∧ k ∈ entry.Data.keys))
      = (rangeKeys order (dataOf f entry)).filter
          (fun k => decide (k ∉ reservedNames f.FieldMap ∧ k ∈ entry.Data.keys)
            && !matchAttr k) := by
    rw [List.filter_filter]
  refine ⟨(rangeKeys order (dataOf f entry)).filter (fun k => !matchAttr k), ?_, hfilter, ?_⟩
  · rw [FormatRanged_eq]
    simp only [Option.map_some']
    unfold renderedLineRanged
    rw [if_pos hcol, orderKeys_unsorted f _ _ _ hds, coloredLine_eq]
  · rw [hfilter]
    refine (List.Perm.filter _ hperm).trans ?_
    have h := filter_keys_dataOf
      (fun a => decide (a ∉ reservedNames f.FieldMap ∧ a ∈ entry.Data.keys) && !matchAttr a)
      f entry hnd
      (fun k hk => by
        rw [Bool.and_eq_true] at hk
        exact (of_decide_eq_true hk.1).2)
      (fun k hk => by
        rw [Bool.and_eq_false_iff]
        exact Or.inl (decide_eq_false (fun h => h.1 hk)))
    rw [h]
    apply List.Perm.of_eq
    apply List.filter_congr
    intro a ha
    by_cases hr : a ∈ reservedNames f.FieldMap
    · rw [decide_eq_false (fun h => h.1 hr), decide_eq_false (fun h => h.1 hr)]
      rfl
    · cases hm : matchAttr a
      · rw [decide_eq_true (⟨hr, ha⟩ : a ∉ reservedNames f.FieldMap ∧ a ∈ entry.Data.keys),
          decide_eq_true (⟨hr, rfl⟩ : a ∉ reservedNames f.FieldMap ∧ false = false)]
        rfl
      · rw [decide_eq_false (fun h => Bool.noConfusion h.2 :
          ¬ (a ∉ reservedNames f.FieldMap ∧ true = false))]
        simp

/-- C15 (counterexample): with `DisableSorting`, plain rendering and the input
fields `b`, `a` in that order, a range over the formatter's copy of the
mapping that visits `a` before `b` (a rearrangement of its keys) gives the
key-value text `a=1&b=2`: `a` comes before `b` in the output, after `b` in the
iteration of the input mapping. -/
theorem unsorted_output_follows_range_not_input :
    unsortedEntry.Data.keys = ["b".toList, "a".toList]
    ∧ rangeKeys List.reverse (dataOf unsortedFormatter unsortedEntry)
        = ["a".toList, "b".toList]
    ∧ rangesOnce List.reverse (dataOf unsortedFormatter unsortedEntry)
    ∧ (FormatRanged List.reverse plainEnv unsortedFormatter unsortedEntry).map
        (fun r => r.bytes)
      = some "2024-01-01T00:00:00Z INFO -- hello a=1&b=2\n".toList :=
  ⟨by decide, by decide, List.reverse_perm _, by decide⟩

/-- C15 (amended): for every record rendered with `DisableSorting=true` (the
input mapping with distinct keys), whatever the order in which the range over
the formatter's copy of the mapping visits the keys, the text substituted for
`%kv%` is the join of the entries of a key sequence `kvKeys` in which the
non-reserved input fields occur in the order of that range, each once:
keeping in `kvKeys` only the input keys that are not the resolved name of a
reserved key gives the same as keeping them in the ranged key sequence, and
that is a rearrangement of those keys of the input (in the colourised
renderer, of those not matched by the attr pattern, which are the ones that
reach the tail). -/
theorem unsorted_fields_follow_range_order (order : List Str → List Str) (env : Env)
    (f : EaseFormatter) (entry : Entry)
    (hds : f.DisableSorting = true) (hnd : entry.Data.keys.Nodup)
    (hperm : rangesOnce order (dataOf f entry)) :
    (isColored env (formatterAfter f entry) = false →
      ∃ kvKeys : List Str,
        (FormatRanged order env f entry).map (fun r => r.bytes)
          = some (entry.Buffer.getD []
              ++ replaceFirst
                  (plainWalk (formatterAfter f entry) entry (dataOf f entry)
                    (fixedKeysOf f entry ++ rangeKeys order (dataOf f entry))
                    (timestampFormatOf (formatterAfter f entry))).1
                  "%kv%".toList
                  (List.intercalate (formatterAfter f entry).FieldMapCom
                    (kvKeys.map (fun k => k ++ (formatterAfter f entry).KvCom
                      ++ fmtS ((dataOf f entry).get k))))
              ++ ['\n'])
        ∧ kvKeys.filter
              (fun k => decide (k ∉ reservedNames f.FieldMap ∧ k ∈ entry.Data.keys))
            = (rangeKeys order (dataOf f entry)).filter
                (fun k => decide (k ∉ reservedNames f.FieldMap ∧ k ∈ entry.Data.keys))
        ∧ (kvKeys.filter
              (fun k => decide (k ∉ reservedNames f.FieldMap ∧ k ∈ entry.Data.keys))).Perm
            (entry.Data.keys.filter (fun k => decide (k ∉ reservedNames f.FieldMap))))
    ∧ (isColored env (formatterAfter f entry) = true →
      ∃ kvKeys : List Str,
        (FormatRanged order env f entry).map (fun r => r.bytes)
          = some (entry.Buffer.getD []
              ++ replaceFirst
                  (coloredWalk env (formatterAfter f entry) entry
                    (rangeKeys order (dataOf f entry))
                    (dataOf f entry) (timestampFormatOf (formatterAfter f entry))
                    (levelTextShown (formatterAfter f entry) entry.Level)).1
                  "%kv%".toList
                  (List.intercalate (formatterAfter f entry).FieldMapCom
                    (coloredEntries (formatterAfter f entry) (dataOf f entry)
                      (levelColorOf entry.Level) kvKeys))
              ++ ['\n'])
        ∧ kvKeys.filter
              (fun k => decide (k ∉ reservedNames f.FieldMap ∧ k ∈ entry.Data.keys))
            = (rangeKeys order (dataOf f entry)).filter
                (fun k => decide (k ∉ reservedNames f.FieldMap ∧ k ∈ entry.Data.keys)
                  && !matchAttr k)
        ∧ (kvKeys.filter
              (fun k => decide (k ∉ reservedNames f.FieldMap ∧ k ∈ entry.Data.keys))).Perm
            (entry.Data.keys.filter
              (fun k => decide (k ∉ reservedNames f.FieldMap ∧ matchAttr k = false)))) :=
  ⟨plain_range_order order env f entry hds hnd hperm,
   colored_range_order order env f entry hds hnd hperm⟩

/-- C15 (amended), applied: sorting disabled, plain rendering of the fields
`b`, `attr1`, `time`, `a`, the range over the copy visiting its keys `b`, `a`,
`fields.time` in reverse. -/
theorem unsorted_fields_follow_range_order_witness :
    (unsortedFormatter.DisableSorting = true ∧ mixedEntry.Data.keys.Nodup
      ∧ rangesOnce List.reverse (dataOf unsortedFormatter mixedEntry)
      ∧ (FormatRanged List.reverse plainEnv unsortedFormatter mixedEntry).map
            (fun r => r.bytes)
          = some "2024-01-01T00:00:00Z INFO -- hello fields.time=t&a=1&b=2\n".toList)
    ∧ (isColored plainEnv (formatterAfter unsortedFormatter mixedEntry) = false →
      ∃ kvKeys : List Str,
        (FormatRanged List.reverse plainEnv unsortedFormatter mixedEntry).map
            (fun r => r.bytes)
          = some (mixedEntry.Buffer.getD []
              ++ replaceFirst
                  (plainWalk (formatterAfter unsortedFormatter mixedEntry) mixedEntry
                    (dataOf unsortedFormatter mixedEntry)
                    (fixedKeysOf unsortedFormatter mixedEntry
                      ++ rangeKeys List.reverse (dataOf unsortedFormatter mixedEntry))
                    (timestampFormatOf (formatterAfter unsortedFormatter mixedEntry))).1
                  "%kv%".toList
                  (List.intercalate (formatterAfter unsortedFormatter mixedEntry).FieldMapCom
                    (kvKeys.map (fun k => k ++ (formatterAfter unsortedFormatter mixedEntry).KvCom
                      ++ fmtS ((dataOf unsortedFormatter mixedEntry).get k))))
              ++ ['\n'])
        ∧ kvKeys.filter
              (fun k => decide (k ∉ reservedNames unsortedFormatter.FieldMap
                ∧ k ∈ mixedEntry.Data.keys))
            = (rangeKeys List.reverse (dataOf unsortedFormatter mixedEntry)).filter
                (fun k => decide (k ∉ reservedNames unsortedFormatter.FieldMap
                  ∧ k ∈ mixedEntry.Data.keys))
        ∧ (kvKeys.filter
              (fun k => decide (k ∉ reservedNames unsortedFormatter.FieldMap
                ∧ k ∈ mixedEntry.Data.keys))).Perm
            (mixedEntry.Data.keys.filter
              (fun k => decide (k ∉ reservedNames unsortedFormatter.FieldMap)))) :=
  ⟨⟨rfl, by decide, List.reverse_perm _, by decide⟩,
   (unsorted_fields_follow_range_order List.reverse plainEnv unsortedFormatter mixedEntry rfl
     (by decide) (List.reverse_perm _)).1⟩

/-! ## Fields that collide with a reserved name -/

theorem orderKeys_fst_perm_all (f : EaseFormatter) (c : Bool) (fk keys : List Str)
    (hsf : ∀ sortingFunc, f.SortingFunc = some sortingFunc →
      ∀ l : List Str, (sortingFunc l).Perm l)
    (hc : c = false ∨ f.SortingFunc = none ∨ f.DisableSorting = true) :
    ((orderKeys f c fk keys).1).Perm (fk ++ keys) := by
  unfold orderKeys
  cases hds : f.DisableSorting
  · cases hs : f.SortingFunc with
    | none =>
      simp only [Bool.not_false, if_true]
      exact List.Perm.append_left fk (List.perm_insertionSort _ keys)
    | some sf =>
      simp only [Bool.not_false, if_true]
      rcases hc with hc | hc | hc
      · subst hc
        simp only [Bool.not_false, if_true]
        exact hsf sf hs _
      · rw [hs] at hc
        exact absurd hc (by simp)
      · rw [hds] at hc
        exact absurd hc (by simp)
  · simp only [Bool.not_true, Bool.false_eq_true, if_false]
    exact List.Perm.refl _

theorem orderKeys_snd_perm_all (f : EaseFormatter) (c : Bool) (fk keys : List Str)
    (hsf : ∀ sortingFunc, f.SortingFunc = some sortingFunc →
      ∀ l : List Str, (sortingFunc l).Perm l) :
    ((orderKeys f c fk keys).2).Perm keys := by
  unfold orderKeys
  cases hds : f.DisableSorting
  · cases hs : f.SortingFunc with
    | none =>
      simp only [Bool.not_false, if_true]
      exact List.perm_insertionSort _ keys
    | some sf =>
      simp only [Bool.not_false, if_true]
      cases c
      · simp only [Bool.not_false, if_true]
        exact List.Perm.refl _
      · simp only [Bool.not_true, Bool.false_eq_true, if_false]
        exact hsf sf hs _
  · simp only [Bool.not_true, Bool.false_eq_true, if_false]
    exact List.Perm.refl _

theorem plainStep_attr (f : EaseFormatter) (entry : Entry) (data : Fields)
    (funcVal fileVal tf : Str) (acc : Str × Str) (n : Nat)
    (h1 : 1 ≤ n) (h5 : n ≤ 5)
    (ht : resolve f.FieldMap (attrKey n) ≠ resolve f.FieldMap FieldKeyTime)
    (hl : resolve f.FieldMap (attrKey n) ≠ resolve f.FieldMap FieldKeyLevel)
    (hm : resolve f.FieldMap (attrKey n) ≠ resolve f.FieldMap FieldKeyMsg)
    (hfn : entry.HasCaller = true →
      resolve f.FieldMap (attrKey n) ≠ resolve f.FieldMap FieldKeyFunc)
    (hfl : entry.HasCaller = true →
      resolve f.FieldMap (attrKey n) ≠ resolve f.FieldMap FieldKeyFile)
    (ha : ∀ m, 1 ≤ m → m < n →
      resolve f.FieldMap (attrKey n) ≠ resolve f.FieldMap (attrKey m)) :
    plainStep f entry data funcVal fileVal tf acc (resolve f.FieldMap (attrKey n))
      = (replaceFirst acc.1 (attrToken n)
          (fmtV (data.get (resolve f.FieldMap (attrKey n)))), acc.2) := by
  have e1 : Attr1 = attrKey 1 := by decide
  have e2 : Attr2 = attrKey 2 := by decide
  have e3 : Attr3 = attrKey 3 := by decide
  have e4 : Attr4 = attrKey 4 := by decide
  have e5 : Attr5 = attrKey 5 := by decide
  have t1 : "%attr1%".toList = attrToken 1 := by decide
  have t2 : "%attr2%".toList = attrToken 2 := by decide
  have t3 : "%attr3%".toList = attrToken 3 := by decide
  have t4 : "%attr4%".toList = attrToken 4 := by decide
  have t5 : "%attr5%".toList = attrToken 5 := by decide
  have hfn' : ¬ (resolve f.FieldMap (attrKey n) = resolve f.FieldMap FieldKeyFunc
      ∧ entry.HasCaller = true) := fun h => hfn h.2 h.1
  have hfl' : ¬ (resolve f.FieldMap (attrKey n) = resolve f.FieldMap FieldKeyFile
      ∧ entry.HasCaller = true) := fun h => hfl h.2 h.1
  unfold plainStep
  rw [if_neg ht, if_neg hl, if_neg hm, if_neg hfn', if_neg hfl', e1, e2, e3, e4, e5,
    t1, t2, t3, t4, t5]
  interval_cases n
  · rw [if_pos rfl]
  · rw [if_neg (ha 1 (by omega) (by omega)), if_pos rfl]
  · rw [if_neg (ha 1 (by omega) (by omega)), if_neg (ha 2 (by omega) (by omega)),
      if_pos rfl]
  · rw [if_neg (ha 1 (by omega) (by omega)), if_neg (ha 2 (by omega) (by omega)),
      if_neg (ha 3 (by omega) (by omega)), if_pos rfl]
  · rw [if_neg (ha 1 (by omega) (by omega)), if_neg (ha 2 (by omega) (by omega)),
      if_neg (ha 3 (by omega) (by omega)), if_neg (ha 4 (by omega) (by omega)),
      if_pos rfl]

theorem matchAttr_attrKey (n : Nat) (h1 : 1 ≤ n) (h5 : n ≤ 5) : matchAttr (attrKey n) = true := by
  interval_cases n <;> decide

theorem notRenamed_attrKey (n : Nat) (h1 : 1 ≤ n) (h5 : n ≤ 5) : notRenamed (attrKey n) := by
  interval_cases n <;> decide

theorem coloredStep_attr (f : EaseFormatter) (data : Fields) (levelColor : Nat)
    (acc : Str × Str) (n : Nat) (h1 : 1 ≤ n) (h5 : n ≤ 5) :
    coloredStep f data levelColor acc (attrKey n)
      = (replaceFirst acc.1 (attrToken n) (fmtV (data.get (attrKey n))), acc.2) := by
  unfold coloredStep
  rw [if_pos (matchAttr_attrKey n h1 h5)]
  rfl

theorem plainCatches_attr (f : EaseFormatter) (entry : Entry) (n : Nat)
    (h1 : 1 ≤ n) (h5 : n ≤ 5) : plainCatches f entry (resolve f.FieldMap (attrKey n)) := by
  have e1 : Attr1 = attrKey 1 := by decide
  have e2 : Attr2 = attrKey 2 := by decide
  have e3 : Attr3 = attrKey 3 := by decide
  have e4 : Attr4 = attrKey 4 := by decide
  have e5 : Attr5 = attrKey 5 := by decide
  unfold plainCatches
  rw [e1, e2, e3, e4, e5]
  interval_cases n
  · exact Or.inr (Or.inr (Or.inr (Or.inr (Or.inr (Or.inl rfl)))))
  · exact Or.inr (Or.inr (Or.inr (Or.inr (Or.inr (Or.inr (Or.inl rfl))))))
  · exact Or.inr (Or.inr (Or.inr (Or.inr (Or.inr (Or.inr (Or.inr (Or.inl rfl)))))))
  · exact Or.inr (Or.inr (Or.inr (Or.inr (Or.inr (Or.inr (Or.inr (Or.inr (Or.inl rfl))))))))
  · exact Or.inr (Or.inr (Or.inr (Or.inr (Or.inr (Or.inr (Or.inr (Or.inr (Or.inr rfl))))))))

theorem dataOf_kept (f : EaseFormatter) (entry : Entry) (a : Str)
    (hnodup : entry.Data.keys.Nodup) (hnr : notRenamed a)
    (ht : a ≠ resolve f.FieldMap FieldKeyTime) (hm : a ≠ resolve f.FieldMap FieldKeyMsg)
    (hl : a ≠ resolve f.FieldMap FieldKeyLevel)
    (he : a ≠ resolve f.FieldMap FieldKeyLogrusError) :
    (dataOf f entry).get? a = entry.Data.get? a := by
  unfold dataOf
  rw [copy_eq_append _ [] (by simpa using hnodup), List.nil_append]
  unfold prefixFieldClashes
  simp only []
  have h4 : (moveClash (moveClash (moveClash (moveClash entry.Data
      (resolve f.FieldMap FieldKeyTime)) (resolve f.FieldMap FieldKeyMsg))
      (resolve f.FieldMap FieldKeyLevel)) (resolve f.FieldMap FieldKeyLogrusError)).get? a
      = entry.Data.get? a := by
    rw [get?_moveClash_ne _ _ _ he (notRenamed_ne hnr _),
      get?_moveClash_ne _ _ _ hl (notRenamed_ne hnr _),
      get?_moveClash_ne _ _ _ hm (notRenamed_ne hnr _),
      get?_moveClash_ne _ _ _ ht (notRenamed_ne hnr _)]
  cases entry.HasCaller
  · exact h4
  · simp only [if_true]
    rw [get?_copyClash_ne _ _ _ (notRenamed_ne hnr _),
      get?_copyClash_ne _ _ _ (notRenamed_ne hnr _)]
    exact h4

theorem fixedKeysOf_mem (f : EaseFormatter) (entry : Entry) (k : Str)
    (hk : k ∈ fixedKeysOf f entry) :
    k = resolve f.FieldMap FieldKeyTime ∨ k = resolve f.FieldMap FieldKeyLevel
      ∨ k = resolve f.FieldMap FieldKeyMsg
      ∨ (entry.HasCaller = true
          ∧ (k = resolve f.FieldMap FieldKeyFunc ∨ k = resolve f.FieldMap FieldKeyFile)) := by
  unfold fixedKeysOf at hk
  cases hc : entry.HasCaller
  · rw [hc] at hk
    simp only [Bool.false_eq_true, if_false] at hk
    split_ifs at hk <;>
      simp only [List.nil_append, List.mem_append, List.mem_singleton, List.mem_cons,
        List.not_mem_nil, or_false] at hk <;> tauto
  · rw [hc] at hk
    simp only [if_true] at hk
    split_ifs at hk <;>
      simp only [List.nil_append, List.mem_append, List.mem_singleton, List.mem_cons,
        List.not_mem_nil, or_false] at hk <;> tauto

theorem split_of_perm {α : Type} [DecidableEq α] (l fk rk ks : List α) (a : α)
    (h : l.Perm (fk ++ rk)) (hrk : rk.Perm ks) (hnd : ks.Nodup) (hmem : a ∈ ks)
    (hfk : a ∉ fk) :
    ∃ pre post, l = pre ++ a :: post ∧ a ∉ pre ∧ a ∉ post := by
  have hcount : l.count a = 1 := by
    rw [h.count_eq, List.count_append, List.count_eq_zero_of_not_mem hfk, hrk.count_eq,
      List.count_eq_one_of_mem hnd hmem]
  have hmem : a ∈ l := List.count_pos_iff.1 (by rw [hcount]; exact Nat.one_pos)
  obtain ⟨pre, post, rfl⟩ := List.append_of_mem hmem
  refine ⟨pre, post, rfl, ?_, ?_⟩
  · intro h
    have := List.count_pos_iff.2 h
    rw [List.count_append, List.count_cons_self] at hcount
    omega
  · intro h
    have := List.count_pos_iff.2 h
    rw [List.count_append, List.count_cons_self] at hcount
    omega

theorem get_of_get? (data : Fields) (k : Str) (v : Value) (h : data.get? k = some v) :
    data.get k = v := by
  unfold Fields.get
  unfold Fields.get? at h
  rw [h]
  rfl

theorem attr_field_plain (order : List Str → List Str) (env : Env) (f : EaseFormatter)
    (entry : Entry) (n : Nat) (v : Value) (h1 : 1 ≤ n) (h5 : n ≤ 5)
    (hnodup : entry.Data.keys.Nodup)
    (hperm : rangesOnce order (dataOf f entry))
    (hsf : ∀ sortingFunc, f.SortingFunc = some sortingFunc →
      ∀ l : List Str, (sortingFunc l).Perm l)
    (hfield : entry.Data.get? (resolve f.FieldMap (attrKey n)) = some v)
    (hnr : notRenamed (resolve f.FieldMap (attrKey n)))
    (ht : resolve f.FieldMap (attrKey n) ≠ resolve f.FieldMap FieldKeyTime)
    (hm : resolve f.FieldMap (attrKey n) ≠ resolve f.FieldMap FieldKeyMsg)
    (hl : resolve f.FieldMap (attrKey n) ≠ resolve f.FieldMap FieldKeyLevel)
    (he : resolve f.FieldMap (attrKey n) ≠ resolve f.FieldMap FieldKeyLogrusError)
    (hplain : isColored env (formatterAfter f entry) = false)
    (hwf : f.terminalInitOnce = false → f.isTerminal = false)
    (hfn : entry.HasCaller = true →
      resolve f.FieldMap (attrKey n) ≠ resolve f.FieldMap FieldKeyFunc)
    (hfl : entry.HasCaller = true →
      resolve f.FieldMap (attrKey n) ≠ resolve f.FieldMap FieldKeyFile)
    (ha : ∀ m, 1 ≤ m → m < n →
      resolve f.FieldMap (attrKey n) ≠ resolve f.FieldMap (attrKey m)) :
    ∃ (res : FormatResult) (pre post : List Str),
      FormatRanged order env f entry = some res
      ∧ (orderKeys f (isColored env f) (fixedKeysOf f entry)
          (rangeKeys order (dataOf f entry))).1
          = pre ++ resolve f.FieldMap (attrKey n) :: post
      ∧ resolve f.FieldMap (attrKey n) ∉ pre
      ∧ resolve f.FieldMap (attrKey n) ∉ post
      ∧ res.bytes = entry.Buffer.getD []
          ++ replaceFirst
              (post.foldl
                (plainStep (formatterAfter f entry) entry (dataOf f entry)
                  (callerVals (formatterAfter f entry) entry).1
                  (callerVals (formatterAfter f entry) entry).2 (timestampFormatOf f))
                (replaceFirst
                  (pre.foldl
                    (plainStep (formatterAfter f entry) entry (dataOf f entry)
                      (callerVals (formatterAfter f entry) entry).1
                      (callerVals (formatterAfter f entry) entry).2 (timestampFormatOf f))
                    ((formatterAfter f entry).Formatter, [])).1
                  (attrToken n) (fmtV v),
                 (pre.foldl
                    (plainStep (formatterAfter f entry) entry (dataOf f entry)
                      (callerVals (formatterAfter f entry) entry).1
                      (callerVals (formatterAfter f entry) entry).2 (timestampFormatOf f))
                    ((formatterAfter f entry).Formatter, [])).2)).1
              "%kv%".toList
              (List.intercalate (formatterAfter f entry).FieldMapCom
                (((pre ++ post).filter
                    (fun k => decide (¬ plainCatches (formatterAfter f entry) entry k))).map
                  (fun k => k ++ (formatterAfter f entry).KvCom
                    ++ fmtS ((dataOf f entry).get k))))
          ++ ['\n'] := by
  obtain ⟨F, K, M, t, m, b, hshape, -, hK, -, -, htm⟩ := formatterAfter_shape f entry
  have hfm1 : (formatterAfter f entry).FieldMap = f.FieldMap := by rw [hshape]
  have hK1 : (formatterAfter f entry).KvCom ≠ [] := by rw [hshape]; exact hK
  have htf : timestampFormatOf (formatterAfter f entry) = timestampFormatOf f := by
    rw [hshape]; rfl
  have hpre : isColored env f = false := by
    cases hx : isColored env f
    · rfl
    · have : isColored env (formatterAfter f entry) = true := by
        rw [hshape]
        refine isColored_of_terminal_change env f F K M t m b hx ?_
        cases hi : f.terminalInitOnce
        · exact Or.inl (hwf hi)
        · exact Or.inr (htm hi)
      rw [hplain] at this
      exact absurd this Bool.noConfusion
  have hgetd : (dataOf f entry).get? (resolve f.FieldMap (attrKey n)) = some v := by
    rw [dataOf_kept f entry _ hnodup hnr ht hm hl he]
    exact hfield
  have hmemd := mem_keys_of_get? _ _ _ hgetd
  have hnotfixed : resolve f.FieldMap (attrKey n) ∉ fixedKeysOf f entry := by
    intro h
    rcases fixedKeysOf_mem f entry _ h with h | h | h | ⟨hc, h | h⟩
    · exact ht h
    · exact hl h
    · exact hm h
    · exact hfn hc h
    · exact hfl hc h
  have hwalkperm := orderKeys_fst_perm_all f (isColored env f) (fixedKeysOf f entry)
    (rangeKeys order (dataOf f entry)) hsf (Or.inl hpre)
  obtain ⟨pre, post, hsplit, hnpre, hnpost⟩ := split_of_perm _ _ _ _ _ hwalkperm hperm
    (nodup_keys_dataOf f entry) hmemd hnotfixed
  have hcatch : plainCatches (formatterAfter f entry) entry (resolve f.FieldMap (attrKey n)) := by
    have := plainCatches_attr (formatterAfter f entry) entry n h1 h5
    rw [hfm1] at this
    exact this
  have hstep : ∀ acc, plainStep (formatterAfter f entry) entry (dataOf f entry)
      (callerVals (formatterAfter f entry) entry).1
      (callerVals (formatterAfter f entry) entry).2 (timestampFormatOf f) acc
      (resolve f.FieldMap (attrKey n))
      = (replaceFirst acc.1 (attrToken n) (fmtV v), acc.2) := by
    intro acc
    have := plainStep_attr (formatterAfter f entry) entry (dataOf f entry)
      (callerVals (formatterAfter f entry) entry).1
      (callerVals (formatterAfter f entry) entry).2 (timestampFormatOf f) acc n h1 h5
      (by rw [hfm1]; exact ht) (by rw [hfm1]; exact hl) (by rw [hfm1]; exact hm)
      (by rw [hfm1]; exact hfn) (by rw [hfm1]; exact hfl) (by rw [hfm1]; exact ha)
    rw [hfm1, get_of_get? _ _ _ hgetd] at this
    exact this
  have hkv : (plainWalk (formatterAfter f entry) entry (dataOf f entry)
      (pre ++ resolve f.FieldMap (attrKey n) :: post) (timestampFormatOf f)).2
      = List.intercalate (formatterAfter f entry).FieldMapCom
        (((pre ++ resolve f.FieldMap (attrKey n) :: post).filter
          (fun k => decide (¬ plainCatches (formatterAfter f entry) entry k))).map
          (fun k => k ++ (formatterAfter f entry).KvCom ++ fmtS ((dataOf f entry).get k))) := by
    unfold plainWalk
    rw [plainWalk_snd]
    apply foldl_kvAppend_nil
    intro e he
    rw [List.mem_map] at he
    obtain ⟨k, -, rfl⟩ := he
    intro h
    have := congrArg List.length h
    simp only [List.length_append, List.length_nil] at this
    exact hK1 (List.length_eq_zero.1 (by omega))
  have hfilter : (pre ++ resolve f.FieldMap (attrKey n) :: post).filter
      (fun k => decide (¬ plainCatches (formatterAfter f entry) entry k))
      = (pre ++ post).filter
          (fun k => decide (¬ plainCatches (formatterAfter f entry) entry k)) := by
    rw [List.filter_append, List.filter_append,
      @List.filter_cons_of_neg Str
        (fun k => decide (¬ plainCatches (formatterAfter f entry) entry k))
        (resolve f.FieldMap (attrKey n)) post (fun hd => (of_decide_eq_true hd) hcatch)]
  refine ⟨_, pre, post, FormatRanged_eq order env f entry, hsplit, hnpre, hnpost, ?_⟩
  simp only []
  unfold renderedLineRanged
  rw [if_neg (by rw [hplain]; exact Bool.noConfusion), hsplit, htf]
  unfold plainOutput
  simp only []
  rw [hkv, hfilter]
  unfold plainWalk
  rw [List.foldl_append, List.foldl_cons, hstep]

theorem attr_field_colored (order : List Str → List Str) (env : Env) (f : EaseFormatter)
    (entry : Entry) (n : Nat) (v : Value) (h1 : 1 ≤ n) (h5 : n ≤ 5)
    (hnodup : entry.Data.keys.Nodup)
    (hperm : rangesOnce order (dataOf f entry))
    (hsf : ∀ sortingFunc, f.SortingFunc = some sortingFunc →
      ∀ l : List Str, (sortingFunc l).Perm l)
    (hfield : entry.Data.get? (resolve f.FieldMap (attrKey n)) = some v)
    (ht : resolve f.FieldMap (attrKey n) ≠ resolve f.FieldMap FieldKeyTime)
    (hm : resolve f.FieldMap (attrKey n) ≠ resolve f.FieldMap FieldKeyMsg)
    (hl : resolve f.FieldMap (attrKey n) ≠ resolve f.FieldMap FieldKeyLevel)
    (he : resolve f.FieldMap (attrKey n) ≠ resolve f.FieldMap FieldKeyLogrusError)
    (hcol : isColored env (formatterAfter f entry) = true)
    (hself : resolve f.FieldMap (attrKey n) = attrKey n) :
    ∃ (res : FormatResult) (pre post : List Str),
      FormatRanged order env f entry = some res
      ∧ (orderKeys f (isColored env f) (fixedKeysOf f entry)
          (rangeKeys order (dataOf f entry))).2
          = pre ++ resolve f.FieldMap (attrKey n) :: post
      ∧ resolve f.FieldMap (attrKey n) ∉ pre
      ∧ resolve f.FieldMap (attrKey n) ∉ post
      ∧ res.bytes = entry.Buffer.getD []
          ++ replaceFirst
              (post.foldl
                (coloredStep (formatterAfter f entry) (dataOf f entry)
                  (levelColorOf entry.Level))
                (replaceFirst
                  (pre.foldl
                    (coloredStep (formatterAfter f entry) (dataOf f entry)
                      (levelColorOf entry.Level))
                    (coloredHead env (formatterAfter f entry)
                      { entry with Message := trimSuffixNL entry.Message }
                      (timestampFormatOf f) (levelColorOf entry.Level)
                      (levelTextShown f entry.Level) (trimSuffixNL entry.Message), [])).1
                  (attrToken n) (fmtV v),
                 (pre.foldl
                    (coloredStep (formatterAfter f entry) (dataOf f entry)
                      (levelColorOf entry.Level))
                    (coloredHead env (formatterAfter f entry)
                      { entry with Message := trimSuffixNL entry.Message }
                      (timestampFormatOf f) (levelColorOf entry.Level)
                      (levelTextShown f entry.Level) (trimSuffixNL entry.Message), [])).2)).1
              "%kv%".toList
              (List.intercalate (formatterAfter f entry).FieldMapCom
                (coloredEntries (formatterAfter f entry) (dataOf f entry)
                  (levelColorOf entry.Level)
                  ((pre ++ post).filter (fun k => !matchAttr k))))
          ++ ['\n'] := by
  obtain ⟨F, K, M, t, m, b, hshape, -, -, -, -, -⟩ := formatterAfter_shape f entry
  have htf : timestampFormatOf (formatterAfter f entry) = timestampFormatOf f := by
    rw [hshape]; rfl
  have hlt : levelTextShown (formatterAfter f entry) entry.Level
      = levelTextShown f entry.Level := by
    rw [hshape]; rfl
  have hnr : notRenamed (resolve f.FieldMap (attrKey n)) := by
    rw [hself]
    exact notRenamed_attrKey n h1 h5
  have hgetd : (dataOf f entry).get? (resolve f.FieldMap (attrKey n)) = some v := by
    rw [dataOf_kept f entry _ hnodup hnr ht hm hl he]
    exact hfield
  have hmemd := mem_keys_of_get? _ _ _ hgetd
  have hkeysperm := orderKeys_snd_perm_all f (isColored env f) (fixedKeysOf f entry)
    (rangeKeys order (dataOf f entry)) hsf
  obtain ⟨pre, post, hsplit, hnpre, hnpost⟩ := split_of_perm
    (orderKeys f (isColored env f) (fixedKeysOf f entry) (rangeKeys order (dataOf f entry))).2
    [] (rangeKeys order (dataOf f entry)) (dataOf f entry).keys
    (resolve f.FieldMap (attrKey n)) hkeysperm hperm
    (nodup_keys_dataOf f entry) hmemd (List.not_mem_nil _)
  have hstep : ∀ acc, coloredStep (formatterAfter f entry) (dataOf f entry)
      (levelColorOf entry.Level) acc (resolve f.FieldMap (attrKey n))
      = (replaceFirst acc.1 (attrToken n) (fmtV v), acc.2) := by
    intro acc
    have := coloredStep_attr (formatterAfter f entry) (dataOf f entry)
      (levelColorOf entry.Level) acc n h1 h5
    rw [← hself, get_of_get? _ _ _ hgetd] at this
    exact this
  have hfilter : (pre ++ resolve f.FieldMap (attrKey n) :: post).filter
      (fun k => !matchAttr k) = (pre ++ post).filter (fun k => !matchAttr k) := by
    rw [List.filter_append, List.filter_append,
      @List.filter_cons_of_neg Str (fun k => !matchAttr k)
        (resolve f.FieldMap (attrKey n)) post
        (by rw [hself]; simp only [matchAttr_attrKey n h1 h5]; decide)]
  refine ⟨_, pre, post, FormatRanged_eq order env f entry, hsplit, hnpre, hnpost, ?_⟩
  simp only []
  unfold renderedLineRanged
  rw [if_pos hcol, hsplit, htf, hlt, coloredLine_eq, hfilter]
  unfold coloredWalk
  rw [List.foldl_append, List.foldl_cons, hstep]

/-- C7 (amended): a field whose name `a` is the resolved name of attrN (N in
1..5) and is not the resolved name of time, msg, level or logrus_error (so
that `prefixFieldClashes` leaves it in place) is substituted through `Format`
for the first occurrence of `%attrN%` and is not among the keys joined into
the text substituted for `%kv%`.  For every order of the range over the field
map and every comparator that rearranges its input: in plain rendering, from a
formatter whose terminal flag is only ever set by the probe, if `a` does not
begin with `fields.` and is not caught by an earlier case of the switch (the
resolved names of func and file when the record has a caller, and of attrM for
M below N), the key sequence walked is `pre ++ a :: post` with `a` in neither
part, and the output is the buffer's content, then the text obtained by
walking `pre` from the template, replacing the first `%attrN%` in the text so
far by the `%v` rendering of the field's value, walking `post`, and replacing
the first `%kv%` by the join of the entries of the keys of `pre` and `post`
that reach the default case, then a newline.  In colourised rendering, where
FieldMap is not consulted, the same holds of the loop of `printColored` when
FieldMap resolves attrN to itself. -/
theorem attr_field_fills_placeholder (order : List Str → List Str) (env : Env)
    (f : EaseFormatter) (entry : Entry) (n : Nat) (v : Value) (h1 : 1 ≤ n) (h5 : n ≤ 5)
    (hnodup : entry.Data.keys.Nodup)
    (hperm : rangesOnce order (dataOf f entry))
    (hsf : ∀ sortingFunc, f.SortingFunc = some sortingFunc →
      ∀ l : List Str, (sortingFunc l).Perm l)
    (hfield : entry.Data.get? (resolve f.FieldMap (attrKey n)) = some v)
    (ht : resolve f.FieldMap (attrKey n) ≠ resolve f.FieldMap FieldKeyTime)
    (hm : resolve f.FieldMap (attrKey n) ≠ resolve f.FieldMap FieldKeyMsg)
    (hl : resolve f.FieldMap (attrKey n) ≠ resolve f.FieldMap FieldKeyLevel)
    (he : resolve f.FieldMap (attrKey n) ≠ resolve f.FieldMap FieldKeyLogrusError) :
    (isColored env (formatterAfter f entry) = false →
      notRenamed (resolve f.FieldMap (attrKey n)) →
      (f.terminalInitOnce = false → f.isTerminal = false) →
      (entry.HasCaller = true →
        resolve f.FieldMap (attrKey n) ≠ resolve f.FieldMap FieldKeyFunc) →
      (entry.HasCaller = true →
        resolve f.FieldMap (attrKey n) ≠ resolve f.FieldMap FieldKeyFile) →
      (∀ m, 1 ≤ m → m < n →
        resolve f.FieldMap (attrKey n) ≠ resolve f.FieldMap (attrKey m)) →
      ∃ (res : FormatResult) (pre post : List Str),
        FormatRanged order env f entry = some res
        ∧ (orderKeys f (isColored env f) (fixedKeysOf f entry)
            (rangeKeys order (dataOf f entry))).1
            = pre ++ resolve f.FieldMap (attrKey n) :: post
        ∧ resolve f.FieldMap (attrKey n) ∉ pre
        ∧ resolve f.FieldMap (attrKey n) ∉ post
        ∧ res.bytes = entry.Buffer.getD []
            ++ replaceFirst
                (post.foldl
                  (plainStep (formatterAfter f entry) entry (dataOf f entry)
                    (callerVals (formatterAfter f entry) entry).1
                    (callerVals (formatterAfter f entry) entry).2 (timestampFormatOf f))
                  (replaceFirst
                    (pre.foldl
                      (plainStep (formatterAfter f entry) entry (dataOf f entry)
                        (callerVals (formatterAfter f entry) entry).1
                        (callerVals (formatterAfter f entry) entry).2 (timestampFormatOf f))
                      ((formatterAfter f entry).Formatter, [])).1
                    (attrToken n) (fmtV v),
                   (pre.foldl
                      (plainStep (formatterAfter f entry) entry (dataOf f entry)
                        (callerVals (formatterAfter f entry) entry).1
                        (callerVals (formatterAfter f entry) entry).2 (timestampFormatOf f))
                      ((formatterAfter f entry).Formatter, [])).2)).1
                "%kv%".toList
                (List.intercalate (formatterAfter f entry).FieldMapCom
                  (((pre ++ post).filter
                      (fun k => decide (¬ plainCatches (formatterAfter f entry) entry k))).map
                    (fun k => k ++ (formatterAfter f entry).KvCom
                      ++ fmtS ((dataOf f entry).get k))))
            ++ ['\n'])
    ∧ (isColored env (formatterAfter f entry) = true →
        resolve f.FieldMap (attrKey n) = attrKey n →
      ∃ (res : FormatResult) (pre post : List Str),
        FormatRanged order env f entry = some res
        ∧ (orderKeys f (isColored env f) (fixedKeysOf f entry)
            (rangeKeys order (dataOf f entry))).2
            = pre ++ resolve f.FieldMap (attrKey n) :: post
        ∧ resolve f.FieldMap (attrKey n) ∉ pre
        ∧ resolve f.FieldMap (attrKey n) ∉ post
        ∧ res.bytes = entry.Buffer.getD []
            ++ replaceFirst
                (post.foldl
                  (coloredStep (formatterAfter f entry) (dataOf f entry)
                    (levelColorOf entry.Level))
                  (replaceFirst
                    (pre.foldl
                      (coloredStep (formatterAfter f entry) (dataOf f entry)
                        (levelColorOf entry.Level))
                      (coloredHead env (formatterAfter f entry)
                        { entry with Message := trimSuffixNL entry.Message }
                        (timestampFormatOf f) (levelColorOf entry.Level)
                        (levelTextShown f entry.Level) (trimSuffixNL entry.Message), [])).1
                    (attrToken n) (fmtV v),
                   (pre.foldl
                      (coloredStep (formatterAfter f entry) (dataOf f entry)
                        (levelColorOf entry.Level))
                      (coloredHead env (formatterAfter f entry)
                        { entry with Message := trimSuffixNL entry.Message }
                        (timestampFormatOf f) (levelColorOf entry.Level)
                        (levelTextShown f entry.Level) (trimSuffixNL entry.Message), [])).2)).1
                "%kv%".toList
                (List.intercalate (formatterAfter f entry).FieldMapCom
                  (coloredEntries (formatterAfter f entry) (dataOf f entry)
                    (levelColorOf entry.Level)
                    ((pre ++ post).filter (fun k => !matchAttr k))))
            ++ ['\n']) :=
  ⟨fun hplain hnr hwf hfn hfl ha =>
     attr_field_plain order env f entry n v h1 h5 hnodup hperm hsf hfield hnr ht hm hl he
       hplain hwf hfn hfl ha,
   attr_field_colored order env f entry n v h1 h5 hnodup hperm hsf hfield ht hm hl he⟩

/-- C7 (amended), applied: the template `%attr2%|%kv%`, plain rendering, the
fields `b="2"`, `attr2="v"`, `a="1"`, the range over the field map in reverse
list order. -/
theorem attr_field_fills_placeholder_witness :
    (attrTwoEntry.Data.keys.Nodup
      ∧ rangesOnce List.reverse (dataOf attrTwoFormatter attrTwoEntry)
      ∧ attrTwoEntry.Data.get? (resolve attrTwoFormatter.FieldMap (attrKey 2))
          = some (.str "v".toList)
      ∧ isColored plainEnv (formatterAfter attrTwoFormatter attrTwoEntry) = false
      ∧ (FormatRanged List.reverse plainEnv attrTwoFormatter attrTwoEntry).map
            (fun res => res.bytes) = some "v|a=1&b=2\n".toList)
    ∧ ∃ (res : FormatResult) (pre post : List Str),
        FormatRanged List.reverse plainEnv attrTwoFormatter attrTwoEntry = some res
        ∧ (orderKeys attrTwoFormatter (isColored plainEnv attrTwoFormatter)
            (fixedKeysOf attrTwoFormatter attrTwoEntry)
            (rangeKeys List.reverse (dataOf attrTwoFormatter attrTwoEntry))).1
            = pre ++ "attr2".toList :: post
        ∧ "attr2".toList ∉ pre ∧ "attr2".toList ∉ post := by
  refine ⟨⟨by decide, List.reverse_perm _, by decide, by decide, by decide⟩, ?_⟩
  obtain ⟨res, pre, post, h1, h2, h3, h4, -⟩ :=
    (attr_field_fills_placeholder List.reverse plainEnv attrTwoFormatter attrTwoEntry 2
      (.str "v".toList) (by decide) (by decide) (by decide) (List.reverse_perm _)
      (fun _ hs => Option.noConfusion hs) (by decide) (by decide) (by decide) (by decide)
      (by decide)).1 (by decide) (by decide) (fun _ => rfl) (fun _ => by decide)
      (fun _ => by decide)
      (fun m hm1 hm2 => by
        have hm : m = 1 := by omega
        subst hm
        decide)
  exact ⟨res, pre, post, h1, h2, h3, h4⟩

end SelfFormatter
